import Mathlib

/-!
# Standard_Query_Cache: a sharded TTL key/value cache

A shallow embedding of `src/lib/Standard_Query_Cache.cpp`.

* Pointers to `QC_entry_t` are natural numbers (addresses).  Every entry stores its own
  address in its `self` field (`entry->self=entry` in `set`), so the records owned by a
  shard are kept in the shard's `ptrArray` in positional order and the `bt_map` binds a
  key to the address of an entry; dereferencing an address searches the shard's sequence.
* `uint64_t` / `uint32_t` arithmetic is arithmetic on `Nat` reduced modulo `2^64` / `2^32`.
* `time_t` is `Int` (signed overflow is undefined behaviour in C and is not modelled).
* The thread-local accumulators `__thr_*` are those of the calling thread; `new_thread`
  passes to a thread that has made no call yet (its accumulators are zero).
* `float` arithmetic is single precision, round to nearest, on exact rationals.
* `SpookyHash::Hash64` is external and is a parameter of `get` and `set`.
-/

namespace QueryCache

/-! ## Constants and machine integers -/

def EXPIRE_DROPIT : Int := 0

def SHARED_QUERY_CACHE_HASH_TABLES : Nat := 32

def HASH_EXPIRE_MAX : Int := 3600*24*365*10

def DEFAULT_purge_threshold_pct_min : Nat := 3

def DEFAULT_purge_threshold_pct_max : Nat := 90

def DEFAULT_SQC_size : Nat := 4*1024*1024

/-- The modulus of `uint64_t`. -/
abbrev U64 : Nat := 18446744073709551616

/-- The modulus of `uint32_t`. -/
abbrev U32 : Nat := 4294967296

/-- Conversion of an unsigned size to `int` (two's complement, 32 bits). -/
def to_int (n : Nat) : Int :=
  if n % U32 < 2147483648 then ((n % U32 : Nat) : Int) else ((n % U32 : Nat) : Int) - 4294967296

/-- Conversion of a signed integer to `uint64_t`. -/
def to_uint64 (z : Int) : Nat := (z % (U64 : Int)).toNat

/-! ## Single-precision arithmetic

A finite non-negative `float` is a pair `(m, e)` standing for `m * 2^e`, with
`2^23 ≤ m < 2^24` unless it is zero.  The values met here stay far inside the range of
normal numbers (between `2^-64` and `2^71`), so neither overflow nor subnormal numbers
arise. -/

/-- The number of binary digits of `n` (`fuel` bounds the digits examined; `n` itself is
always enough). -/
def bit_length : Nat → Nat → Nat
  | 0, _ => 0
  | fuel + 1, n => if n = 0 then 0 else bit_length fuel (n / 2) + 1

/-- The integer nearest to `n / d`, ties to the even one (the IEEE 754 default rounding). -/
def round_half_even (n d : Nat) : Nat :=
  if 2 * (n % d) > d ∨ (2 * (n % d) = d ∧ n / d % 2 = 1) then n / d + 1 else n / d

/-- The fraction `(n / d) / 2^k` as a numerator and a denominator. -/
def float_scale (n d : Nat) (k : Int) : Nat × Nat :=
  if k ≥ 0 then (n, d * 2 ^ k.toNat) else (n * 2 ^ (-k).toNat, d)

/-- The `float` nearest to `(n / d) * 2^x` for `d > 0`: the exponent `k` is chosen so that
`(n / d) / 2^k` lies in `[2^23, 2^24)`, and the quotient is rounded to a 24-bit
significand. -/
def float_round (n d : Nat) (x : Int) : Nat × Int :=
  if n = 0 then (0, 0)
  else
    let k0 : Int := (bit_length n n : Int) - (bit_length d d : Int) - 24
    let s0 := float_scale n d k0
    let k : Int := if s0.1 ≥ 16777216 * s0.2 then k0 + 1 else k0
    let s := float_scale n d k
    let m := round_half_even s.1 s.2
    if m = 16777216 then (8388608, k + 1 + x) else (m, k + x)

/-- The bytes `sizeof(QC_entry_t)+sizeof(QC_entry_t *)*2+sizeof(uint64_t)*2` on an LP64
target: the struct is 64 bytes (four 8-byte words, two `uint32_t`, two `time_t`, one
`uint32_t` padded to 8), a pointer and a `uint64_t` are 8 bytes each. -/
def ENTRY_OVERHEAD : Nat := 64 + 8*2 + 8*2

/-! ## Counters -/

/-- The macro `THR_UPDATE_CNT(__a, __b, __c, __d)`: returns the new `(__a, __b)`. -/
def THR_UPDATE_CNT (a b c d : Nat) : Nat × Nat :=
  let a1 := (a + c) % U64
  if a1 ≥ d then (a1 % d, (b + (a1 - a1 % d)) % U64) else (a1, b)

/-- The macro `THR_DECREASE_CNT(__a, __b, __c, __d)`: returns the new `(__a, __b)`. -/
def THR_DECREASE_CNT (a b c d : Nat) : Nat × Nat :=
  let a1 := (a + c) % U64
  if a1 ≥ d then (a1 % d, (b + (U64 - (a1 - a1 % d) % U64)) % U64) else (a1, b)

/-- The thread-local accumulators of the calling thread and the process-wide counters. -/
structure Counters where
  __thr_cntSet : Nat
  __thr_cntGet : Nat
  __thr_cntGetOK : Nat
  __thr_dataIN : Nat
  __thr_dataOUT : Nat
  __thr_num_entries : Nat
  __thr_num_deleted : Nat
  __thr_size_values : Nat
  Glo_cntSet : Nat
  Glo_cntGet : Nat
  Glo_cntGetOK : Nat
  Glo_num_entries : Nat
  Glo_dataIN : Nat
  Glo_dataOUT : Nat
  Glo_cntPurge : Nat
  Glo_size_values : Nat
  Glo_total_freed_memory : Nat
deriving DecidableEq

/-- All counters at their static initial value. -/
def Counters.zero : Counters :=
  { __thr_cntSet := 0, __thr_cntGet := 0, __thr_cntGetOK := 0, __thr_dataIN := 0, __thr_dataOUT := 0,
    __thr_num_entries := 0, __thr_num_deleted := 0, __thr_size_values := 0,
    Glo_cntSet := 0, Glo_cntGet := 0, Glo_cntGetOK := 0, Glo_num_entries := 0,
    Glo_dataIN := 0, Glo_dataOUT := 0, Glo_cntPurge := 0, Glo_size_values := 0,
    Glo_total_freed_memory := 0 }

/-! ## Entries -/

/-- The struct `__QC_entry_t`.  `self` is the entry's own address; the back pointer `kv`
is never written by the source and is left out. -/
structure QC_entry_t where
  key : Nat
  value : List Nat
  self : Nat
  klen : Nat
  length : Nat
  expire : Int
  access : Int
  ref_count : Nat
deriving DecidableEq

/-- Reading through a pointer: the entry of the sequence stored at address `p`. -/
def deref (p : Nat) (arr : List QC_entry_t) : Option QC_entry_t :=
  arr.find? (fun e => e.self == p)

/-- Writing through a pointer: the entry at address `p` becomes `f` of itself. -/
def store (p : Nat) (f : QC_entry_t → QC_entry_t) (arr : List QC_entry_t) : List QC_entry_t :=
  arr.map (fun e => if e.self = p then f e else e)

/-- Atomic `__sync_fetch_and_add(&ref_count,1)` on a `uint32_t`. -/
def ref_inc (e : QC_entry_t) : QC_entry_t := { e with ref_count := (e.ref_count + 1) % U32 }

/-- Atomic `__sync_fetch_and_sub(&ref_count,1)` on a `uint32_t`: zero wraps around to
`2^32 - 1`. -/
def ref_dec (e : QC_entry_t) : QC_entry_t :=
  { e with ref_count := if e.ref_count = 0 then U32 - 1 else e.ref_count - 1 }

/-! ## The ordered map `btree::btree_map<uint64_t, QC_entry_t *>`

Bindings are kept in increasing key order, so the head of the list is `begin()`. -/

abbrev BtMap := List (Nat × Nat)

/-- The pointer bound to `key` (`bt_map.find(key)`), if any. -/
def bt_find (key : Nat) : BtMap → Option Nat
  | [] => none
  | (k, p) :: m => if k = key then some p else bt_find key m

/-- Erasing the binding that `find(key)` returned. -/
def bt_erase (key : Nat) (m : BtMap) : BtMap :=
  m.filter (fun b => b.1 ≠ key)

/-- Insertion `bt_map.insert(std::make_pair(key,p))`: keeps key order, and leaves the map
unchanged when the key is bound already. -/
def bt_insert (key p : Nat) : BtMap → BtMap
  | [] => [(key, p)]
  | (k, q) :: m =>
    if key < k then (key, p) :: (k, q) :: m
    else if key = k then (k, q) :: m
    else (k, q) :: bt_insert key p m

/-! ## The positional sequence `PtrArray`

The class is declared in cpp.h, which is not part of the sources at hand.  The sequence is
a list of the entries pointed to: `add` appends, `index(i)` reads position `i`, `len` is the
length. -/

/-- Modelled from the spec: `PtrArray::remove_index_fast` (declared in cpp.h, which is not
part of the sources at hand) removes the element at index `i` in constant time by
moving the last element into its place ("O(1) remove-by-index via swap-with-last"). -/
def remove_index_fast (arr : List QC_entry_t) (i : Nat) : List QC_entry_t :=
  arr.take i ++
    (match (arr.drop (i + 1)).getLast? with
     | none => []
     | some last => last :: (arr.drop (i + 1)).dropLast)

/-! ## Shards -/

/-- The class `KV_BtreeArray` (the lock is not modelled; `purgeChunkSize` and `purgeIdx`
are never used). -/
structure KV_BtreeArray where
  bt_map : BtMap
  ptrArray : List QC_entry_t
  freeable_memory : Nat
  tottopurge : Nat
deriving DecidableEq

namespace KV_BtreeArray

/-- The constructor `KV_BtreeArray()`. -/
def new : KV_BtreeArray :=
  { bt_map := [], ptrArray := [], freeable_memory := 0, tottopurge := 0 }

/-- The method `get_data_size`: it reads the process-wide counters only. -/
def get_data_size (st : Counters) : Nat :=
  (st.Glo_num_entries * ENTRY_OVERHEAD + st.Glo_size_values) % U64

/-- The test `qce->expire==EXPIRE_DROPIT || qce->expire<QCnow`. -/
def evictable (QCnow : Int) (qce : QC_entry_t) : Bool :=
  decide (qce.expire = EXPIRE_DROPIT) || decide (qce.expire < QCnow)

/-- The first loop of `purge_some` (under the read lock): `(ret, _size)`. -/
def purge_scan (QCnow : Int) (arr : List QC_entry_t) : Nat × Nat :=
  arr.foldl
    (fun acc qce =>
      if evictable QCnow qce then ((acc.1 + 1) % U64, (acc.2 + qce.length) % U64) else acc)
    (0, 0)

/-- The yield test `(freeable_memory + ret * overhead) > get_data_size()*0.01`.  The
source compares in double precision; below `2^53` both sides are exact there up to the
rounding of the constant `0.01`, and the test is taken here in exact arithmetic. -/
def purge_gate (freeable_memory ret : Nat) (st : Counters) : Bool :=
  decide (get_data_size st < 100 * ((freeable_memory + ret * ENTRY_OVERHEAD) % U64))

/-- The second loop of `purge_some` (under the write lock), started at index `i` with the
accumulators `freed_memory` and `removed_entries`.  After a removal the source steps `i`
back, so the same index is examined again.  Every iteration either removes an element or
advances `i`, so `fuel = ptrArray.len - i` iterations reach the loop exit. -/
def purge_loop (QCnow : Int) :
    Nat → Nat → KV_BtreeArray → Nat → Nat → KV_BtreeArray × Nat × Nat
  | 0, _, kv, freed_memory, removed_entries => (kv, freed_memory, removed_entries)
  | fuel + 1, i, kv, freed_memory, removed_entries =>
    match kv.ptrArray.get? i with
    | none => (kv, freed_memory, removed_entries)
    | some qce =>
      if evictable QCnow qce && decide (qce.ref_count ≤ 1) then
        purge_loop QCnow fuel i
          { kv with ptrArray := remove_index_fast kv.ptrArray i,
                    bt_map := bt_erase qce.key kv.bt_map }
          ((freed_memory + qce.length) % U64) ((removed_entries + 1) % U64)
      else
        purge_loop QCnow fuel (i + 1) kv freed_memory removed_entries

/-- The counter updates at the end of `purge_some`. -/
def purge_account (freed_memory removed_entries : Nat) (st : Counters) : Counters :=
  let r := THR_DECREASE_CNT st.__thr_num_deleted st.Glo_num_entries removed_entries 1
  let st1 := { st with __thr_num_deleted := r.1, Glo_num_entries := r.2 }
  if removed_entries ≠ 0 then
    { st1 with
      Glo_total_freed_memory := (st1.Glo_total_freed_memory + freed_memory) % U64,
      Glo_size_values := (st1.Glo_size_values + (U64 - freed_memory % U64)) % U64,
      Glo_cntPurge := (st1.Glo_cntPurge + removed_entries) % U64 }
  else st1

/-- The method `purge_some(QCnow)`. -/
def purge_some (QCnow : Int) (kv : KV_BtreeArray) (st : Counters) :
    KV_BtreeArray × Counters :=
  let scan := purge_scan QCnow kv.ptrArray
  let kv1 := { kv with freeable_memory := scan.2 }
  if purge_gate kv1.freeable_memory scan.1 st then
    let r := purge_loop QCnow kv1.ptrArray.length 0 kv1 0 0
    (r.1, purge_account r.2.1 r.2.2 st)
  else (kv1, st)

/-- The method `cnt`: the map's size, returned as an `int`. -/
def cnt (kv : KV_BtreeArray) : Int := to_int kv.bt_map.length

/-- The method `replace(key, entry)`; `entry` is the record `set` has prepared, not yet in
any sequence. -/
def replace (key : Nat) (entry : QC_entry_t) (kv : KV_BtreeArray) (st : Counters) :
    KV_BtreeArray × Counters :=
  let c1 := THR_UPDATE_CNT st.__thr_cntSet st.Glo_cntSet 1 100
  let c2 := THR_UPDATE_CNT st.__thr_size_values st.Glo_size_values entry.length 100
  let c3 := THR_UPDATE_CNT st.__thr_dataIN st.Glo_dataIN entry.length 100
  let c4 := THR_UPDATE_CNT st.__thr_num_entries st.Glo_num_entries 1 1
  let st1 := { st with
    __thr_cntSet := c1.1, Glo_cntSet := c1.2,
    __thr_size_values := c2.1, Glo_size_values := c2.2,
    __thr_dataIN := c3.1, Glo_dataIN := c3.2,
    __thr_num_entries := c4.1, Glo_num_entries := c4.2 }
  let arr := kv.ptrArray ++ [{ entry with ref_count := 1 }]
  match bt_find key kv.bt_map with
  | some old =>
    ({ kv with
       ptrArray := store old (fun e => ref_dec { e with expire := EXPIRE_DROPIT }) arr,
       bt_map := bt_insert key entry.self (bt_erase key kv.bt_map) }, st1)
  | none =>
    ({ kv with ptrArray := arr, bt_map := bt_insert key entry.self kv.bt_map }, st1)

/-- The method `lookup(key)`: the borrowed pointer, or `none` for `NULL`.  A bound pointer
that is not the address of an entry of the sequence would be dangling; the source has no
defined behaviour there and the model reports `NULL`. -/
def lookup (key : Nat) (kv : KV_BtreeArray) (st : Counters) :
    KV_BtreeArray × Counters × Option Nat :=
  let c1 := THR_UPDATE_CNT st.__thr_cntGet st.Glo_cntGet 1 100
  let st1 := { st with __thr_cntGet := c1.1, Glo_cntGet := c1.2 }
  match bt_find key kv.bt_map with
  | none => (kv, st1, none)
  | some p =>
    match deref p kv.ptrArray with
    | none => (kv, st1, none)
    | some e =>
      let c2 := THR_UPDATE_CNT st1.__thr_cntGetOK st1.Glo_cntGetOK 1 100
      let c3 := THR_UPDATE_CNT st1.__thr_dataOUT st1.Glo_dataOUT e.length 10000
      ({ kv with ptrArray := store p ref_inc kv.ptrArray },
       { st1 with __thr_cntGetOK := c2.1, Glo_cntGetOK := c2.2,
                  __thr_dataOUT := c3.1, Glo_dataOUT := c3.2 },
       some p)

/-- The loop of `empty`: while the map is not empty, mark the entry bound at `begin()`
and erase that binding.  Returns the final map and sequence. -/
def empty_loop : BtMap → List QC_entry_t → BtMap × List QC_entry_t
  | [], arr => ([], arr)
  | (_, p) :: m, arr => empty_loop m (store p (fun e => { e with expire := EXPIRE_DROPIT }) arr)

/-- The method `empty`. -/
def empty (kv : KV_BtreeArray) : KV_BtreeArray :=
  let r := empty_loop kv.bt_map kv.ptrArray
  { kv with bt_map := r.1, ptrArray := r.2 }

end KV_BtreeArray

/-! ## The cache -/

/-- The class `Standard_Query_Cache` together with the static counters it updates.
`max_memory_size` and the purge thresholds are members inherited from `Query_Cache`. -/
structure Standard_Query_Cache where
  KVs : Fin SHARED_QUERY_CACHE_HASH_TABLES → KV_BtreeArray
  QCnow : Int
  max_memory_size : Nat
  purge_threshold_pct_min : Nat
  purge_threshold_pct_max : Nat
  stats : Counters

/-- The length `strlen((const char *)kp)` of a key buffer: the bytes before its first zero
byte (a buffer without one is taken to be followed by its terminator). -/
def strlen (kp : List Nat) : Nat := (kp.takeWhile (fun b => b ≠ 0)).length

/-- The fingerprint `SpookyHash::Hash64(kp,strlen((const char *)kp),0)` as a `uint64_t`;
`Hash64` receives the bytes it may read and the seed. -/
def fingerprint (Hash64 : List Nat → Nat → Nat) (kp : List Nat) : Nat :=
  Hash64 (kp.take (strlen kp)) 0 % U64

/-- The shard index `hk%SHARED_QUERY_CACHE_HASH_TABLES`. -/
def shard_of (hk : Nat) : Fin SHARED_QUERY_CACHE_HASH_TABLES :=
  ⟨hk % SHARED_QUERY_CACHE_HASH_TABLES, Nat.mod_lt _ (by decide)⟩

namespace Standard_Query_Cache

/-- Assignment `KVs[i] = kv`. -/
def with_shard (c : Standard_Query_Cache) (i : Fin SHARED_QUERY_CACHE_HASH_TABLES)
    (kv : KV_BtreeArray) : Standard_Query_Cache :=
  { c with KVs := fun j => if j = i then kv else c.KVs j }

/-- The constructor `Standard_Query_Cache()` in a process whose counters are still zero;
`t` is the value of `time(NULL)`. -/
def new (t : Int) : Standard_Query_Cache :=
  { KVs := fun _ => KV_BtreeArray.new,
    QCnow := t,
    max_memory_size := DEFAULT_SQC_size,
    purge_threshold_pct_min := DEFAULT_purge_threshold_pct_min,
    purge_threshold_pct_max := DEFAULT_purge_threshold_pct_max,
    stats := Counters.zero }

/-- The method `get(kp, lv)`: the new state and, on a hit, the copied buffer with the
length written to `*lv`.  The fields of the entry are read through the pointer `lookup`
returned (which is the address of an entry of the sequence whenever it is not `NULL`). -/
def get (Hash64 : List Nat → Nat → Nat) (c : Standard_Query_Cache) (kp : List Nat) :
    Standard_Query_Cache × Option (List Nat × Nat) :=
  let hk := fingerprint Hash64 kp
  let i := shard_of hk
  let r := (c.KVs i).lookup hk c.stats
  let c1 := { c.with_shard i r.1 with stats := r.2.1 }
  match r.2.2 with
  | none => (c1, none)
  | some entry =>
    match deref entry r.1.ptrArray with
    | none => (c1, none)
    | some e =>
      let t := c.QCnow
      if e.expire > t then
        let arr := store entry (fun e => if t > e.access then { e with access := t } else e)
          r.1.ptrArray
        (c1.with_shard i { r.1 with ptrArray := store entry ref_dec arr },
         some (e.value.take e.length, e.length))
      else
        (c1.with_shard i { r.1 with ptrArray := store entry ref_dec r.1.ptrArray }, none)

/-- The record `set` fills in before it hands the entry to the shard; `entry` is the
address `malloc` returned. -/
def make_entry (QCnow : Int) (hk kl : Nat) (vp : List Nat) (vl : Nat) (expire : Int)
    (entry : Nat) : QC_entry_t :=
  { key := hk, value := vp.take vl, self := entry, klen := kl, length := vl,
    expire := if expire > HASH_EXPIRE_MAX then expire else QCnow + expire,
    access := QCnow, ref_count := 0 }

/-- The method `set(kp, kl, vp, vl, expire)`; `entry` is the address `malloc` returned
for the new entry.  Returns the new state and the result `true`. -/
def set (Hash64 : List Nat → Nat → Nat) (c : Standard_Query_Cache) (kp : List Nat)
    (kl : Nat) (vp : List Nat) (vl : Nat) (expire : Int) (entry : Nat) :
    Standard_Query_Cache × Bool :=
  let hk := fingerprint Hash64 kp
  let i := shard_of hk
  let r := (c.KVs i).replace hk (make_entry c.QCnow hk kl vp vl expire entry) c.stats
  ({ c.with_shard i r.1 with stats := r.2 }, true)

/-- One iteration of the loop of `flush`: `total_count+=KVs[i].cnt(); KVs[i].empty();`. -/
def flush_step (acc : Standard_Query_Cache × Nat) (i : Fin SHARED_QUERY_CACHE_HASH_TABLES) :
    Standard_Query_Cache × Nat :=
  (acc.1.with_shard i (acc.1.KVs i).empty, (acc.2 + to_uint64 (acc.1.KVs i).cnt) % U64)

/-- The method `flush`: the new state and `total_count`. -/
def flush (c : Standard_Query_Cache) : Standard_Query_Cache × Nat :=
  (List.finRange SHARED_QUERY_CACHE_HASH_TABLES).foldl flush_step (c, 0)

/-- The call `KVs[i].purge_some(QCnow)` of the reclaimer. -/
def purge_shard (c : Standard_Query_Cache) (i : Fin SHARED_QUERY_CACHE_HASH_TABLES) :
    Standard_Query_Cache :=
  let r := (c.KVs i).purge_some c.QCnow c.stats
  { c.with_shard i r.1 with stats := r.2 }

/-- The assignment `QCnow=t` of the reclaimer. -/
def set_now (c : Standard_Query_Cache) (t : Int) : Standard_Query_Cache :=
  { c with QCnow := t }

/-- The method `get_data_size_total`: the accumulator `r` is an `int`, every shard reports
the same process-wide figure. -/
def get_data_size_total (c : Standard_Query_Cache) : Nat :=
  to_uint64 ((List.finRange SHARED_QUERY_CACHE_HASH_TABLES).foldl
    (fun (r : Int) _ => to_int ((to_uint64 r + KV_BtreeArray.get_data_size c.stats) % U64)) 0)

/-- The method `current_used_memory_pct`:
`float pctf = (float) cur_size*100/max_memory_size; if (pctf > 100) return 100; int pct=pctf;`
in single precision.  The cast binds tighter than the product: `cur_size` is converted to
`float`, multiplied by `100`, and divided by `max_memory_size` converted to `float`, each
step rounded to nearest; the conversion to `int` truncates.  `max_memory_size` is declared
in cpp.h (not at hand) and is taken to be an unsigned integer.  With `max_memory_size = 0`
a positive size gives `+inf`, reported as 100; `0/0` is a NaN, whose conversion to `int`
is undefined in C, and the model reports 0. -/
def current_used_memory_pct (c : Standard_Query_Cache) : Nat :=
  let cur_size := c.get_data_size_total
  let f1 := float_round cur_size 1 0
  let f2 := float_round (f1.1 * 100) 1 f1.2
  let fm := float_round c.max_memory_size 1 0
  if fm.1 = 0 then (if f2.1 = 0 then 0 else 100)
  else
    let pctf := float_round f2.1 fm.1 (f2.2 - fm.2)
    let s := float_scale pctf.1 1 (-pctf.2)
    if s.1 > 100 * s.2 then 100 else s.1 / s.2

/-- One iteration of the loop of `purgeHash_thread` after its sleep; `t` is the value of
`time(NULL)`. -/
def purgeHash_tick (c : Standard_Query_Cache) (t : Int) : Standard_Query_Cache :=
  let c1 := c.set_now t
  if c1.current_used_memory_pct < c1.purge_threshold_pct_min then c1
  else (List.finRange SHARED_QUERY_CACHE_HASH_TABLES).foldl (fun acc i => acc.purge_shard i) c1

/-- What `malloc` guarantees for the address `p` it returns: a non-null 64-bit address at
which no entry of any shard lives. -/
def fresh (c : Standard_Query_Cache) (p : Nat) : Prop :=
  0 < p ∧ p < U64 ∧ ∀ i, ∀ e ∈ (c.KVs i).ptrArray, e.self ≠ p

end Standard_Query_Cache

/-- The states the cache reaches from the empty cache (counters zero) by completed calls
of `set`, `get`, `flush`, by `purge_some` on a shard and by the reclaimer's clock update,
all issued from one thread. -/
inductive Reachable (Hash64 : List Nat → Nat → Nat) : Standard_Query_Cache → Prop
  | init (t : Int) : Reachable Hash64 (Standard_Query_Cache.new t)
  | set {c : Standard_Query_Cache} (kp : List Nat) (kl : Nat) (vp : List Nat) (vl : Nat)
      (expire : Int) (entry : Nat) :
      Reachable Hash64 c → c.fresh entry →
      Reachable Hash64 (c.set Hash64 kp kl vp vl expire entry).1
  | get {c : Standard_Query_Cache} (kp : List Nat) :
      Reachable Hash64 c → Reachable Hash64 (c.get Hash64 kp).1
  | flush {c : Standard_Query_Cache} : Reachable Hash64 c → Reachable Hash64 c.flush.1
  | purge_some {c : Standard_Query_Cache} (i : Fin SHARED_QUERY_CACHE_HASH_TABLES) :
      Reachable Hash64 c → Reachable Hash64 (c.purge_shard i)
  | clock {c : Standard_Query_Cache} (t : Int) :
      Reachable Hash64 c → Reachable Hash64 (c.set_now t)

/-! ## Sequences of operations -/

/-- The calls one thread issues against the cache: `get`, `set` (with the address `malloc`
returns for its entry), `flush`, the reclaimer's `purge_some` on a shard, and the
reclaimer's clock update. -/
inductive Op where
  | get (kp : List Nat)
  | set (kp : List Nat) (kl : Nat) (vp : List Nat) (vl : Nat) (expire : Int) (entry : Nat)
  | flush
  | purge_some (i : Fin SHARED_QUERY_CACHE_HASH_TABLES)
  | clock (t : Int)

/-- The state after one call. -/
def Op.run (Hash64 : List Nat → Nat → Nat) (c : Standard_Query_Cache) :
    Op → Standard_Query_Cache
  | .get kp => (c.get Hash64 kp).1
  | .set kp kl vp vl expire entry => (c.set Hash64 kp kl vp vl expire entry).1
  | .flush => c.flush.1
  | .purge_some i => c.purge_shard i
  | .clock t => c.set_now t

/-- The call can be issued in state `c`: the address of a `set` is one `malloc` may return. -/
def Op.admissible (c : Standard_Query_Cache) : Op → Prop
  | .set _ _ _ _ _ entry => c.fresh entry
  | _ => True

/-- The call is a `set` on a key with fingerprint `hk`. -/
def Op.sets_fingerprint (Hash64 : List Nat → Nat → Nat) (hk : Nat) : Op → Prop
  | .set kp _ _ _ _ _ => fingerprint Hash64 kp = hk
  | _ => False

/-- The state after a sequence of calls. -/
def run_ops (Hash64 : List Nat → Nat → Nat) : Standard_Query_Cache → List Op → Standard_Query_Cache
  | c, [] => c
  | c, op :: ops => run_ops Hash64 (op.run Hash64 c) ops

/-- Every call of the sequence can be issued in the state it meets. -/
def admissible_ops (Hash64 : List Nat → Nat → Nat) : Standard_Query_Cache → List Op → Prop
  | _, [] => True
  | c, op :: ops => op.admissible c ∧ admissible_ops Hash64 (op.run Hash64 c) ops

/-- Whatever the shard of fingerprint `hk` binds under `hk` has the deadline `d`. -/
def binding_deadline (hk : Nat) (d : Int) (c : Standard_Query_Cache) : Prop :=
  ∀ p e, bt_find hk (c.KVs (shard_of hk)).bt_map = some p →
    deref p (c.KVs (shard_of hk)).ptrArray = some e → e.expire = d

/-! ## Invariants and derived quantities -/

/-- Well-formedness of a shard: the map is in strictly increasing key order, the entries of
the sequence live at pairwise distinct non-null 64-bit addresses, and every binding of the
map points to an entry of the sequence that carries the binding's key and exactly the
shard's own reference. -/
structure KV_BtreeArray.WF (kv : KV_BtreeArray) : Prop where
  keys_sorted : (kv.bt_map.map Prod.fst).Pairwise (· < ·)
  addr_nodup : (kv.ptrArray.map QC_entry_t.self).Nodup
  addr_range : ∀ e ∈ kv.ptrArray, 0 < e.self ∧ e.self < U64
  bound : ∀ b ∈ kv.bt_map, ∃ e ∈ kv.ptrArray, e.self = b.2 ∧ e.key = b.1 ∧ e.ref_count = 1

/-- The sum of the `length` fields of a sequence of entries. -/
def sum_length (arr : List QC_entry_t) : Nat := (arr.map QC_entry_t.length).sum

/-- The entry is the one the shard's map binds under the entry's key. -/
def KV_BtreeArray.indexed (kv : KV_BtreeArray) (e : QC_entry_t) : Bool :=
  bt_find e.key kv.bt_map == some e.self

/-- The sum of `f` over the shards `KVs[0..31]`. -/
def Standard_Query_Cache.shard_sum (f : KV_BtreeArray → Nat) (c : Standard_Query_Cache) : Nat :=
  ((List.finRange SHARED_QUERY_CACHE_HASH_TABLES).map (fun i => f (c.KVs i))).sum

/-- The net effect of the read path on an entry: borrow, bump `access`, release. -/
def get_touch (t : Int) (e : QC_entry_t) : QC_entry_t :=
  ref_dec ((fun e : QC_entry_t => if t > e.access then { e with access := t } else e) (ref_inc e))

/-- The counters agree with the shards: `Glo_num_entries` counts the entries held in the
sequences, and `Glo_size_values` plus the calling thread's residue counts their bytes, both
modulo `2^64`. -/
structure Standard_Query_Cache.CountersOK (c : Standard_Query_Cache) : Prop where
  num_entries :
    c.stats.Glo_num_entries = c.shard_sum (fun kv => kv.ptrArray.length) % U64
  thr_num_entries : c.stats.__thr_num_entries = 0
  thr_num_deleted : c.stats.__thr_num_deleted = 0
  size_values :
    (c.stats.Glo_size_values + c.stats.__thr_size_values) % U64
      = c.shard_sum (fun kv => sum_length kv.ptrArray) % U64
  thr_size_values : c.stats.__thr_size_values < 100

/-- A concrete stand-in for the external hash, used to evaluate the cache on examples. -/
def sample_hash (msg : List Nat) (seed : Nat) : Nat :=
  msg.foldl (fun h b => h * 257 + b) seed

/-! ## Example states -/

/-- The key buffer `"k"` with its terminator. -/
def ex_key : List Nat := [107, 0]

/-- The shard of `ex_key` under `sample_hash`. -/
def ex_shard : Fin SHARED_QUERY_CACHE_HASH_TABLES := shard_of (fingerprint sample_hash ex_key)

/-- The empty cache at time 1000. -/
def ex0 : Standard_Query_Cache := Standard_Query_Cache.new 1000

/-- After `set("k", "a", 60)`, the entry allocated at address 4096. -/
def ex1 : Standard_Query_Cache := (ex0.set sample_hash ex_key 1 [97] 1 60 4096).1

/-- After a second `set("k", "bb", 60)`, the entry allocated at address 8192. -/
def ex2 : Standard_Query_Cache := (ex1.set sample_hash ex_key 1 [98, 98] 2 60 8192).1

/-- A value of 2000 bytes. -/
def ex_value_a : List Nat := List.replicate 2000 97

/-- Another value of 2000 bytes. -/
def ex_value_b : List Nat := List.replicate 2000 98

/-- After `set("k", a, 60)` with the 2000-byte value `a`, allocated at address 4096. -/
def ex3 : Standard_Query_Cache := (ex0.set sample_hash ex_key 1 ex_value_a 2000 60 4096).1

/-- After a second `set("k", b, 60)` with the 2000-byte value `b`, allocated at 8192. -/
def ex4 : Standard_Query_Cache := (ex3.set sample_hash ex_key 1 ex_value_b 2000 60 8192).1

/-- After the reclaimer has then run one iteration of its loop at time 1001. -/
def ex5 : Standard_Query_Cache := ex4.purgeHash_tick 1001

/-- Key number `n` of the large-shard example, for `n < 2^31`: the five base-128 digits of
`n`, each plus one, followed by a byte between 1 and 32 that makes the sum of the six bytes
a multiple of 32, and the terminator. -/
def ex_many_key (n : Nat) : List Nat :=
  [n / 268435456 % 128 + 1, n / 2097152 % 128 + 1, n / 16384 % 128 + 1, n / 128 % 128 + 1,
   n % 128 + 1,
   32 - (n / 268435456 % 128 + n / 2097152 % 128 + n / 16384 % 128 + n / 128 % 128
          + n % 128 + 5) % 32, 0]

/-- The fingerprint of `ex_many_key n` under `sample_hash`: its six bytes read in base
257. -/
def ex_many_fp (n : Nat) : Nat :=
  (((((n / 268435456 % 128 + 1) * 257 + (n / 2097152 % 128 + 1)) * 257
      + (n / 16384 % 128 + 1)) * 257 + (n / 128 % 128 + 1)) * 257 + (n % 128 + 1)) * 257
    + (32 - (n / 268435456 % 128 + n / 2097152 % 128 + n / 16384 % 128 + n / 128 % 128
          + n % 128 + 5) % 32)

/-- The cache after the calls `set(ex_many_key k, 6, "", 0, 3600)` for `k = 0 .. n-1`
issued at time 1000 on the empty cache, the entry of call `k` allocated at address
`64 * (k + 1)`. -/
def ex_many : Nat → Standard_Query_Cache
  | 0 => ex0
  | n + 1 => ((ex_many n).set sample_hash (ex_many_key n) 6 [] 0 3600 (64 * (n + 1))).1

/-- A shard that holds a stale entry, a stale entry a reader still borrows, and a live
entry, at time 1001. -/
def ex_stale_shard : KV_BtreeArray :=
  { bt_map := [(7, 3)],
    ptrArray :=
      [{ key := 5, value := [1, 2], self := 1, klen := 1, length := 2,
         expire := 900, access := 800, ref_count := 1 },
       { key := 6, value := [3], self := 2, klen := 1, length := 1,
         expire := 0, access := 800, ref_count := 2 },
       { key := 7, value := [4], self := 3, klen := 1, length := 1,
         expire := 2000, access := 800, ref_count := 1 }],
    freeable_memory := 0, tottopurge := 0 }

/-- Counters that go with `ex_stale_shard`: three entries, four bytes of values. -/
def ex_stale_stats : Counters :=
  { Counters.zero with Glo_num_entries := 3, Glo_size_values := 4 }

/-- The percentage as the specification states it: the sum over the 32 shards of the
shard's `get_data_size()`, times 100, divided by `max_memory_size`, truncated and clamped
to `0..100`. -/
def spec_used_memory_pct (c : Standard_Query_Cache) : Nat :=
  min 100
    (((List.finRange SHARED_QUERY_CACHE_HASH_TABLES).map
        (fun _ => KV_BtreeArray.get_data_size c.stats)).sum * 100 / c.max_memory_size)

/-- The default cache with counters that report 18 entries holding 134216000 bytes of
values, so that every shard's `get_data_size()` is `2^27`. -/
def ex_wrap : Standard_Query_Cache :=
  { ex0 with stats := { Counters.zero with Glo_num_entries := 18, Glo_size_values := 134216000 } }

/-! ## The eviction scenario -/

/-- The assignment `max_memory_size = m`.  The constructor of the source stores the
default; the member is inherited from `Query_Cache` and is assigned by the code that
configures the cache. -/
def Standard_Query_Cache.set_max_memory_size (c : Standard_Query_Cache) (m : Nat) :
    Standard_Query_Cache :=
  { c with max_memory_size := m }

/-- The calls `set(kp, kl, vp, 64, -1)` issued in order, one for each `(kp, kl, vp, entry)`
of the list; `entry` is the address `malloc` returned for the call. -/
def Standard_Query_Cache.pressure_sets (Hash64 : List Nat → Nat → Nat)
    (c : Standard_Query_Cache) (sets : List (List Nat × Nat × List Nat × Nat)) :
    Standard_Query_Cache :=
  sets.foldl (fun acc s => (acc.set Hash64 s.1 s.2.1 s.2.2.1 64 (-1) s.2.2.2).1) c

/-- The number of fingerprints of the list that `hk%SHARED_QUERY_CACHE_HASH_TABLES` routes
to shard `i`. -/
def shard_load (fps : List Nat) (i : Fin SHARED_QUERY_CACHE_HASH_TABLES) : Nat :=
  fps.countP (fun hk => decide (shard_of hk = i))

/-- The state of the eviction scenario after the sets on the fingerprints `fps` (pairwise
distinct), issued at time `t0` from the empty cache. -/
structure Standard_Query_Cache.Pressure (t0 : Int) (fps : List Nat)
    (c : Standard_Query_Cache) : Prop where
  now : c.QCnow = t0
  keys : ∀ i, ∀ b ∈ (c.KVs i).bt_map, b.1 ∈ fps
  entries : ∀ i, ∀ e ∈ (c.KVs i).ptrArray,
    e.length = 64 ∧ e.expire = t0 - 1 ∧ e.ref_count = 1
  lens : ∀ i, (c.KVs i).ptrArray.length = shard_load fps i
  total : c.shard_sum (fun kv => kv.ptrArray.length) = fps.length
  num_entries : c.stats.Glo_num_entries = fps.length
  thr_num_entries : c.stats.__thr_num_entries = 0
  thr_num_deleted : c.stats.__thr_num_deleted = 0
  size_values : c.stats.Glo_size_values + c.stats.__thr_size_values = 64 * fps.length
  size_values_batch : c.stats.Glo_size_values % 100 = 0
  thr_size_values : c.stats.__thr_size_values < 100
  freed : c.stats.Glo_total_freed_memory = 0

/-- The state of the eviction scenario while the reclaimer purges: every entry still held
is a 64-byte entry that `purge_some` may remove, and the counters count the entries held. -/
structure Standard_Query_Cache.Draining (c : Standard_Query_Cache) : Prop where
  entries : ∀ i, ∀ e ∈ (c.KVs i).ptrArray,
    e.length = 64 ∧ (KV_BtreeArray.evictable c.QCnow e && decide (e.ref_count ≤ 1)) = true
  total : c.shard_sum (fun kv => kv.ptrArray.length) ≤ 200
  num_entries : c.stats.Glo_num_entries = c.shard_sum (fun kv => kv.ptrArray.length)
  size_values : c.stats.Glo_size_values = 64 * c.shard_sum (fun kv => kv.ptrArray.length)
  freed : c.stats.Glo_total_freed_memory + 64 * c.shard_sum (fun kv => kv.ptrArray.length)
    = 12800
  thr_num_deleted : c.stats.__thr_num_deleted = 0

/-- The eviction scenario with an even assignment: key number `n` is the one-byte string
`n + 1`, whose fingerprint under `sample_hash` is `n + 1`, so every shard receives six or
seven keys. -/
def ex_even_sets : List (List Nat × Nat × List Nat × Nat) :=
  (List.range 200).map (fun n => ([n + 1, 0], 1, List.replicate 64 120, 4096 * (n + 1)))

/-- The eviction scenario with a skewed assignment: the one-byte key `32` goes to shard 0,
and the 199 two-byte keys `n + 1, 32 - (n + 32) % 32` (fingerprint
`257 * (n + 1) + 32 - (n + 32) % 32` under `sample_hash`) all go to shard 1. -/
def ex_skew_sets : List (List Nat × Nat × List Nat × Nat) :=
  ([32, 0], 1, List.replicate 64 120, 4096) ::
    (List.range 199).map (fun n =>
      ([n + 1, 32 - (n + 32) % 32, 0], 2, List.replicate 64 120, 4096 * (n + 2)))

/-- The yield tests of one reclaimer iteration in the eviction scenario, for the numbers
of entries the shards hold in purge order: a shard's turn passes if it holds no entry, or
if it holds more than one per cent of the entries held by itself and the shards after it. -/
def gates_pass : List Nat → Bool
  | [] => true
  | n :: ns => (decide (n = 0) || decide (n + ns.sum < 100 * n)) && gates_pass ns

/-- The counters as a thread that has made no call before finds them: its `__thread`
accumulators are zero-initialised, the process-wide counters are shared.  What the
previous caller left in its own accumulators stays there. -/
def Counters.new_thread (st : Counters) : Counters :=
  { st with
    __thr_cntSet := 0, __thr_cntGet := 0, __thr_cntGetOK := 0, __thr_dataIN := 0,
    __thr_dataOUT := 0, __thr_num_entries := 0, __thr_num_deleted := 0,
    __thr_size_values := 0 }

/-- The cache as seen by a thread that has made no call before. -/
def Standard_Query_Cache.new_thread (c : Standard_Query_Cache) : Standard_Query_Cache :=
  { c with stats := c.stats.new_thread }

/-- The calls `set(kp, kl, vp, 64, -1)` of the eviction scenario, each issued by a thread
of its own. -/
def Standard_Query_Cache.pressure_sets_threads (Hash64 : List Nat → Nat → Nat)
    (c : Standard_Query_Cache) (sets : List (List Nat × Nat × List Nat × Nat)) :
    Standard_Query_Cache :=
  sets.foldl (fun acc s => (acc.new_thread.set Hash64 s.1 s.2.1 s.2.2.1 64 (-1) s.2.2.2).1) c

/-- The cache with `max_memory_size = 10769067` and counters that report one entry holding
10000 bytes: every shard reports 10096 bytes, 323072 in total, which is just below three
per cent of `max_memory_size`. -/
def ex_rounding : Standard_Query_Cache :=
  { ex0 with
    max_memory_size := 10769067,
    stats := { Counters.zero with Glo_num_entries := 1, Glo_size_values := 10000 } }

/-- The counters `(num_entries, size_values, total_freed_memory)`. -/
def stale_triple (st : Counters) : Nat × Nat × Nat :=
  (st.Glo_num_entries, st.Glo_size_values, st.Glo_total_freed_memory)

/-- What `purge_some` does to `(num_entries, size_values, total_freed_memory)` on a shard
that holds `n` entries of 64 bytes each, all of them removable: if the yield test passes,
it removes the `n` entries and `64 * n` bytes; otherwise it changes nothing. -/
def stale_step (s : Nat × Nat × Nat) (n : Nat) : Nat × Nat × Nat :=
  if (s.1 * ENTRY_OVERHEAD + s.2.1) % U64 < 100 * ((64 * n + n * ENTRY_OVERHEAD) % U64) then
    ((s.1 + (U64 - n)) % U64, (s.2.1 + (U64 - 64 * n)) % U64, (s.2.2 + 64 * n) % U64)
  else s

end QueryCache

/-! # Lemmas -/

namespace QueryCache

open KV_BtreeArray Standard_Query_Cache

/-! ## The ordered map -/

theorem bt_find_some_mem {key p : Nat} {m : BtMap} (h : bt_find key m = some p) :
    (key, p) ∈ m := by
  induction m with
  | nil => simp [bt_find] at h
  | cons b m ih =>
    obtain ⟨k, q⟩ := b
    by_cases hk : k = key
    · simp [bt_find, hk] at h
      simp [hk, h]
    · simp [bt_find, hk] at h
      exact List.mem_cons_of_mem _ (ih h)

theorem bt_find_none_iff {key : Nat} {m : BtMap} :
    bt_find key m = none ↔ ∀ b ∈ m, b.1 ≠ key := by
  induction m with
  | nil => simp [bt_find]
  | cons b m ih =>
    obtain ⟨k, q⟩ := b
    by_cases hk : k = key
    · simp [bt_find, hk]
    · simp [bt_find, hk, ih]

theorem bt_find_of_mem {key p : Nat} {m : BtMap} (hnd : (m.map Prod.fst).Nodup)
    (h : (key, p) ∈ m) : bt_find key m = some p := by
  induction m with
  | nil => simp at h
  | cons b m ih =>
    obtain ⟨k, q⟩ := b
    simp only [List.map_cons, List.nodup_cons] at hnd
    rcases List.mem_cons.1 h with h1 | h1
    · simp only [Prod.mk.injEq] at h1
      simp [bt_find, h1.1, h1.2]
    · have hne : k ≠ key := by
        intro hk
        apply hnd.1
        rw [hk]
        exact List.mem_map_of_mem Prod.fst h1
      simp [bt_find, hne, ih hnd.2 h1]

theorem mem_bt_erase {key : Nat} {m : BtMap} {b : Nat × Nat} :
    b ∈ bt_erase key m ↔ b ∈ m ∧ b.1 ≠ key := by
  simp [bt_erase, List.mem_filter]

theorem bt_find_erase_self (key : Nat) (m : BtMap) : bt_find key (bt_erase key m) = none := by
  rw [bt_find_none_iff]
  intro b hb
  exact (mem_bt_erase.1 hb).2

theorem bt_find_erase_ne {key k : Nat} (m : BtMap) (h : k ≠ key) :
    bt_find k (bt_erase key m) = bt_find k m := by
  induction m with
  | nil => rfl
  | cons b m ih =>
    obtain ⟨k1, q⟩ := b
    by_cases h1 : k1 = key
    · have h2 : k1 ≠ k := by rw [h1]; exact fun e => h e.symm
      have : bt_erase key ((k1, q) :: m) = bt_erase key m := by
        simp [bt_erase, h1]
      rw [this, ih]
      simp [bt_find, h2]
    · have : bt_erase key ((k1, q) :: m) = (k1, q) :: bt_erase key m := by
        simp [bt_erase, h1]
      rw [this]
      by_cases h2 : k1 = k
      · simp [bt_find, h2]
      · simp [bt_find, h2, ih]

theorem bt_erase_of_find_none {key : Nat} {m : BtMap} (h : bt_find key m = none) :
    bt_erase key m = m := by
  rw [bt_find_none_iff] at h
  simp only [bt_erase]
  rw [List.filter_eq_self]
  intro b hb
  simpa using h b hb

theorem bt_insert_perm {key : Nat} (p : Nat) {m : BtMap} (h : bt_find key m = none) :
    (bt_insert key p m).Perm ((key, p) :: m) := by
  induction m with
  | nil => simp [bt_insert]
  | cons b m ih =>
    obtain ⟨k, q⟩ := b
    have hk : k ≠ key := by
      intro hk
      simp [bt_find, hk] at h
    have hm : bt_find key m = none := by
      simpa [bt_find, hk] using h
    by_cases hlt : key < k
    · simp [bt_insert, hlt]
    · have hne : ¬ key = k := fun e => hk e.symm
      simp only [bt_insert, hlt, hne, if_false]
      exact ((ih hm).cons (k, q)).trans (List.Perm.swap _ _ _)

theorem bt_find_insert_self {key : Nat} (p : Nat) {m : BtMap} (h : bt_find key m = none) :
    bt_find key (bt_insert key p m) = some p := by
  induction m with
  | nil => simp [bt_insert, bt_find]
  | cons b m ih =>
    obtain ⟨k, q⟩ := b
    have hk : k ≠ key := by
      intro hk
      simp [bt_find, hk] at h
    have hm : bt_find key m = none := by
      simpa [bt_find, hk] using h
    by_cases hlt : key < k
    · simp [bt_insert, hlt, bt_find]
    · have hne : ¬ key = k := fun e => hk e.symm
      simp [bt_insert, hlt, hne, bt_find, hk, ih hm]

theorem bt_find_insert_ne {key k : Nat} (p : Nat) (m : BtMap) (h : k ≠ key) :
    bt_find k (bt_insert key p m) = bt_find k m := by
  induction m with
  | nil =>
    have : ¬ key = k := fun e => h e.symm
    simp [bt_insert, bt_find, this]
  | cons b m ih =>
    obtain ⟨k1, q⟩ := b
    have hne : ¬ key = k := fun e => h e.symm
    by_cases hlt : key < k1
    · simp [bt_insert, hlt, bt_find, hne]
    · by_cases he : key = k1
      · simp [bt_insert, hlt, he]
      · simp only [bt_insert, hlt, he, if_false]
        by_cases h2 : k1 = k
        · simp [bt_find, h2]
        · simp [bt_find, h2, ih]

/-- Insertion keeps the bindings in strictly increasing key order. -/
theorem bt_insert_sorted (key p : Nat) {m : BtMap}
    (h : (m.map Prod.fst).Pairwise (· < ·)) :
    ((bt_insert key p m).map Prod.fst).Pairwise (· < ·) := by
  induction m with
  | nil => simp [bt_insert]
  | cons b m ih =>
    obtain ⟨k, q⟩ := b
    simp only [List.map_cons, List.pairwise_cons] at h
    by_cases hlt : key < k
    · simp only [bt_insert, hlt, if_true, List.map_cons, List.pairwise_cons]
      refine ⟨?_, h.1, h.2⟩
      intro a ha
      rcases List.mem_cons.1 ha with ha | ha
      · rw [ha]; exact hlt
      · exact lt_trans hlt (h.1 a ha)
    · by_cases he : key = k
      · simp only [bt_insert, hlt, he, if_true, if_false, List.map_cons, List.pairwise_cons]
        rw [he] at hlt
        simpa [hlt] using h
      · simp only [bt_insert, hlt, he, if_false, List.map_cons, List.pairwise_cons]
        refine ⟨?_, ih h.2⟩
        intro a ha
        by_cases hfn : bt_find key m = none
        · have hp := ((bt_insert_perm p hfn).map Prod.fst).mem_iff.1 ha
          rcases List.mem_cons.1 hp with hp | hp
          · rw [hp]; omega
          · exact h.1 a hp
        · have hsub : ∀ x ∈ bt_insert key p m, x = (key, p) ∨ x ∈ m := by
            clear ih h ha hfn
            induction m with
            | nil => intro x hx; simpa [bt_insert] using hx
            | cons b2 m2 ih2 =>
              obtain ⟨k2, q2⟩ := b2
              intro x hx
              by_cases h1 : key < k2
              · simp only [bt_insert, h1, if_true, List.mem_cons] at hx
                rcases hx with hx | hx | hx
                · exact Or.inl hx
                · exact Or.inr (by simp [hx])
                · exact Or.inr (List.mem_cons_of_mem _ hx)
              · by_cases h2 : key = k2
                · simp only [bt_insert, h1, h2, if_true, if_false] at hx
                  exact Or.inr (by simpa [h2] using hx)
                · simp only [bt_insert, h1, h2, if_false, List.mem_cons] at hx
                  rcases hx with hx | hx
                  · exact Or.inr (by simp [hx])
                  · rcases ih2 x hx with h3 | h3
                    · exact Or.inl h3
                    · exact Or.inr (List.mem_cons_of_mem _ h3)
          obtain ⟨x, hx, hxa⟩ := List.mem_map.1 ha
          rcases hsub x hx with h3 | h3
          · rw [← hxa, h3]; simp only; omega
          · rw [← hxa]; exact h.1 _ (List.mem_map_of_mem Prod.fst h3)

/-! ## Reading and writing through pointers -/

theorem store_map_self {p : Nat} {f : QC_entry_t → QC_entry_t} (hf : ∀ e, (f e).self = e.self)
    (arr : List QC_entry_t) :
    (store p f arr).map QC_entry_t.self = arr.map QC_entry_t.self := by
  induction arr with
  | nil => rfl
  | cons a t ih =>
    simp only [store, List.map_cons] at ih ⊢
    rw [ih]
    by_cases h : a.self = p
    · simp [h, hf]
    · simp [h]

theorem store_length (p : Nat) (f : QC_entry_t → QC_entry_t) (arr : List QC_entry_t) :
    (store p f arr).length = arr.length := by
  simp [store]

theorem store_store {p : Nat} {f g : QC_entry_t → QC_entry_t} (hg : ∀ e, (g e).self = e.self)
    (arr : List QC_entry_t) :
    store p f (store p g arr) = store p (fun e => f (g e)) arr := by
  induction arr with
  | nil => rfl
  | cons a t ih =>
    simp only [store, List.map_cons] at ih ⊢
    rw [ih]
    by_cases h : a.self = p
    · simp [h, hg]
    · simp [h]

theorem store_eq_self {p : Nat} {f : QC_entry_t → QC_entry_t} {arr : List QC_entry_t}
    (h : ∀ e ∈ arr, e.self ≠ p) : store p f arr = arr := by
  induction arr with
  | nil => rfl
  | cons a t ih =>
    have h1 : a.self ≠ p := h a (List.mem_cons_self _ _)
    have h2 := ih (fun e he => h e (List.mem_cons_of_mem _ he))
    simp only [store, List.map_cons] at h2 ⊢
    rw [h2]
    simp [h1]

theorem store_append (p : Nat) (f : QC_entry_t → QC_entry_t) (a b : List QC_entry_t) :
    store p f (a ++ b) = store p f a ++ store p f b := by
  simp [store]

theorem mem_store {p : Nat} {f : QC_entry_t → QC_entry_t} {arr : List QC_entry_t}
    {x : QC_entry_t} :
    x ∈ store p f arr ↔ ∃ e ∈ arr, (if e.self = p then f e else e) = x := by
  simp [store, List.mem_map]

theorem deref_some_mem {p : Nat} {arr : List QC_entry_t} {e : QC_entry_t}
    (h : deref p arr = some e) : e ∈ arr ∧ e.self = p := by
  refine ⟨List.mem_of_find?_eq_some h, ?_⟩
  have := List.find?_some h
  simpa using this

theorem deref_of_mem {p : Nat} {arr : List QC_entry_t} {e : QC_entry_t}
    (hnd : (arr.map QC_entry_t.self).Nodup) (he : e ∈ arr) (hp : e.self = p) :
    deref p arr = some e := by
  induction arr with
  | nil => simp at he
  | cons a t ih =>
    simp only [List.map_cons, List.nodup_cons] at hnd
    rcases List.mem_cons.1 he with h1 | h1
    · subst h1
      simp [deref, hp]
    · have hne : a.self ≠ p := by
        intro ha
        apply hnd.1
        rw [ha, ← hp]
        exact List.mem_map_of_mem QC_entry_t.self h1
      have := ih hnd.2 h1
      simp only [deref] at this ⊢
      simp [List.find?_cons, hne, this]

theorem deref_none_iff {p : Nat} {arr : List QC_entry_t} :
    deref p arr = none ↔ ∀ e ∈ arr, e.self ≠ p := by
  simp [deref]

theorem deref_store {p : Nat} {f : QC_entry_t → QC_entry_t} (hf : ∀ e, (f e).self = e.self)
    (arr : List QC_entry_t) : deref p (store p f arr) = (deref p arr).map f := by
  induction arr with
  | nil => rfl
  | cons a t ih =>
    simp only [deref, store, List.map_cons] at ih ⊢
    by_cases h : a.self = p
    · simp [List.find?_cons, h, hf]
    · simp [List.find?_cons, h, ih]

theorem deref_store_ne {p q : Nat} {f : QC_entry_t → QC_entry_t}
    (hf : ∀ e, (f e).self = e.self) (hq : q ≠ p) (arr : List QC_entry_t) :
    deref q (store p f arr) = deref q arr := by
  induction arr with
  | nil => rfl
  | cons a t ih =>
    simp only [deref, store, List.map_cons, List.find?_cons] at ih ⊢
    by_cases h : a.self = p
    · have h2 : ¬ a.self = q := by rw [h]; exact fun e => hq e.symm
      have h3 : ((f a).self == q) = false := by simp [hf, h2]
      have h4 : (a.self == q) = false := by simp [h2]
      rw [if_pos h, h3, h4]
      exact ih
    · rw [if_neg h]
      cases h5 : (a.self == q) with
      | true => rfl
      | false => exact ih

theorem deref_append_fresh {p : Nat} {arr : List QC_entry_t} {x : QC_entry_t}
    (h : ∀ e ∈ arr, e.self ≠ p) (hx : x.self = p) : deref p (arr ++ [x]) = some x := by
  have h1 : deref p arr = none := deref_none_iff.2 h
  simp only [deref] at h1 ⊢
  simp [List.find?_append, h1, hx]

theorem deref_append_ne {q : Nat} {arr : List QC_entry_t} {x : QC_entry_t}
    (hx : x.self ≠ q) : deref q (arr ++ [x]) = deref q arr := by
  simp only [deref]
  rw [List.find?_append]
  cases h : List.find? (fun e => e.self == q) arr with
  | some e => simp
  | none => simp [hx]

/-! ## Swap-with-last removal -/

theorem rotate_last_perm (t : List QC_entry_t) :
    (match t.getLast? with
     | none => []
     | some last => last :: t.dropLast).Perm t := by
  cases h : t.getLast? with
  | none =>
    have : t = [] := by simpa using h
    simp [this]
  | some l =>
    have h1 : t.dropLast ++ [l] = t := List.dropLast_append_getLast? l h
    have h2 : (l :: t.dropLast).Perm (t.dropLast ++ [l]) := by
      simpa using (List.perm_append_comm : ([l] ++ t.dropLast).Perm (t.dropLast ++ [l]))
    simpa [h1] using h2

theorem remove_index_fast_cons_succ (a : QC_entry_t) (t : List QC_entry_t) (i : Nat) :
    remove_index_fast (a :: t) (i + 1) = a :: remove_index_fast t i := by
  simp [remove_index_fast]

theorem remove_index_fast_perm {arr : List QC_entry_t} {i : Nat} {x : QC_entry_t}
    (h : arr.get? i = some x) : (x :: remove_index_fast arr i).Perm arr := by
  induction arr generalizing i with
  | nil => simp at h
  | cons a t ih =>
    cases i with
    | zero =>
      have hx : a = x := by simpa using h
      subst hx
      have := rotate_last_perm t
      simpa [remove_index_fast] using this
    | succ i =>
      have h1 : t.get? i = some x := by simpa using h
      rw [remove_index_fast_cons_succ]
      exact (List.Perm.swap a x _).trans ((ih h1).cons a)

theorem remove_index_fast_length {arr : List QC_entry_t} {i : Nat} {x : QC_entry_t}
    (h : arr.get? i = some x) : (remove_index_fast arr i).length + 1 = arr.length := by
  have := (remove_index_fast_perm h).length_eq
  simpa using this

/-! ## Well-formed shards -/

theorem store_map_proj {β : Type} {p : Nat} {f : QC_entry_t → QC_entry_t} (φ : QC_entry_t → β)
    (hf : ∀ e, φ (f e) = φ e) (arr : List QC_entry_t) :
    (store p f arr).map φ = arr.map φ := by
  induction arr with
  | nil => rfl
  | cons a t ih =>
    simp only [store, List.map_cons] at ih ⊢
    rw [ih]
    by_cases h : a.self = p
    · simp [h, hf]
    · simp [h]

theorem eq_of_self_eq {arr : List QC_entry_t} (hnd : (arr.map QC_entry_t.self).Nodup)
    {e1 e2 : QC_entry_t} (h1 : e1 ∈ arr) (h2 : e2 ∈ arr) (h : e1.self = e2.self) : e1 = e2 :=
  List.inj_on_of_nodup_map hnd h1 h2 h

theorem sorted_keys_nodup {m : BtMap} (h : (m.map Prod.fst).Pairwise (· < ·)) :
    (m.map Prod.fst).Nodup :=
  h.imp (fun hab => Nat.ne_of_lt hab)

theorem bt_erase_sorted (key : Nat) {m : BtMap} (h : (m.map Prod.fst).Pairwise (· < ·)) :
    ((bt_erase key m).map Prod.fst).Pairwise (· < ·) :=
  h.sublist ((List.filter_sublist m).map Prod.fst)

theorem WF_congr (kv : KV_BtreeArray) {kv1 : KV_BtreeArray} (hm : kv1.bt_map = kv.bt_map)
    (ha : kv1.ptrArray = kv.ptrArray) (h : kv.WF) : kv1.WF := by
  refine ⟨?_, ?_, ?_, ?_⟩
  · rw [hm]; exact h.keys_sorted
  · rw [ha]; exact h.addr_nodup
  · rw [ha]; exact h.addr_range
  · rw [ha, hm]; exact h.bound

theorem WF_new : KV_BtreeArray.new.WF := by
  refine ⟨?_, ?_, ?_, ?_⟩ <;> simp [KV_BtreeArray.new]

/-- Writing fields other than `self` and `key` through a pointer keeps a shard well formed,
as long as an entry that holds exactly one reference still does afterwards. -/
theorem WF_store {kv : KV_BtreeArray} (p : Nat) {F : QC_entry_t → QC_entry_t}
    (hs : ∀ e, (F e).self = e.self) (hk : ∀ e, (F e).key = e.key)
    (hr : ∀ e, e.ref_count = 1 → (F e).ref_count = 1) (h : kv.WF) :
    KV_BtreeArray.WF { kv with ptrArray := store p F kv.ptrArray } := by
  refine ⟨h.keys_sorted, ?_, ?_, ?_⟩
  · show ((store p F kv.ptrArray).map QC_entry_t.self).Nodup
    rw [store_map_self hs]; exact h.addr_nodup
  · intro e he
    obtain ⟨e0, he0, rfl⟩ := mem_store.1 he
    by_cases hp : e0.self = p
    · simp only [hp, if_true, hs]; rw [← hp]; exact h.addr_range e0 he0
    · simp only [hp, if_false]; exact h.addr_range e0 he0
  · intro b hb
    obtain ⟨e0, he0, h1, h2, h3⟩ := h.bound b hb
    refine ⟨if e0.self = p then F e0 else e0, mem_store.2 ⟨e0, he0, rfl⟩, ?_⟩
    by_cases hp : e0.self = p
    · simp only [hp, if_true, hs, hk]; exact ⟨hp ▸ h1, h2, hr e0 h3⟩
    · simp only [hp, if_false]; exact ⟨h1, h2, h3⟩

/-- Removing the entry at index `i` and erasing the binding of its key, as one iteration
of the purge loop does, keeps a shard well formed. -/
theorem WF_remove {kv : KV_BtreeArray} {i : Nat} {x : QC_entry_t}
    (hx : kv.ptrArray.get? i = some x) (h : kv.WF) :
    KV_BtreeArray.WF { kv with ptrArray := remove_index_fast kv.ptrArray i,
                               bt_map := bt_erase x.key kv.bt_map } := by
  have hperm := remove_index_fast_perm hx
  have hsub : ∀ e ∈ remove_index_fast kv.ptrArray i, e ∈ kv.ptrArray :=
    fun e he => hperm.subset (List.mem_cons_of_mem _ he)
  have hnd : (x.self :: (remove_index_fast kv.ptrArray i).map QC_entry_t.self).Nodup := by
    have := (hperm.map QC_entry_t.self).nodup_iff.2 h.addr_nodup
    simpa using this
  refine ⟨bt_erase_sorted _ h.keys_sorted, (List.nodup_cons.1 hnd).2,
    fun e he => h.addr_range e (hsub e he), ?_⟩
  intro b hb
  obtain ⟨hb1, hb2⟩ := mem_bt_erase.1 hb
  obtain ⟨e, he, h1, h2, h3⟩ := h.bound b hb1
  refine ⟨e, ?_, h1, h2, h3⟩
  have hex : e ≠ x := by
    intro hE
    apply hb2
    rw [← h2, hE]
  rcases List.mem_cons.1 (hperm.symm.subset he) with h4 | h4
  · exact absurd h4 hex
  · exact h4

theorem replace_WF {key : Nat} {entry : QC_entry_t} {kv : KV_BtreeArray} (st : Counters)
    (h : kv.WF) (hk : entry.key = key) (hfresh : ∀ e ∈ kv.ptrArray, e.self ≠ entry.self)
    (hr : 0 < entry.self ∧ entry.self < U64) : (kv.replace key entry st).1.WF := by
  have hnd1 : ((kv.ptrArray ++ [{ entry with ref_count := 1 }]).map QC_entry_t.self).Nodup := by
    rw [List.map_append, List.nodup_append]
    refine ⟨h.addr_nodup, by simp, ?_⟩
    intro a ha1 ha2
    obtain ⟨e, he, hea⟩ := List.mem_map.1 ha1
    simp only [List.map_cons, List.map_nil, List.mem_singleton] at ha2
    exact hfresh e he (by rw [hea, ha2])
  have hrange1 : ∀ e ∈ kv.ptrArray ++ [{ entry with ref_count := 1 }],
      0 < e.self ∧ e.self < U64 := by
    intro e he
    rcases List.mem_append.1 he with h1 | h1
    · exact h.addr_range e h1
    · simp only [List.mem_singleton] at h1
      rw [h1]; exact hr
  cases hfind : bt_find key kv.bt_map with
  | none =>
    simp only [KV_BtreeArray.replace, hfind]
    refine ⟨bt_insert_sorted _ _ h.keys_sorted, hnd1, hrange1, ?_⟩
    intro b hb
    rcases List.mem_cons.1 ((bt_insert_perm entry.self hfind).subset hb) with h1 | h1
    · refine ⟨{ entry with ref_count := 1 }, by simp, ?_⟩
      rw [h1]; exact ⟨rfl, hk, rfl⟩
    · obtain ⟨e, he, h2⟩ := h.bound b h1
      exact ⟨e, List.mem_append_left _ he, h2⟩
  | some old =>
    simp only [KV_BtreeArray.replace, hfind]
    have hg : ∀ e : QC_entry_t, (ref_dec { e with expire := EXPIRE_DROPIT }).self = e.self :=
      fun _ => rfl
    obtain ⟨eo, heo, ho1, ho2, _⟩ := h.bound (key, old) (bt_find_some_mem hfind)
    simp only at ho1 ho2
    have hne : entry.self ≠ old := by
      intro hE
      exact hfresh eo heo (by rw [ho1, hE])
    refine ⟨bt_insert_sorted _ _ (bt_erase_sorted _ h.keys_sorted), ?_, ?_, ?_⟩
    · show ((store old _ _).map QC_entry_t.self).Nodup
      rw [store_map_self hg]; exact hnd1
    · intro e he
      obtain ⟨e0, he0, rfl⟩ := mem_store.1 he
      by_cases hp : e0.self = old
      · simp only [hp, if_true, hg]; rw [← hp]; exact hrange1 e0 he0
      · simp only [hp, if_false]; exact hrange1 e0 he0
    · intro b hb
      rcases List.mem_cons.1
        ((bt_insert_perm entry.self (bt_find_erase_self key kv.bt_map)).subset hb) with h1 | h1
      · refine ⟨{ entry with ref_count := 1 }, ?_, ?_⟩
        · refine mem_store.2 ⟨{ entry with ref_count := 1 }, by simp, ?_⟩
          simp [hne]
        · rw [h1]; exact ⟨rfl, hk, rfl⟩
      · obtain ⟨hb1, hb2⟩ := mem_bt_erase.1 h1
        obtain ⟨e, he, h2, h3, h4⟩ := h.bound b hb1
        have hne2 : e.self ≠ old := by
          intro hE
          have : e = eo := eq_of_self_eq h.addr_nodup he heo (by rw [hE, ho1])
          apply hb2
          rw [← h3, this, ho2]
        refine ⟨e, mem_store.2 ⟨e, List.mem_append_left _ he, ?_⟩, h2, h3, h4⟩
        simp [hne2]

theorem empty_loop_fst (m : BtMap) (arr : List QC_entry_t) :
    (KV_BtreeArray.empty_loop m arr).1 = [] := by
  induction m generalizing arr with
  | nil => rfl
  | cons b m ih =>
    obtain ⟨k, p⟩ := b
    simp only [KV_BtreeArray.empty_loop]
    exact ih _

theorem empty_loop_map_proj {β : Type} (φ : QC_entry_t → β)
    (hφ : ∀ e : QC_entry_t, φ { e with expire := EXPIRE_DROPIT } = φ e)
    (m : BtMap) (arr : List QC_entry_t) :
    (KV_BtreeArray.empty_loop m arr).2.map φ = arr.map φ := by
  induction m generalizing arr with
  | nil => rfl
  | cons b m ih =>
    obtain ⟨k, p⟩ := b
    simp only [KV_BtreeArray.empty_loop]
    rw [ih, store_map_proj φ hφ]

theorem empty_bt_map (kv : KV_BtreeArray) : kv.empty.bt_map = [] :=
  empty_loop_fst _ _

theorem empty_WF {kv : KV_BtreeArray} (h : kv.WF) : kv.empty.WF := by
  have hself : kv.empty.ptrArray.map QC_entry_t.self = kv.ptrArray.map QC_entry_t.self :=
    empty_loop_map_proj QC_entry_t.self (fun _ => rfl) _ _
  refine ⟨by rw [empty_bt_map]; simp, by rw [hself]; exact h.addr_nodup, ?_,
    by rw [empty_bt_map]; simp⟩
  intro e he
  have h1 : e.self ∈ kv.ptrArray.map QC_entry_t.self := by
    rw [← hself]; exact List.mem_map_of_mem _ he
  obtain ⟨e0, he0, h2⟩ := List.mem_map.1 h1
  rw [← h2]; exact h.addr_range e0 he0

theorem purge_loop_WF (QCnow : Int) (fuel : Nat) :
    ∀ (i : Nat) (kv : KV_BtreeArray) (fm re : Nat), kv.WF →
      (KV_BtreeArray.purge_loop QCnow fuel i kv fm re).1.WF := by
  induction fuel with
  | zero => intro i kv fm re h; exact h
  | succ fuel ih =>
    intro i kv fm re h
    simp only [KV_BtreeArray.purge_loop]
    cases hx : kv.ptrArray.get? i with
    | none => exact h
    | some x =>
      simp only
      split
      · exact ih _ _ _ _ (WF_remove hx h)
      · exact ih _ _ _ _ h

theorem purge_some_WF (QCnow : Int) {kv : KV_BtreeArray} (st : Counters) (h : kv.WF) :
    (kv.purge_some QCnow st).1.WF := by
  simp only [KV_BtreeArray.purge_some]
  split
  · exact purge_loop_WF _ _ _ _ _ _ (WF_congr kv rfl rfl h)
  · exact WF_congr kv rfl rfl h

/-! ## The cache operations, shard by shard -/

theorem store_id (p : Nat) (arr : List QC_entry_t) : store p (fun e => e) arr = arr := by
  simp [store]

theorem with_shard_KVs (c : Standard_Query_Cache) (i j : Fin SHARED_QUERY_CACHE_HASH_TABLES)
    (kv : KV_BtreeArray) : (c.with_shard i kv).KVs j = if j = i then kv else c.KVs j := rfl

theorem ref_dec_ref_count (e : QC_entry_t) :
    (ref_dec e).ref_count = if e.ref_count = 0 then U32 - 1 else e.ref_count - 1 := rfl

theorem ref_inc_ref_count (e : QC_entry_t) : (ref_inc e).ref_count = (e.ref_count + 1) % U32 :=
  rfl

theorem ref_dec_inc_count {r : Nat} (h : r < U32) :
    (if (r + 1) % U32 = 0 then U32 - 1 else (r + 1) % U32 - 1) = r := by
  simp only [U32] at h ⊢
  split <;> omega

theorem ref_dec_inc_fields (e : QC_entry_t) :
    (ref_dec (ref_inc e)).self = e.self ∧ (ref_dec (ref_inc e)).key = e.key ∧
    (ref_dec (ref_inc e)).value = e.value ∧ (ref_dec (ref_inc e)).klen = e.klen ∧
    (ref_dec (ref_inc e)).length = e.length ∧ (ref_dec (ref_inc e)).expire = e.expire ∧
    (e.ref_count < U32 → (ref_dec (ref_inc e)).ref_count = e.ref_count) := by
  refine ⟨rfl, rfl, rfl, rfl, rfl, rfl, ?_⟩
  intro h
  rw [ref_dec_ref_count, ref_inc_ref_count]
  exact ref_dec_inc_count h

theorem get_touch_fields (t : Int) (e : QC_entry_t) :
    (get_touch t e).self = e.self ∧ (get_touch t e).key = e.key ∧
    (get_touch t e).value = e.value ∧ (get_touch t e).klen = e.klen ∧
    (get_touch t e).length = e.length ∧ (get_touch t e).expire = e.expire ∧
    (e.ref_count < U32 → (get_touch t e).ref_count = e.ref_count) := by
  unfold get_touch
  by_cases h : t > (ref_inc e).access
  · simp only [h, if_true]
    refine ⟨rfl, rfl, rfl, rfl, rfl, rfl, ?_⟩
    intro h2
    rw [ref_dec_ref_count]
    show (if (ref_inc e).ref_count = 0 then U32 - 1 else (ref_inc e).ref_count - 1) = e.ref_count
    rw [ref_inc_ref_count]
    exact ref_dec_inc_count h2
  · simp only [h, if_false]
    exact ref_dec_inc_fields e

/-- What `get` does to the shards: the sequence of the key's shard is rewritten through one
pointer by a function that keeps every field except `access` (and keeps `ref_count` when
it is a `uint32_t` value); nothing else changes. -/
theorem get_KVs (H : List Nat → Nat → Nat) (c : Standard_Query_Cache) (kp : List Nat) :
    ∃ (p : Nat) (F : QC_entry_t → QC_entry_t),
      (∀ e, (F e).self = e.self ∧ (F e).key = e.key ∧ (F e).value = e.value ∧
        (F e).klen = e.klen ∧ (F e).length = e.length ∧ (F e).expire = e.expire ∧
        (e.ref_count < U32 → (F e).ref_count = e.ref_count)) ∧
      ∀ j, (c.get H kp).1.KVs j =
        if j = shard_of (fingerprint H kp) then
          { c.KVs j with ptrArray := store p F (c.KVs j).ptrArray }
        else c.KVs j := by
  have hid : ∀ j, c.KVs j = { c.KVs j with ptrArray := store 0 (fun e => e) (c.KVs j).ptrArray } := by
    intro j; rw [store_id]
  have hinc : ∀ e : QC_entry_t, (ref_inc e).self = e.self := fun _ => rfl
  have hacc : ∀ (t : Int) (e : QC_entry_t),
      ((fun e : QC_entry_t => if t > e.access then { e with access := t } else e) e).self
        = e.self := by
    intro t e; simp only; split <;> rfl
  cases hfind : bt_find (fingerprint H kp) (c.KVs (shard_of (fingerprint H kp))).bt_map with
  | none =>
    refine ⟨0, fun e => e, fun e => ⟨rfl, rfl, rfl, rfl, rfl, rfl, fun _ => rfl⟩, ?_⟩
    intro j
    simp only [Standard_Query_Cache.get, KV_BtreeArray.lookup, hfind, with_shard_KVs]
    by_cases hj : j = shard_of (fingerprint H kp)
    · simp only [hj, if_true]; exact hid _
    · simp only [hj, if_false]
  | some p =>
    cases hd : deref p (c.KVs (shard_of (fingerprint H kp))).ptrArray with
    | none =>
      refine ⟨0, fun e => e, fun e => ⟨rfl, rfl, rfl, rfl, rfl, rfl, fun _ => rfl⟩, ?_⟩
      intro j
      simp only [Standard_Query_Cache.get, KV_BtreeArray.lookup, hfind, hd, with_shard_KVs]
      by_cases hj : j = shard_of (fingerprint H kp)
      · simp only [hj, if_true]; exact hid _
      · simp only [hj, if_false]
    | some e =>
      have hd2 : deref p (store p ref_inc (c.KVs (shard_of (fingerprint H kp))).ptrArray)
          = some (ref_inc e) := by
        rw [deref_store hinc, hd]; rfl
      by_cases hexp : e.expire > c.QCnow
      · refine ⟨p, get_touch c.QCnow, get_touch_fields c.QCnow, ?_⟩
        intro j
        have hexp2 : (ref_inc e).expire > c.QCnow := hexp
        simp only [Standard_Query_Cache.get, KV_BtreeArray.lookup, hfind, hd, hd2,
          with_shard_KVs, hexp2, if_true]
        by_cases hj : j = shard_of (fingerprint H kp)
        · simp only [hj, if_true]
          rw [store_store (hacc c.QCnow), store_store hinc]
          rfl
        · simp only [hj, if_false]
      · refine ⟨p, fun e => ref_dec (ref_inc e), ref_dec_inc_fields, ?_⟩
        intro j
        have hexp2 : ¬ (ref_inc e).expire > c.QCnow := hexp
        simp only [Standard_Query_Cache.get, KV_BtreeArray.lookup, hfind, hd, hd2,
          with_shard_KVs, hexp2, if_false]
        by_cases hj : j = shard_of (fingerprint H kp)
        · simp only [hj, if_true]
          rw [store_store hinc]
        · simp only [hj, if_false]

theorem set_KVs (H : List Nat → Nat → Nat) (c : Standard_Query_Cache) (kp : List Nat)
    (kl : Nat) (vp : List Nat) (vl : Nat) (expire : Int) (entry : Nat)
    (j : Fin SHARED_QUERY_CACHE_HASH_TABLES) :
    (c.set H kp kl vp vl expire entry).1.KVs j =
      if j = shard_of (fingerprint H kp) then
        ((c.KVs (shard_of (fingerprint H kp))).replace (fingerprint H kp)
          (make_entry c.QCnow (fingerprint H kp) kl vp vl expire entry) c.stats).1
      else c.KVs j := rfl

theorem purge_shard_KVs (c : Standard_Query_Cache) (i j : Fin SHARED_QUERY_CACHE_HASH_TABLES) :
    (c.purge_shard i).KVs j =
      if j = i then ((c.KVs i).purge_some c.QCnow c.stats).1 else c.KVs j := rfl

/-- The loop of `flush` over a list of distinct shard indices. -/
theorem flush_fold (l : List (Fin SHARED_QUERY_CACHE_HASH_TABLES)) (hnd : l.Nodup) :
    ∀ (c : Standard_Query_Cache) (tot : Nat), tot < U64 →
      (∀ j, (l.foldl flush_step (c, tot)).1.KVs j
          = if j ∈ l then (c.KVs j).empty else c.KVs j) ∧
      (l.foldl flush_step (c, tot)).1.stats = c.stats ∧
      (l.foldl flush_step (c, tot)).1.QCnow = c.QCnow ∧
      (l.foldl flush_step (c, tot)).2
          = (tot + (l.map (fun i => to_uint64 (c.KVs i).cnt)).sum) % U64 := by
  induction l with
  | nil =>
    intro c tot htot
    refine ⟨fun j => by simp, rfl, rfl, ?_⟩
    simp only [List.foldl_nil, List.map_nil, List.sum_nil, Nat.add_zero]
    exact (Nat.mod_eq_of_lt htot).symm
  | cons a t ih =>
    intro c tot _
    obtain ⟨ha, ht⟩ := List.nodup_cons.1 hnd
    obtain ⟨h1, h2, h3, h4⟩ := ih ht (c.with_shard a (c.KVs a).empty)
      ((tot + to_uint64 (c.KVs a).cnt) % U64) (Nat.mod_lt _ (by decide))
    simp only [List.foldl_cons]
    refine ⟨?_, h2, h3, ?_⟩
    · intro j
      have h1j := h1 j
      simp only [flush_step] at h1j ⊢
      rw [h1j]
      by_cases hj : j = a
      · subst hj
        simp only [ha, if_false, with_shard_KVs, if_true, List.mem_cons, true_or]
      · by_cases hjt : j ∈ t
        · simp only [hj, hjt, with_shard_KVs, if_false, if_true, List.mem_cons, or_true]
        · simp only [hj, hjt, with_shard_KVs, if_false, List.mem_cons, or_false]
    · simp only [flush_step] at h4 ⊢
      rw [h4]
      have hmap : t.map (fun i => to_uint64 ((c.with_shard a (c.KVs a).empty).KVs i).cnt)
          = t.map (fun i => to_uint64 (c.KVs i).cnt) := by
        apply List.map_congr_left
        intro i hi
        have : i ≠ a := fun e => ha (e ▸ hi)
        simp only [with_shard_KVs, this, if_false]
      rw [hmap]
      simp only [List.map_cons, List.sum_cons]
      rw [Nat.mod_add_mod, Nat.add_assoc]

theorem flush_KVs (c : Standard_Query_Cache) (j : Fin SHARED_QUERY_CACHE_HASH_TABLES) :
    c.flush.1.KVs j = (c.KVs j).empty := by
  have h := (flush_fold _ (List.nodup_finRange _) c 0 (by decide)).1 j
  simp only [List.mem_finRange, if_true] at h
  exact h

theorem flush_stats (c : Standard_Query_Cache) : c.flush.1.stats = c.stats :=
  (flush_fold _ (List.nodup_finRange _) c 0 (by decide)).2.1

theorem flush_snd (c : Standard_Query_Cache) :
    c.flush.2 = ((List.finRange SHARED_QUERY_CACHE_HASH_TABLES).map
      (fun i => to_uint64 (c.KVs i).cnt)).sum % U64 := by
  have h := (flush_fold _ (List.nodup_finRange _) c 0 (by decide)).2.2.2
  simpa [Standard_Query_Cache.flush] using h

/-! ## Reachable states are well formed -/

theorem reachable_WF {H : List Nat → Nat → Nat} {c : Standard_Query_Cache}
    (h : Reachable H c) : ∀ i, (c.KVs i).WF := by
  induction h with
  | init t => intro i; exact WF_new
  | @set c kp kl vp vl expire entry _ hf ih =>
    intro j
    rw [set_KVs]
    by_cases hj : j = shard_of (fingerprint H kp)
    · simp only [hj, if_true]
      exact replace_WF _ (ih _) rfl (fun e he => hf.2.2 _ e he) ⟨hf.1, hf.2.1⟩
    · simp only [hj, if_false]; exact ih j
  | @get c kp _ ih =>
    intro j
    obtain ⟨p, F, hF, hK⟩ := get_KVs H c kp
    rw [hK j]
    by_cases hj : j = shard_of (fingerprint H kp)
    · simp only [hj, if_true]
      refine WF_store p (fun e => (hF e).1) (fun e => (hF e).2.1) ?_ (ih _)
      intro e he
      rw [(hF e).2.2.2.2.2.2 (by rw [he]; decide), he]
    · simp only [hj, if_false]; exact ih j
  | @flush c _ ih =>
    intro j
    rw [flush_KVs]
    exact empty_WF (ih j)
  | @purge_some c i _ ih =>
    intro j
    rw [purge_shard_KVs]
    by_cases hj : j = i
    · simp only [hj, if_true]; exact purge_some_WF _ _ (ih i)
    · simp only [hj, if_false]; exact ih j
  | @clock c t _ ih => intro j; exact ih j

/-- A well-formed shard holds fewer than `2^64` entries: they live at distinct non-null
64-bit addresses. -/
theorem WF_length_lt {kv : KV_BtreeArray} (h : kv.WF) : kv.ptrArray.length < U64 := by
  have h1 : (kv.ptrArray.map QC_entry_t.self).toFinset ⊆ Finset.Ico 1 U64 := by
    intro a ha
    rw [List.mem_toFinset] at ha
    obtain ⟨e, he, rfl⟩ := List.mem_map.1 ha
    rw [Finset.mem_Ico]
    exact ⟨(h.addr_range e he).1, (h.addr_range e he).2⟩
  have h2 := Finset.card_le_card h1
  rw [List.toFinset_card_of_nodup h.addr_nodup, Nat.card_Ico, List.length_map] at h2
  have h3 : U64 - 1 < U64 := by decide
  exact Nat.lt_of_le_of_lt h2 h3

/-! ## Sums over the shards -/

theorem sum_map_update {α : Type} [DecidableEq α] (l : List α) (hnd : l.Nodup) (i : α)
    (hi : i ∈ l) (g g1 : α → Nat) (h : ∀ j, j ≠ i → g1 j = g j) :
    (l.map g1).sum + g i = (l.map g).sum + g1 i := by
  induction l with
  | nil => simp at hi
  | cons a t ih =>
    obtain ⟨ha, ht⟩ := List.nodup_cons.1 hnd
    simp only [List.map_cons, List.sum_cons]
    by_cases hai : a = i
    · subst hai
      have : t.map g1 = t.map g := by
        apply List.map_congr_left
        intro j hj
        exact h j (fun e => ha (e ▸ hj))
      rw [this]; omega
    · have hit : i ∈ t := by
        rcases List.mem_cons.1 hi with h1 | h1
        · exact absurd h1.symm hai
        · exact h1
      have := ih ht hit
      rw [h a hai]; omega

theorem shard_sum_update (f : KV_BtreeArray → Nat) (c c1 : Standard_Query_Cache)
    (i : Fin SHARED_QUERY_CACHE_HASH_TABLES) (kv : KV_BtreeArray)
    (h : ∀ j, c1.KVs j = if j = i then kv else c.KVs j) :
    c1.shard_sum f + f (c.KVs i) = c.shard_sum f + f kv := by
  have h1 := sum_map_update (List.finRange SHARED_QUERY_CACHE_HASH_TABLES)
    (List.nodup_finRange _) i (List.mem_finRange i) (fun j => f (c.KVs j))
    (fun j => f (c1.KVs j)) (by intro j hj; simp only [h j, hj, if_false])
  have h2 : f (c1.KVs i) = f kv := by rw [h i]; simp
  simp only [Standard_Query_Cache.shard_sum]
  rw [← h2]; exact h1

theorem shard_sum_congr (f : KV_BtreeArray → Nat) (c c1 : Standard_Query_Cache)
    (h : ∀ j, f (c1.KVs j) = f (c.KVs j)) : c1.shard_sum f = c.shard_sum f := by
  simp only [Standard_Query_Cache.shard_sum]
  congr 1
  apply List.map_congr_left
  intro j _; exact h j

/-! ## Counter arithmetic -/

theorem THR_UPDATE_CNT_sum (a b c d : Nat) :
    ((THR_UPDATE_CNT a b c d).2 + (THR_UPDATE_CNT a b c d).1) % U64 = (b + a + c) % U64 := by
  simp only [THR_UPDATE_CNT]
  split
  · have h1 : (a + c) % U64 % d ≤ (a + c) % U64 := Nat.mod_le _ _
    generalize (a + c) % U64 % d = r at h1 ⊢
    simp only [U64] at h1 ⊢
    omega
  · simp only [U64]
    omega

theorem THR_UPDATE_CNT_lt (a b c d : Nat) (hd : 0 < d) : (THR_UPDATE_CNT a b c d).1 < d := by
  simp only [THR_UPDATE_CNT]
  split
  · exact Nat.mod_lt _ hd
  · rename_i h; exact Nat.lt_of_not_le h

theorem THR_UPDATE_CNT_one {b : Nat} (c : Nat) (hb : b < U64) :
    THR_UPDATE_CNT 0 b c 1 = (0, (b + c) % U64) := by
  simp only [THR_UPDATE_CNT, Nat.zero_add, Nat.mod_one, Nat.sub_zero]
  simp only [U64] at hb ⊢
  split
  · simp only [Prod.mk.injEq, true_and]; omega
  · simp only [Prod.mk.injEq]; omega

theorem THR_DECREASE_CNT_one {b : Nat} (c : Nat) (hb : b < U64) :
    THR_DECREASE_CNT 0 b c 1 = (0, (b + (U64 - c % U64)) % U64) := by
  simp only [THR_DECREASE_CNT, Nat.zero_add, Nat.mod_one, Nat.sub_zero]
  simp only [U64] at hb ⊢
  split
  · simp only [Prod.mk.injEq, true_and]; omega
  · simp only [Prod.mk.injEq]; omega

/-! ## The effect of the shard operations on lengths, bytes and counters -/

theorem sum_length_append (a b : List QC_entry_t) :
    sum_length (a ++ b) = sum_length a + sum_length b := by
  simp [sum_length]

theorem sum_length_perm {a b : List QC_entry_t} (h : a.Perm b) : sum_length a = sum_length b :=
  (h.map QC_entry_t.length).sum_eq

theorem replace_length (key : Nat) (entry : QC_entry_t) (kv : KV_BtreeArray) (st : Counters) :
    (kv.replace key entry st).1.ptrArray.length = kv.ptrArray.length + 1 := by
  simp only [KV_BtreeArray.replace]
  split <;> simp [store_length]

theorem replace_sum_length (key : Nat) (entry : QC_entry_t) (kv : KV_BtreeArray)
    (st : Counters) :
    sum_length (kv.replace key entry st).1.ptrArray = sum_length kv.ptrArray + entry.length := by
  simp only [KV_BtreeArray.replace]
  split
  · simp only [sum_length]
    rw [store_map_proj (f := fun e => ref_dec { e with expire := EXPIRE_DROPIT })
      QC_entry_t.length (fun _ => rfl)]
    simp
  · simp [sum_length]

theorem replace_stats (key : Nat) (entry : QC_entry_t) (kv : KV_BtreeArray) (st : Counters) :
    (kv.replace key entry st).2.Glo_num_entries
        = (THR_UPDATE_CNT st.__thr_num_entries st.Glo_num_entries 1 1).2 ∧
    (kv.replace key entry st).2.__thr_num_entries
        = (THR_UPDATE_CNT st.__thr_num_entries st.Glo_num_entries 1 1).1 ∧
    (kv.replace key entry st).2.Glo_size_values
        = (THR_UPDATE_CNT st.__thr_size_values st.Glo_size_values entry.length 100).2 ∧
    (kv.replace key entry st).2.__thr_size_values
        = (THR_UPDATE_CNT st.__thr_size_values st.Glo_size_values entry.length 100).1 ∧
    (kv.replace key entry st).2.__thr_num_deleted = st.__thr_num_deleted := by
  simp only [KV_BtreeArray.replace]
  split <;> exact ⟨rfl, rfl, rfl, rfl, rfl⟩

theorem empty_length (kv : KV_BtreeArray) : kv.empty.ptrArray.length = kv.ptrArray.length := by
  have := congrArg List.length
    (empty_loop_map_proj QC_entry_t.length (fun _ => rfl) kv.bt_map kv.ptrArray)
  simpa [KV_BtreeArray.empty] using this

theorem empty_sum_length (kv : KV_BtreeArray) :
    sum_length kv.empty.ptrArray = sum_length kv.ptrArray := by
  simp only [sum_length, KV_BtreeArray.empty]
  rw [empty_loop_map_proj QC_entry_t.length (fun _ => rfl)]

/-- Accounting of the purge loop: the sequence never grows; while the entry counter cannot
wrap, `removed_entries` grows by exactly the number of entries removed, and it stays put
only if nothing at all was removed; `freed_memory` grows by the bytes removed, modulo
`2^64`. -/
theorem purge_loop_account (QCnow : Int) (fuel : Nat) :
    ∀ (i : Nat) (kv : KV_BtreeArray) (fm re : Nat),
      (KV_BtreeArray.purge_loop QCnow fuel i kv fm re).1.ptrArray.length ≤ kv.ptrArray.length ∧
      (re + kv.ptrArray.length < U64 →
        (KV_BtreeArray.purge_loop QCnow fuel i kv fm re).2.2
            + (KV_BtreeArray.purge_loop QCnow fuel i kv fm re).1.ptrArray.length
          = re + kv.ptrArray.length ∧
        ((KV_BtreeArray.purge_loop QCnow fuel i kv fm re).2.2 = re →
          (KV_BtreeArray.purge_loop QCnow fuel i kv fm re).2.1 = fm ∧
          (KV_BtreeArray.purge_loop QCnow fuel i kv fm re).1.ptrArray = kv.ptrArray)) ∧
      ((KV_BtreeArray.purge_loop QCnow fuel i kv fm re).2.1
          + sum_length (KV_BtreeArray.purge_loop QCnow fuel i kv fm re).1.ptrArray) % U64
        = (fm + sum_length kv.ptrArray) % U64 := by
  induction fuel with
  | zero =>
    intro i kv fm re
    exact ⟨Nat.le_refl _, fun _ => ⟨rfl, fun _ => ⟨rfl, rfl⟩⟩, rfl⟩
  | succ fuel ih =>
    intro i kv fm re
    simp only [KV_BtreeArray.purge_loop]
    cases hx : kv.ptrArray.get? i with
    | none => exact ⟨Nat.le_refl _, fun _ => ⟨rfl, fun _ => ⟨rfl, rfl⟩⟩, rfl⟩
    | some x =>
      simp only
      split
      · have hlen := remove_index_fast_length hx
        have hsum : sum_length kv.ptrArray
            = x.length + sum_length (remove_index_fast kv.ptrArray i) := by
          rw [← sum_length_perm (remove_index_fast_perm hx)]
          simp [sum_length]
        obtain ⟨h1, h2, h3⟩ := ih i
          { kv with ptrArray := remove_index_fast kv.ptrArray i,
                    bt_map := bt_erase x.key kv.bt_map }
          ((fm + x.length) % U64) ((re + 1) % U64)
        simp only at h1 h2 h3
        generalize KV_BtreeArray.purge_loop QCnow fuel i
          { kv with ptrArray := remove_index_fast kv.ptrArray i,
                    bt_map := bt_erase x.key kv.bt_map }
          ((fm + x.length) % U64) ((re + 1) % U64) = r at h1 h2 h3 ⊢
        refine ⟨by omega, ?_, ?_⟩
        · intro hb
          have hre : (re + 1) % U64 = re + 1 := by
            apply Nat.mod_eq_of_lt
            simp only [U64] at hb ⊢
            omega
          rw [hre] at h2
          obtain ⟨h4, _⟩ := h2 (by omega)
          refine ⟨by omega, ?_⟩
          intro h5
          omega
        · rw [hsum]
          simp only [U64] at h3 ⊢
          omega
      · exact ih _ _ _ _

theorem purge_account_fields (fm re : Nat) {st : Counters}
    (h0 : st.__thr_num_deleted = 0) (hb : st.Glo_num_entries < U64) :
    (KV_BtreeArray.purge_account fm re st).__thr_num_deleted = 0 ∧
    (KV_BtreeArray.purge_account fm re st).__thr_num_entries = st.__thr_num_entries ∧
    (KV_BtreeArray.purge_account fm re st).__thr_size_values = st.__thr_size_values ∧
    (KV_BtreeArray.purge_account fm re st).Glo_num_entries
      = (st.Glo_num_entries + (U64 - re % U64)) % U64 ∧
    (KV_BtreeArray.purge_account fm re st).Glo_size_values
      = (if re ≠ 0 then (st.Glo_size_values + (U64 - fm % U64)) % U64
         else st.Glo_size_values) := by
  simp only [KV_BtreeArray.purge_account, h0, THR_DECREASE_CNT_one re hb]
  split <;> exact ⟨rfl, rfl, rfl, rfl, rfl⟩

/-- The effect of `purge_some` on the counters, for a shard that holds fewer than `2^64`
entries. -/
theorem purge_some_counters (QCnow : Int) (kv : KV_BtreeArray) {st : Counters}
    (hlen : kv.ptrArray.length < U64) (h0 : st.__thr_num_deleted = 0)
    (hb : st.Glo_num_entries < U64) :
    (kv.purge_some QCnow st).2.__thr_num_deleted = 0 ∧
    (kv.purge_some QCnow st).2.__thr_num_entries = st.__thr_num_entries ∧
    (kv.purge_some QCnow st).2.__thr_size_values = st.__thr_size_values ∧
    (kv.purge_some QCnow st).1.ptrArray.length ≤ kv.ptrArray.length ∧
    (kv.purge_some QCnow st).2.Glo_num_entries
      = (st.Glo_num_entries
          + (U64 - (kv.ptrArray.length - (kv.purge_some QCnow st).1.ptrArray.length))) % U64 ∧
    ((kv.purge_some QCnow st).2.Glo_size_values + sum_length kv.ptrArray) % U64
      = (st.Glo_size_values + sum_length (kv.purge_some QCnow st).1.ptrArray) % U64 := by
  simp only [KV_BtreeArray.purge_some]
  split
  · obtain ⟨h1, h2, h3⟩ := purge_loop_account QCnow kv.ptrArray.length 0
      { kv with freeable_memory := (KV_BtreeArray.purge_scan QCnow kv.ptrArray).2 } 0 0
    simp only at h1 h2 h3
    obtain ⟨h4, h5⟩ := h2 (by simpa using hlen)
    generalize KV_BtreeArray.purge_loop QCnow kv.ptrArray.length 0
      { kv with freeable_memory := (KV_BtreeArray.purge_scan QCnow kv.ptrArray).2 } 0 0 = r
      at h1 h3 h4 h5 ⊢
    obtain ⟨a1, a2, a3, a4, a5⟩ := purge_account_fields r.2.1 r.2.2 h0 hb
    show (KV_BtreeArray.purge_account r.2.1 r.2.2 st).__thr_num_deleted = 0 ∧
      (KV_BtreeArray.purge_account r.2.1 r.2.2 st).__thr_num_entries = st.__thr_num_entries ∧
      (KV_BtreeArray.purge_account r.2.1 r.2.2 st).__thr_size_values = st.__thr_size_values ∧
      r.1.ptrArray.length ≤ kv.ptrArray.length ∧
      (KV_BtreeArray.purge_account r.2.1 r.2.2 st).Glo_num_entries
        = (st.Glo_num_entries + (U64 - (kv.ptrArray.length - r.1.ptrArray.length))) % U64 ∧
      ((KV_BtreeArray.purge_account r.2.1 r.2.2 st).Glo_size_values
          + sum_length kv.ptrArray) % U64
        = (st.Glo_size_values + sum_length r.1.ptrArray) % U64
    rw [a4, a5]
    refine ⟨a1, a2, a3, h1, ?_, ?_⟩
    · have : r.2.2 % U64 = kv.ptrArray.length - r.1.ptrArray.length := by
        simp only [U64] at hlen ⊢
        omega
      rw [this]
    · by_cases hre : r.2.2 = 0
      · obtain ⟨_, h6⟩ := h5 hre
        simp only [hre, ne_eq, not_true_eq_false, if_false]
        rw [h6]
      · simp only [hre, ne_eq, not_false_eq_true, if_true]
        simp only [Nat.zero_add] at h3
        simp only [U64] at h3 ⊢
        omega
  · refine ⟨h0, rfl, rfl, Nat.le_refl _, ?_, rfl⟩
    show st.Glo_num_entries
      = (st.Glo_num_entries + (U64 - (kv.ptrArray.length - kv.ptrArray.length))) % U64
    simp only [U64] at hb ⊢
    omega

theorem get_stats (H : List Nat → Nat → Nat) (c : Standard_Query_Cache) (kp : List Nat) :
    (c.get H kp).1.stats.Glo_num_entries = c.stats.Glo_num_entries ∧
    (c.get H kp).1.stats.__thr_num_entries = c.stats.__thr_num_entries ∧
    (c.get H kp).1.stats.__thr_num_deleted = c.stats.__thr_num_deleted ∧
    (c.get H kp).1.stats.Glo_size_values = c.stats.Glo_size_values ∧
    (c.get H kp).1.stats.__thr_size_values = c.stats.__thr_size_values ∧
    (c.get H kp).1.stats.Glo_total_freed_memory = c.stats.Glo_total_freed_memory ∧
    (c.get H kp).1.stats.Glo_cntPurge = c.stats.Glo_cntPurge := by
  simp only [Standard_Query_Cache.get, KV_BtreeArray.lookup]
  cases bt_find (fingerprint H kp) (c.KVs (shard_of (fingerprint H kp))).bt_map with
  | none => exact ⟨rfl, rfl, rfl, rfl, rfl, rfl, rfl⟩
  | some p =>
    simp only
    cases hd : deref p (c.KVs (shard_of (fingerprint H kp))).ptrArray with
    | none => exact ⟨rfl, rfl, rfl, rfl, rfl, rfl, rfl⟩
    | some e =>
      simp only
      split
      · exact ⟨rfl, rfl, rfl, rfl, rfl, rfl, rfl⟩
      · split <;> exact ⟨rfl, rfl, rfl, rfl, rfl, rfl, rfl⟩

/-! ## Reachable states keep the counters in step with the shards -/

theorem reachable_counters {H : List Nat → Nat → Nat} {c : Standard_Query_Cache}
    (h : Reachable H c) : c.CountersOK := by
  induction h with
  | init t =>
    have h1 : ∀ f : KV_BtreeArray → Nat, f KV_BtreeArray.new = 0 →
        (Standard_Query_Cache.new t).shard_sum f = 0 := by
      intro f hf
      simp [Standard_Query_Cache.shard_sum, Standard_Query_Cache.new, hf]
    refine ⟨?_, rfl, rfl, ?_, by show (0 : Nat) < 100; decide⟩
    · rw [h1 _ rfl]; rfl
    · rw [h1 _ rfl]; rfl
  | @set c kp kl vp vl expire entry hr hf ih =>
    have hlen := shard_sum_update (fun kv => kv.ptrArray.length) c
      (c.set H kp kl vp vl expire entry).1 (shard_of (fingerprint H kp)) _
      (fun j => set_KVs H c kp kl vp vl expire entry j)
    have hsum := shard_sum_update (fun kv => sum_length kv.ptrArray) c
      (c.set H kp kl vp vl expire entry).1 (shard_of (fingerprint H kp)) _
      (fun j => set_KVs H c kp kl vp vl expire entry j)
    simp only [replace_length, replace_sum_length] at hlen hsum
    obtain ⟨s1, s2, s3, s4, s5⟩ := replace_stats (fingerprint H kp)
      (make_entry c.QCnow (fingerprint H kp) kl vp vl expire entry)
      (c.KVs (shard_of (fingerprint H kp))) c.stats
    have hb : c.stats.Glo_num_entries < U64 := by
      rw [ih.num_entries]; exact Nat.mod_lt _ (by decide)
    rw [ih.thr_num_entries, THR_UPDATE_CNT_one 1 hb] at s1 s2
    have hst : (c.set H kp kl vp vl expire entry).1.stats
        = ((c.KVs (shard_of (fingerprint H kp))).replace (fingerprint H kp)
            (make_entry c.QCnow (fingerprint H kp) kl vp vl expire entry) c.stats).2 := rfl
    refine ⟨?_, ?_, ?_, ?_, ?_⟩
    · rw [hst, s1, ih.num_entries]
      simp only [U64] at hlen ⊢
      omega
    · rw [hst, s2]
    · rw [hst, s5]; exact ih.thr_num_deleted
    · rw [hst, s3, s4, THR_UPDATE_CNT_sum]
      have h1 := ih.size_values
      have h2 : (make_entry c.QCnow (fingerprint H kp) kl vp vl expire entry).length = vl := rfl
      rw [h2] at hsum ⊢
      simp only [U64] at h1 hsum ⊢
      omega
    · rw [hst, s4]; exact THR_UPDATE_CNT_lt _ _ _ _ (by decide)
  | @get c kp hr ih =>
    obtain ⟨p, F, hF, hK⟩ := get_KVs H c kp
    obtain ⟨g1, g2, g3, g4, g5, _, _⟩ := get_stats H c kp
    have hlen : (c.get H kp).1.shard_sum (fun kv => kv.ptrArray.length)
        = c.shard_sum (fun kv => kv.ptrArray.length) := by
      apply shard_sum_congr
      intro j
      rw [hK j]
      split
      · simp [store_length]
      · rfl
    have hsum : (c.get H kp).1.shard_sum (fun kv => sum_length kv.ptrArray)
        = c.shard_sum (fun kv => sum_length kv.ptrArray) := by
      apply shard_sum_congr
      intro j
      rw [hK j]
      split
      · simp only [sum_length]
        rw [store_map_proj QC_entry_t.length (fun e => (hF e).2.2.2.2.1)]
      · rfl
    exact ⟨by rw [g1, hlen]; exact ih.num_entries, by rw [g2]; exact ih.thr_num_entries,
      by rw [g3]; exact ih.thr_num_deleted, by rw [g4, g5, hsum]; exact ih.size_values,
      by rw [g5]; exact ih.thr_size_values⟩
  | @flush c hr ih =>
    have hlen : c.flush.1.shard_sum (fun kv => kv.ptrArray.length)
        = c.shard_sum (fun kv => kv.ptrArray.length) := by
      apply shard_sum_congr
      intro j
      rw [flush_KVs, empty_length]
    have hsum : c.flush.1.shard_sum (fun kv => sum_length kv.ptrArray)
        = c.shard_sum (fun kv => sum_length kv.ptrArray) := by
      apply shard_sum_congr
      intro j
      rw [flush_KVs, empty_sum_length]
    exact ⟨by rw [flush_stats, hlen]; exact ih.num_entries,
      by rw [flush_stats]; exact ih.thr_num_entries,
      by rw [flush_stats]; exact ih.thr_num_deleted,
      by rw [flush_stats, hsum]; exact ih.size_values,
      by rw [flush_stats]; exact ih.thr_size_values⟩
  | @purge_some c i hr ih =>
    have hlen := shard_sum_update (fun kv => kv.ptrArray.length) c (c.purge_shard i) i _
      (fun j => purge_shard_KVs c i j)
    have hsum := shard_sum_update (fun kv => sum_length kv.ptrArray) c (c.purge_shard i) i _
      (fun j => purge_shard_KVs c i j)
    have hb : c.stats.Glo_num_entries < U64 := by
      rw [ih.num_entries]; exact Nat.mod_lt _ (by decide)
    obtain ⟨p1, p2, p3, p4, p5, p6⟩ := purge_some_counters c.QCnow (c.KVs i)
      (WF_length_lt (reachable_WF hr i)) ih.thr_num_deleted hb
    have hst : (c.purge_shard i).stats = ((c.KVs i).purge_some c.QCnow c.stats).2 := rfl
    simp only at hlen hsum
    refine ⟨?_, ?_, ?_, ?_, ?_⟩
    · rw [hst, p5, ih.num_entries]
      have hl := WF_length_lt (reachable_WF hr i)
      simp only [U64] at hlen hl ⊢
      omega
    · rw [hst, p2]; exact ih.thr_num_entries
    · rw [hst, p1]
    · rw [hst, p3]
      have h1 := ih.size_values
      simp only [U64] at h1 hsum p6 ⊢
      omega
    · rw [hst, p3]; exact ih.thr_size_values
  | @clock c t hr ih => exact ⟨ih.1, ih.2, ih.3, ih.4, ih.5⟩

/-! ## What `set` binds and what `get` returns -/

/-- The result of `get`, read off the state it is called in. -/
theorem get_snd (H : List Nat → Nat → Nat) (c : Standard_Query_Cache) (kp : List Nat) :
    (c.get H kp).2 =
      match bt_find (fingerprint H kp) (c.KVs (shard_of (fingerprint H kp))).bt_map with
      | none => none
      | some p =>
        match deref p (c.KVs (shard_of (fingerprint H kp))).ptrArray with
        | none => none
        | some e => if e.expire > c.QCnow then some (e.value.take e.length, e.length) else none := by
  have hinc : ∀ e : QC_entry_t, (ref_inc e).self = e.self := fun _ => rfl
  cases hfind : bt_find (fingerprint H kp) (c.KVs (shard_of (fingerprint H kp))).bt_map with
  | none => simp only [Standard_Query_Cache.get, KV_BtreeArray.lookup, hfind]
  | some p =>
    cases hd : deref p (c.KVs (shard_of (fingerprint H kp))).ptrArray with
    | none => simp only [Standard_Query_Cache.get, KV_BtreeArray.lookup, hfind, hd]
    | some e =>
      have hd2 : deref p (store p ref_inc (c.KVs (shard_of (fingerprint H kp))).ptrArray)
          = some (ref_inc e) := by
        rw [deref_store hinc, hd]; rfl
      by_cases hexp : e.expire > c.QCnow
      · have hexp2 : (ref_inc e).expire > c.QCnow := hexp
        simp only [Standard_Query_Cache.get, KV_BtreeArray.lookup, hfind, hd, hd2, hexp2, hexp,
          if_true]
        rfl
      · have hexp2 : ¬ (ref_inc e).expire > c.QCnow := hexp
        simp only [Standard_Query_Cache.get, KV_BtreeArray.lookup, hfind, hd, hd2, hexp2, hexp,
          if_false]

/-- After `replace`, the key is bound to the new entry, which sits in the sequence with
exactly the shard's reference. -/
theorem replace_binds (key : Nat) (entry : QC_entry_t) {kv : KV_BtreeArray} (st : Counters)
    (h : kv.WF) (hfresh : ∀ e ∈ kv.ptrArray, e.self ≠ entry.self) :
    bt_find key (kv.replace key entry st).1.bt_map = some entry.self ∧
    deref entry.self (kv.replace key entry st).1.ptrArray
      = some { entry with ref_count := 1 } := by
  have hd : deref entry.self (kv.ptrArray ++ [{ entry with ref_count := 1 }])
      = some { entry with ref_count := 1 } := deref_append_fresh hfresh rfl
  cases hfind : bt_find key kv.bt_map with
  | none =>
    simp only [KV_BtreeArray.replace, hfind]
    exact ⟨bt_find_insert_self _ hfind, hd⟩
  | some old =>
    simp only [KV_BtreeArray.replace, hfind]
    obtain ⟨eo, heo, ho1, _, _⟩ := h.bound (key, old) (bt_find_some_mem hfind)
    simp only at ho1
    have hne : entry.self ≠ old := by
      intro hE
      exact hfresh eo heo (by rw [ho1, hE])
    refine ⟨bt_find_insert_self _ (bt_find_erase_self key kv.bt_map), ?_⟩
    rw [deref_store_ne (f := fun e => ref_dec { e with expire := EXPIRE_DROPIT })
      (fun _ => rfl) hne]
    exact hd

/-- After `replace`, the map is the old map without the key's binding, plus the new one. -/
theorem replace_bt_map_perm (key : Nat) (entry : QC_entry_t) (kv : KV_BtreeArray)
    (st : Counters) :
    (kv.replace key entry st).1.bt_map.Perm ((key, entry.self) :: bt_erase key kv.bt_map) := by
  cases hfind : bt_find key kv.bt_map with
  | none =>
    simp only [KV_BtreeArray.replace, hfind]
    rw [bt_erase_of_find_none hfind]
    exact bt_insert_perm _ hfind
  | some old =>
    simp only [KV_BtreeArray.replace, hfind]
    exact bt_insert_perm _ (bt_find_erase_self key kv.bt_map)

theorem HASH_EXPIRE_MAX_eq : HASH_EXPIRE_MAX = 315360000 := by decide

/-! ## The example states are reachable -/

theorem ex0_fresh : ex0.fresh 4096 := by
  refine ⟨by decide, by decide, ?_⟩
  intro i e he
  simp [ex0, Standard_Query_Cache.new, KV_BtreeArray.new] at he

theorem ex1_reachable : Reachable sample_hash ex1 :=
  Reachable.set ex_key 1 [97] 1 60 4096 (Reachable.init 1000) ex0_fresh

theorem ex1_fresh : ex1.fresh 8192 := by
  refine ⟨by decide, by decide, ?_⟩
  decide

theorem ex2_reachable : Reachable sample_hash ex2 :=
  Reachable.set ex_key 1 [98, 98] 2 60 8192 ex1_reachable ex1_fresh

theorem ex3_reachable : Reachable sample_hash ex3 :=
  Reachable.set ex_key 1 ex_value_a 2000 60 4096 (Reachable.init 1000) ex0_fresh

theorem ex3_fresh : ex3.fresh 8192 := by
  refine ⟨by decide, by decide, ?_⟩
  decide

theorem ex4_reachable : Reachable sample_hash ex4 :=
  Reachable.set ex_key 1 ex_value_b 2000 60 8192 ex3_reachable ex3_fresh

theorem reachable_purge_fold {H : List Nat → Nat → Nat}
    (l : List (Fin SHARED_QUERY_CACHE_HASH_TABLES)) :
    ∀ c : Standard_Query_Cache, Reachable H c →
      Reachable H (l.foldl (fun acc i => acc.purge_shard i) c) := by
  induction l with
  | nil => intro c h; exact h
  | cons a t ih => intro c h; exact ih _ (Reachable.purge_some a h)

/-- An iteration of the reclaimer loop is a clock update followed, unless it is skipped, by
`purge_some` on each shard. -/
theorem reachable_tick {H : List Nat → Nat → Nat} {c : Standard_Query_Cache} (t : Int)
    (h : Reachable H c) : Reachable H (c.purgeHash_tick t) := by
  simp only [Standard_Query_Cache.purgeHash_tick]
  split
  · exact Reachable.clock t h
  · exact reachable_purge_fold _ _ (Reachable.clock t h)

/-- In a reachable state, a `get` right after `set` with an unexpired deadline returns the
bytes `set` copied. -/
theorem set_get_hit (H : List Nat → Nat → Nat) (c : Standard_Query_Cache)
    (kp : List Nat) (kl : Nat) (vp : List Nat) (vl : Nat) (expire : Int) (entry : Nat)
    (hr : Reachable H c) (hf : c.fresh entry)
    (hexp : c.QCnow < (if expire > HASH_EXPIRE_MAX then expire else c.QCnow + expire)) :
    ((c.set H kp kl vp vl expire entry).1.get H kp).2 = some ((vp.take vl).take vl, vl) := by
  obtain ⟨h1, h2⟩ := replace_binds (fingerprint H kp)
    (make_entry c.QCnow (fingerprint H kp) kl vp vl expire entry) c.stats
    (reachable_WF hr (shard_of (fingerprint H kp))) (fun e he => hf.2.2 _ e he)
  have hK : (c.set H kp kl vp vl expire entry).1.KVs (shard_of (fingerprint H kp))
      = ((c.KVs (shard_of (fingerprint H kp))).replace (fingerprint H kp)
          (make_entry c.QCnow (fingerprint H kp) kl vp vl expire entry) c.stats).1 := by
    rw [set_KVs]; simp
  rw [get_snd, hK, h1]
  simp only
  rw [h2]
  simp only
  have hq : (c.set H kp kl vp vl expire entry).1.QCnow = c.QCnow := rfl
  have hexp2 : (make_entry c.QCnow (fingerprint H kp) kl vp vl expire entry).expire
      = (if expire > HASH_EXPIRE_MAX then expire else c.QCnow + expire) := rfl
  rw [hq, hexp2, if_pos hexp]
  rfl

/-! ## `flush` -/

theorem to_uint64_to_int {n : Nat} (h : n < 2147483648) : to_uint64 (to_int n) = n := by
  have h1 : n % U32 = n := Nat.mod_eq_of_lt (by simp only [U32]; omega)
  simp only [to_int, to_uint64, h1, h, if_true]
  simp only [U64]
  omega

theorem flush_snd_shard_sum (c : Standard_Query_Cache) :
    c.flush.2 = c.shard_sum (fun kv => to_uint64 kv.cnt) % U64 :=
  flush_snd c

theorem shard_sum_le (f : KV_BtreeArray → Nat) (c : Standard_Query_Cache) (B : Nat)
    (h : ∀ i, f (c.KVs i) ≤ B) : c.shard_sum f ≤ 32 * B := by
  have h1 := List.sum_le_card_nsmul
    ((List.finRange SHARED_QUERY_CACHE_HASH_TABLES).map (fun i => f (c.KVs i))) B
    (by
      intro x hx
      obtain ⟨i, _, rfl⟩ := List.mem_map.1 hx
      exact h i)
  simpa [Standard_Query_Cache.shard_sum, SHARED_QUERY_CACHE_HASH_TABLES] using h1

theorem shard_sum_new (t : Int) (f : KV_BtreeArray → Nat) (hf : f KV_BtreeArray.new = 0) :
    (Standard_Query_Cache.new t).shard_sum f = 0 := by
  simp [Standard_Query_Cache.shard_sum, Standard_Query_Cache.new, hf]

/-! ## What `purge_some` keeps -/

/-- The purge loop leaves through its exit test: once the fuel covers the distance from
`i` to the end of the sequence, more fuel does not change the result.  `purge_some` calls
the loop at `i = 0` with the length of the sequence as fuel. -/
theorem purge_loop_fuel (QCnow : Int) (fuel : Nat) :
    ∀ (k i : Nat) (kv : KV_BtreeArray) (fm re : Nat), kv.ptrArray.length - i ≤ fuel →
      KV_BtreeArray.purge_loop QCnow (fuel + k) i kv fm re
        = KV_BtreeArray.purge_loop QCnow fuel i kv fm re := by
  induction fuel with
  | zero =>
    intro k i kv fm re h
    have hnone : kv.ptrArray.get? i = none := by
      rw [List.get?_eq_none]; omega
    cases k with
    | zero => rfl
    | succ k =>
      rw [Nat.zero_add]
      simp only [KV_BtreeArray.purge_loop, hnone]
  | succ fuel ih =>
    intro k i kv fm re h
    rw [Nat.add_right_comm]
    simp only [KV_BtreeArray.purge_loop]
    cases hx : kv.ptrArray.get? i with
    | none => rfl
    | some x =>
      simp only
      split
      · apply ih
        have := remove_index_fast_length hx
        show (remove_index_fast kv.ptrArray i).length - i ≤ fuel
        omega
      · apply ih
        omega

theorem purge_loop_keeps (QCnow : Int) (fuel : Nat) :
    ∀ (i : Nat) (kv : KV_BtreeArray) (fm re : Nat),
      (KV_BtreeArray.purge_loop QCnow fuel i kv fm re).1.ptrArray.Subperm kv.ptrArray ∧
      ∀ e, (KV_BtreeArray.evictable QCnow e && decide (e.ref_count ≤ 1)) = false →
        (KV_BtreeArray.purge_loop QCnow fuel i kv fm re).1.ptrArray.count e
          = kv.ptrArray.count e := by
  induction fuel with
  | zero => intro i kv fm re; exact ⟨List.Subperm.refl _, fun _ _ => rfl⟩
  | succ fuel ih =>
    intro i kv fm re
    simp only [KV_BtreeArray.purge_loop]
    cases hx : kv.ptrArray.get? i with
    | none => exact ⟨List.Subperm.refl _, fun _ _ => rfl⟩
    | some x =>
      simp only
      split
      · rename_i hc
        obtain ⟨h1, h2⟩ := ih i
          { kv with ptrArray := remove_index_fast kv.ptrArray i,
                    bt_map := bt_erase x.key kv.bt_map }
          ((fm + x.length) % U64) ((re + 1) % U64)
        have hperm := remove_index_fast_perm hx
        refine ⟨?_, ?_⟩
        · exact h1.trans
            ((List.sublist_cons_self x _).subperm.trans hperm.subperm)
        · intro e he
          rw [h2 e he]
          have hne : e ≠ x := by
            intro hE
            rw [hE, hc] at he
            exact absurd he (by decide)
          show (remove_index_fast kv.ptrArray i).count e = kv.ptrArray.count e
          rw [← hperm.count_eq e, List.count_cons_of_ne hne]
      · exact ih _ _ _ _

/-! ## Counting indexed entries -/

/-- In a well-formed shard the entries of the sequence that the map binds under their own
key are exactly as many as the map has bindings. -/
theorem WF_indexed_count {kv : KV_BtreeArray} (h : kv.WF) :
    kv.ptrArray.countP kv.indexed = kv.bt_map.length := by
  have hL : ((kv.ptrArray.filter kv.indexed).map (fun e => (e.key, e.self))).Nodup := by
    apply List.Nodup.of_map Prod.snd
    rw [List.map_map]
    exact h.addr_nodup.sublist ((List.filter_sublist _).map _)
  have hm : kv.bt_map.Nodup := List.Nodup.of_map Prod.fst (sorted_keys_nodup h.keys_sorted)
  have hmem : ∀ b, b ∈ (kv.ptrArray.filter kv.indexed).map (fun e => (e.key, e.self))
      ↔ b ∈ kv.bt_map := by
    intro b
    constructor
    · intro hb
      obtain ⟨e, he, rfl⟩ := List.mem_map.1 hb
      have hi := (List.mem_filter.1 he).2
      simp only [KV_BtreeArray.indexed, beq_iff_eq] at hi
      exact bt_find_some_mem hi
    · intro hb
      obtain ⟨e, he, h1, h2, _⟩ := h.bound b hb
      refine List.mem_map.2 ⟨e, List.mem_filter.2 ⟨he, ?_⟩, by rw [h1, h2]⟩
      simp only [KV_BtreeArray.indexed, beq_iff_eq]
      rw [h1, h2]
      exact bt_find_of_mem (sorted_keys_nodup h.keys_sorted) hb
  have hperm := (List.perm_ext_iff_of_nodup hL hm).2 hmem
  rw [List.countP_eq_length_filter, ← hperm.length_eq, List.length_map]

theorem shard_sum_congr_fun (f g : KV_BtreeArray → Nat) (c : Standard_Query_Cache)
    (h : ∀ j, f (c.KVs j) = g (c.KVs j)) : c.shard_sum f = c.shard_sum g := by
  simp only [Standard_Query_Cache.shard_sum]
  rw [List.map_congr_left (fun j _ => h j)]

/-! ## The deadline of a bound entry along a sequence of calls -/

theorem deref_store_expire {p q : Nat} {F : QC_entry_t → QC_entry_t}
    (hs : ∀ e, (F e).self = e.self) (hx : ∀ e, (F e).expire = e.expire)
    {arr : List QC_entry_t} {e1 : QC_entry_t} (h : deref p (store q F arr) = some e1) :
    ∃ e, deref p arr = some e ∧ e1.expire = e.expire := by
  by_cases hpq : p = q
  · subst hpq
    rw [deref_store hs] at h
    cases hd : deref p arr with
    | none => rw [hd] at h; simp at h
    | some e =>
      rw [hd] at h
      simp only [Option.map_some', Option.some.injEq] at h
      exact ⟨e, rfl, by rw [← h, hx]⟩
  · rw [deref_store_ne hs hpq] at h
    exact ⟨e1, h, rfl⟩

/-- A `replace` under another key leaves the binding of `hk` and the entry it points to as
they were. -/
theorem replace_other_key {key hk : Nat} {entry : QC_entry_t} {kv : KV_BtreeArray}
    (st : Counters) (h : kv.WF) (hfresh : ∀ e ∈ kv.ptrArray, e.self ≠ entry.self)
    (hne : key ≠ hk) {p : Nat} {e : QC_entry_t}
    (hfind : bt_find hk (kv.replace key entry st).1.bt_map = some p)
    (hd : deref p (kv.replace key entry st).1.ptrArray = some e) :
    bt_find hk kv.bt_map = some p ∧ deref p kv.ptrArray = some e := by
  have hne2 : hk ≠ key := fun hh => hne hh.symm
  cases hold : bt_find key kv.bt_map with
  | none =>
    simp only [KV_BtreeArray.replace, hold] at hfind hd
    rw [bt_find_insert_ne _ _ hne2] at hfind
    obtain ⟨e0, he0, h1, _, _⟩ := h.bound (hk, p) (bt_find_some_mem hfind)
    have hp : entry.self ≠ p := fun hh => hfresh e0 he0 (by rw [h1, hh])
    rw [deref_append_ne (by exact hp)] at hd
    exact ⟨hfind, hd⟩
  | some old =>
    simp only [KV_BtreeArray.replace, hold] at hfind hd
    rw [bt_find_insert_ne _ _ hne2, bt_find_erase_ne _ hne2] at hfind
    obtain ⟨e0, he0, h1, h2, _⟩ := h.bound (hk, p) (bt_find_some_mem hfind)
    obtain ⟨eo, heo, ho1, ho2, _⟩ := h.bound (key, old) (bt_find_some_mem hold)
    simp only at h1 h2 ho1 ho2
    have hpo : p ≠ old := by
      intro hh
      have : e0 = eo := eq_of_self_eq h.addr_nodup he0 heo (by rw [h1, ho1, hh])
      apply hne2
      rw [← h2, this, ho2]
    have hp : entry.self ≠ p := fun hh => hfresh e0 he0 (by rw [h1, hh])
    rw [deref_store_ne (f := fun e => ref_dec { e with expire := EXPIRE_DROPIT })
      (fun _ => rfl) hpo, deref_append_ne (by exact hp)] at hd
    exact ⟨hfind, hd⟩

theorem purge_loop_bt_find (QCnow : Int) (hk : Nat) (fuel : Nat) :
    ∀ (i : Nat) (kv : KV_BtreeArray) (fm re p : Nat),
      bt_find hk (KV_BtreeArray.purge_loop QCnow fuel i kv fm re).1.bt_map = some p →
      bt_find hk kv.bt_map = some p := by
  induction fuel with
  | zero => intro i kv fm re p h; exact h
  | succ fuel ih =>
    intro i kv fm re p h
    simp only [KV_BtreeArray.purge_loop] at h
    cases hx : kv.ptrArray.get? i with
    | none => rw [hx] at h; exact h
    | some x =>
      rw [hx] at h
      simp only at h
      split at h
      · have h1 := ih _ _ _ _ _ h
        simp only at h1
        by_cases hkx : hk = x.key
        · rw [hkx, bt_find_erase_self] at h1
          exact absurd h1 (by simp)
        · rw [bt_find_erase_ne _ hkx] at h1
          exact h1
      · exact ih _ _ _ _ _ h

/-- `purge_some` binds nothing new and moves no entry: what it leaves bound and stored was
bound and stored before. -/
theorem purge_some_binding (QCnow : Int) {kv : KV_BtreeArray} (st : Counters) (h : kv.WF)
    {hk p : Nat} {e : QC_entry_t}
    (hfind : bt_find hk (kv.purge_some QCnow st).1.bt_map = some p)
    (hd : deref p (kv.purge_some QCnow st).1.ptrArray = some e) :
    bt_find hk kv.bt_map = some p ∧ deref p kv.ptrArray = some e := by
  have hsub : (kv.purge_some QCnow st).1.ptrArray.Subperm kv.ptrArray := by
    simp only [KV_BtreeArray.purge_some]
    split
    · exact (purge_loop_keeps QCnow _ 0
        { kv with freeable_memory := (KV_BtreeArray.purge_scan QCnow kv.ptrArray).2 } 0 0).1
    · exact List.Subperm.refl _
  have hmap : bt_find hk kv.bt_map = some p := by
    simp only [KV_BtreeArray.purge_some] at hfind
    split at hfind
    · exact purge_loop_bt_find QCnow hk _ 0
        { kv with freeable_memory := (KV_BtreeArray.purge_scan QCnow kv.ptrArray).2 } 0 0 p hfind
    · exact hfind
  obtain ⟨he, hp⟩ := deref_some_mem hd
  exact ⟨hmap, deref_of_mem h.addr_nodup (hsub.subset he) hp⟩

theorem reachable_run {H : List Nat → Nat → Nat} {c : Standard_Query_Cache} (op : Op)
    (hr : Reachable H c) (ha : op.admissible c) : Reachable H (op.run H c) := by
  cases op with
  | get kp => exact Reachable.get kp hr
  | set kp kl vp vl expire entry => exact Reachable.set kp kl vp vl expire entry hr ha
  | flush => exact Reachable.flush hr
  | purge_some i => exact Reachable.purge_some i hr
  | clock t => exact Reachable.clock t hr

/-- One call that is not a `set` on fingerprint `hk` keeps the deadline of whatever is
bound under `hk`. -/
theorem run_binding_deadline (H : List Nat → Nat → Nat) (hk : Nat) (d : Int)
    {c : Standard_Query_Cache} (op : Op) (hr : Reachable H c) (ha : op.admissible c)
    (hno : ¬ op.sets_fingerprint H hk) (hJ : binding_deadline hk d c) :
    binding_deadline hk d (op.run H c) := by
  intro p e hfind hd
  cases op with
  | get kp =>
    obtain ⟨q, F, hF, hK⟩ := get_KVs H c kp
    simp only [Op.run] at hfind hd
    rw [hK] at hfind hd
    by_cases hj : shard_of hk = shard_of (fingerprint H kp)
    · simp only [hj, if_true] at hfind hd
      obtain ⟨e0, he0, hx⟩ := deref_store_expire (fun e => (hF e).1)
        (fun e => (hF e).2.2.2.2.2.1) hd
      rw [hx]
      exact hJ p e0 (by rw [hj]; exact hfind) (by rw [hj]; exact he0)
    · simp only [hj, if_false] at hfind hd
      exact hJ p e hfind hd
  | set kp kl vp vl expire entry =>
    have hne : fingerprint H kp ≠ hk := hno
    simp only [Op.run] at hfind hd
    rw [set_KVs] at hfind hd
    by_cases hj : shard_of hk = shard_of (fingerprint H kp)
    · simp only [hj, if_true] at hfind hd
      obtain ⟨h1, h2⟩ := replace_other_key c.stats (reachable_WF hr _)
        (fun e he => ha.2.2 _ e he) hne hfind hd
      exact hJ p e (by rw [hj]; exact h1) (by rw [hj]; exact h2)
    · simp only [hj, if_false] at hfind hd
      exact hJ p e hfind hd
  | flush =>
    simp only [Op.run] at hfind
    rw [flush_KVs, empty_bt_map] at hfind
    exact absurd hfind (by simp [bt_find])
  | purge_some i =>
    simp only [Op.run] at hfind hd
    rw [purge_shard_KVs] at hfind hd
    by_cases hj : shard_of hk = i
    · simp only [hj, if_true] at hfind hd
      obtain ⟨h1, h2⟩ := purge_some_binding c.QCnow c.stats (reachable_WF hr i) hfind hd
      exact hJ p e (by rw [hj]; exact h1) (by rw [hj]; exact h2)
    · simp only [hj, if_false] at hfind hd
      exact hJ p e hfind hd
  | clock t => exact hJ p e hfind hd

theorem run_ops_binding_deadline (H : List Nat → Nat → Nat) (hk : Nat) (d : Int)
    (ops : List Op) :
    ∀ c : Standard_Query_Cache, Reachable H c → admissible_ops H c ops →
      (∀ op ∈ ops, ¬ op.sets_fingerprint H hk) → binding_deadline hk d c →
      Reachable H (run_ops H c ops) ∧ binding_deadline hk d (run_ops H c ops) := by
  induction ops with
  | nil => intro c hr _ _ hJ; exact ⟨hr, hJ⟩
  | cons op ops ih =>
    intro c hr ha hno hJ
    exact ih (op.run H c) (reachable_run op hr ha.1) ha.2
      (fun o ho => hno o (List.mem_cons_of_mem _ ho))
      (run_binding_deadline H hk d op hr ha.1 (hno op (List.mem_cons_self _ _)) hJ)

/-- Right after `set`, what is bound under the key's fingerprint has the deadline `set`
computed. -/
theorem set_binding_deadline (H : List Nat → Nat → Nat) (c : Standard_Query_Cache)
    (kp : List Nat) (kl : Nat) (vp : List Nat) (vl : Nat) (expire : Int) (entry : Nat)
    (hr : Reachable H c) (hf : c.fresh entry) :
    binding_deadline (fingerprint H kp)
      (if expire > HASH_EXPIRE_MAX then expire else c.QCnow + expire)
      (c.set H kp kl vp vl expire entry).1 := by
  obtain ⟨h1, h2⟩ := replace_binds (fingerprint H kp)
    (make_entry c.QCnow (fingerprint H kp) kl vp vl expire entry) c.stats
    (reachable_WF hr (shard_of (fingerprint H kp))) (fun e he => hf.2.2 _ e he)
  have hK : (c.set H kp kl vp vl expire entry).1.KVs (shard_of (fingerprint H kp))
      = ((c.KVs (shard_of (fingerprint H kp))).replace (fingerprint H kp)
          (make_entry c.QCnow (fingerprint H kp) kl vp vl expire entry) c.stats).1 := by
    rw [set_KVs]; simp
  have h1a : bt_find (fingerprint H kp)
      ((c.KVs (shard_of (fingerprint H kp))).replace (fingerprint H kp)
        (make_entry c.QCnow (fingerprint H kp) kl vp vl expire entry) c.stats).1.bt_map
      = some entry := h1
  have h2a : deref entry
      ((c.KVs (shard_of (fingerprint H kp))).replace (fingerprint H kp)
        (make_entry c.QCnow (fingerprint H kp) kl vp vl expire entry) c.stats).1.ptrArray
      = some { make_entry c.QCnow (fingerprint H kp) kl vp vl expire entry with
               ref_count := 1 } := h2
  intro p e hfind hd
  rw [hK] at hfind hd
  rw [h1a] at hfind
  simp only [Option.some.injEq] at hfind
  rw [← hfind, h2a] at hd
  simp only [Option.some.injEq] at hd
  rw [← hd]
  rfl

/-! ## `get` as a frame, routing, and key identity -/

theorem store_congr (p : Nat) (F G : QC_entry_t → QC_entry_t) (arr : List QC_entry_t)
    (h : ∀ e ∈ arr, F e = G e) : store p F arr = store p G arr := by
  simp only [store]
  apply List.map_congr_left
  intro e he
  rw [h e he]

theorem ref_dec_inc_eq {e : QC_entry_t} (h : e.ref_count < U32) : ref_dec (ref_inc e) = e := by
  cases e
  simp only [ref_dec, ref_inc, QC_entry_t.mk.injEq, true_and]
  exact ref_dec_inc_count h

theorem get_touch_eq (t : Int) {e : QC_entry_t} (h : e.ref_count < U32) :
    get_touch t e = { e with access := max e.access t } := by
  cases e with
  | mk key value self klen length expire access ref_count =>
    simp only at h
    by_cases hta : t > access
    · have hmax : max access t = t := max_eq_right (le_of_lt hta)
      simp only [get_touch, ref_dec, ref_inc, hta, if_true, hmax, QC_entry_t.mk.injEq,
        true_and]
      exact ref_dec_inc_count h
    · have hmax : max access t = access := max_eq_left (not_lt.1 hta)
      simp only [get_touch, ref_dec, ref_inc, hta, if_false, hmax, QC_entry_t.mk.injEq,
        true_and]
      exact ref_dec_inc_count h

/-- The shards after `get`, exactly: on a hit the entry at the looked-up address has its
`access` raised to the clock, on a miss nothing changes (for `uint32_t` reference
counts). -/
theorem get_frame (H : List Nat → Nat → Nat) (c : Standard_Query_Cache) (kp : List Nat)
    (hty : ∀ i, ∀ e ∈ (c.KVs i).ptrArray, e.ref_count < U32) :
    ((c.get H kp).2 = none → ∀ j, (c.get H kp).1.KVs j = c.KVs j) ∧
    (∀ r, (c.get H kp).2 = some r →
      ∃ p, bt_find (fingerprint H kp) (c.KVs (shard_of (fingerprint H kp))).bt_map = some p ∧
        ∀ j, (c.get H kp).1.KVs j =
          if j = shard_of (fingerprint H kp) then
            { c.KVs j with
              ptrArray := store p (fun e => { e with access := max e.access c.QCnow })
                (c.KVs j).ptrArray }
          else c.KVs j) := by
  have hinc : ∀ e : QC_entry_t, (ref_inc e).self = e.self := fun _ => rfl
  have hacc : ∀ (t : Int) (e : QC_entry_t),
      ((fun e : QC_entry_t => if t > e.access then { e with access := t } else e) e).self
        = e.self := by
    intro t e; simp only; split <;> rfl
  have hsame : ∀ j, (if j = shard_of (fingerprint H kp)
      then c.KVs (shard_of (fingerprint H kp)) else c.KVs j) = c.KVs j := by
    intro j
    by_cases hj : j = shard_of (fingerprint H kp)
    · simp only [hj, if_true]
    · simp only [hj, if_false]
  cases hfind : bt_find (fingerprint H kp) (c.KVs (shard_of (fingerprint H kp))).bt_map with
  | none =>
    have h2 : (c.get H kp).2 = none := by rw [get_snd, hfind]
    refine ⟨fun _ j => ?_, fun r hr => by rw [h2] at hr; simp at hr⟩
    simp only [Standard_Query_Cache.get, KV_BtreeArray.lookup, hfind, with_shard_KVs]
    exact hsame j
  | some p =>
    cases hd : deref p (c.KVs (shard_of (fingerprint H kp))).ptrArray with
    | none =>
      have h2 : (c.get H kp).2 = none := by rw [get_snd, hfind]; simp only; rw [hd]
      refine ⟨fun _ j => ?_, fun r hr => by rw [h2] at hr; simp at hr⟩
      simp only [Standard_Query_Cache.get, KV_BtreeArray.lookup, hfind, hd, with_shard_KVs]
      exact hsame j
    | some e =>
      have hd2 : deref p (store p ref_inc (c.KVs (shard_of (fingerprint H kp))).ptrArray)
          = some (ref_inc e) := by
        rw [deref_store hinc, hd]; rfl
      by_cases hexp : e.expire > c.QCnow
      · have hexp2 : (ref_inc e).expire > c.QCnow := hexp
        have h2 : (c.get H kp).2 = some (e.value.take e.length, e.length) := by
          rw [get_snd, hfind]; simp only; rw [hd]; simp only; rw [if_pos hexp]
        refine ⟨fun hn => by rw [h2] at hn; simp at hn, fun r _ => ⟨p, rfl, fun j => ?_⟩⟩
        simp only [Standard_Query_Cache.get, KV_BtreeArray.lookup, hfind, hd, hd2,
          with_shard_KVs, hexp2, if_true]
        by_cases hj : j = shard_of (fingerprint H kp)
        · simp only [hj, if_true]
          rw [store_store (hacc c.QCnow), store_store hinc]
          have := store_congr p (get_touch c.QCnow)
            (fun e => { e with access := max e.access c.QCnow })
            (c.KVs (shard_of (fingerprint H kp))).ptrArray
            (fun x hx => get_touch_eq c.QCnow (hty _ x hx))
          exact congrArg (fun a => ({ c.KVs (shard_of (fingerprint H kp)) with
            ptrArray := a } : KV_BtreeArray)) this
        · simp only [hj, if_false]
      · have hexp2 : ¬ (ref_inc e).expire > c.QCnow := hexp
        have h2 : (c.get H kp).2 = none := by
          rw [get_snd, hfind]; simp only; rw [hd]; simp only; rw [if_neg hexp]
        refine ⟨fun _ j => ?_, fun r hr => by rw [h2] at hr; simp at hr⟩
        simp only [Standard_Query_Cache.get, KV_BtreeArray.lookup, hfind, hd, hd2,
          with_shard_KVs, hexp2, if_false]
        by_cases hj : j = shard_of (fingerprint H kp)
        · simp only [hj, if_true]
          rw [store_store hinc]
          have h3 := store_congr p (fun e => ref_dec (ref_inc e))
            (fun e => e) (c.KVs (shard_of (fingerprint H kp))).ptrArray
            (fun x hx => ref_dec_inc_eq (hty _ x hx))
          rw [h3, store_id]
        · simp only [hj, if_false]

/-- A `replace` under another key changes neither the binding of `hk` nor what the bound
pointer reads. -/
theorem replace_other_key_eq (key hk : Nat) (entry : QC_entry_t) {kv : KV_BtreeArray}
    (st : Counters) (h : kv.WF) (hfresh : ∀ e ∈ kv.ptrArray, e.self ≠ entry.self)
    (hne : key ≠ hk) :
    bt_find hk (kv.replace key entry st).1.bt_map = bt_find hk kv.bt_map ∧
    ∀ q, bt_find hk kv.bt_map = some q →
      deref q (kv.replace key entry st).1.ptrArray = deref q kv.ptrArray := by
  have hne2 : hk ≠ key := fun hh => hne hh.symm
  cases hold : bt_find key kv.bt_map with
  | none =>
    simp only [KV_BtreeArray.replace, hold]
    refine ⟨bt_find_insert_ne _ _ hne2, ?_⟩
    intro q hq
    obtain ⟨e0, he0, h1, _, _⟩ := h.bound (hk, q) (bt_find_some_mem hq)
    have hp : entry.self ≠ q := fun hh => hfresh e0 he0 (by rw [h1, hh])
    exact deref_append_ne (by exact hp)
  | some old =>
    simp only [KV_BtreeArray.replace, hold]
    refine ⟨by rw [bt_find_insert_ne _ _ hne2, bt_find_erase_ne _ hne2], ?_⟩
    intro q hq
    obtain ⟨e0, he0, h1, h2, _⟩ := h.bound (hk, q) (bt_find_some_mem hq)
    obtain ⟨eo, heo, ho1, ho2, _⟩ := h.bound (key, old) (bt_find_some_mem hold)
    simp only at h1 h2 ho1 ho2
    have hqo : q ≠ old := by
      intro hh
      have : e0 = eo := eq_of_self_eq h.addr_nodup he0 heo (by rw [h1, ho1, hh])
      apply hne2
      rw [← h2, this, ho2]
    have hp : entry.self ≠ q := fun hh => hfresh e0 he0 (by rw [h1, hh])
    rw [deref_store_ne (f := fun e => ref_dec { e with expire := EXPIRE_DROPIT })
      (fun _ => rfl) hqo, deref_append_ne (by exact hp)]

theorem takeWhile_prefix_zero (pre rest : List Nat) (hpre : ∀ b ∈ pre, b ≠ 0) :
    (pre ++ 0 :: rest).takeWhile (fun b => b ≠ 0) = pre := by
  induction pre with
  | nil => simp
  | cons a t ih =>
    have ha : a ≠ 0 := hpre a (List.mem_cons_self _ _)
    have := ih (fun b hb => hpre b (List.mem_cons_of_mem _ hb))
    rw [List.cons_append, List.takeWhile_cons, this]
    simp [ha]

/-- The fingerprint of a key buffer is that of its bytes before the first zero byte. -/
theorem fingerprint_prefix_zero (H : List Nat → Nat → Nat) (pre rest : List Nat)
    (hpre : ∀ b ∈ pre, b ≠ 0) : fingerprint H (pre ++ 0 :: rest) = H pre 0 % U64 := by
  have h1 : strlen (pre ++ 0 :: rest) = pre.length := by
    simp only [strlen, takeWhile_prefix_zero pre rest hpre]
  simp only [fingerprint, h1, List.take_left']

/-- After `replace` the map holds exactly one binding for the key. -/
theorem replace_one_binding (key : Nat) (entry : QC_entry_t) (kv : KV_BtreeArray)
    (st : Counters) :
    List.countP (fun x => decide (x.1 = key)) (kv.replace key entry st).1.bt_map = 1 := by
  have hnone : List.countP (fun x => decide (x.1 = key)) (bt_erase key kv.bt_map) = 0 := by
    rw [List.countP_eq_zero]
    intro x hx
    simpa using (mem_bt_erase.1 hx).2
  rw [(replace_bt_map_perm key entry kv st).countP_eq]
  simp [hnone]

/-! ## Completeness of the purge loop -/

theorem remove_index_fast_take {arr : List QC_entry_t} {i : Nat} (h : i ≤ arr.length) :
    (remove_index_fast arr i).take i = arr.take i := by
  have hl : (arr.take i).length = i := by simp [h]
  unfold remove_index_fast
  rw [List.take_append_of_le_length (by omega), List.take_of_length_le (by omega)]

/-- With fuel for the rest of the sequence, and nothing removable before index `i`, the loop
leaves nothing removable in the sequence. -/
theorem purge_loop_done (QCnow : Int) (fuel : Nat) :
    ∀ (i : Nat) (kv : KV_BtreeArray) (fm re : Nat), kv.ptrArray.length - i ≤ fuel →
      (∀ e ∈ kv.ptrArray.take i,
        (KV_BtreeArray.evictable QCnow e && decide (e.ref_count ≤ 1)) = false) →
      ∀ e ∈ (KV_BtreeArray.purge_loop QCnow fuel i kv fm re).1.ptrArray,
        (KV_BtreeArray.evictable QCnow e && decide (e.ref_count ≤ 1)) = false := by
  induction fuel with
  | zero =>
    intro i kv fm re h hpre e he
    apply hpre e
    rw [List.take_of_length_le (by omega)]
    exact he
  | succ fuel ih =>
    intro i kv fm re h hpre
    simp only [KV_BtreeArray.purge_loop]
    cases hx : kv.ptrArray.get? i with
    | none =>
      intro e he
      apply hpre e
      have : kv.ptrArray.length ≤ i := by
        rw [List.get?_eq_none] at hx; exact hx
      rw [List.take_of_length_le this]
      exact he
    | some x =>
      have hi : i < kv.ptrArray.length := by
        rcases Nat.lt_or_ge i kv.ptrArray.length with h1 | h1
        · exact h1
        · have := List.get?_eq_none.2 h1
          rw [this] at hx
          exact absurd hx (by simp)
      simp only
      split
      · apply ih
        · have := remove_index_fast_length hx
          show (remove_index_fast kv.ptrArray i).length - i ≤ fuel
          omega
        · show ∀ e ∈ (remove_index_fast kv.ptrArray i).take i, _
          rw [remove_index_fast_take (Nat.le_of_lt hi)]
          exact hpre
      · rename_i hc
        apply ih
        · omega
        · intro e he
          have hsplit : kv.ptrArray.take (i + 1) = kv.ptrArray.take i ++ [x] := by
            have hx2 : kv.ptrArray[i]? = some x := by simpa using hx
            rw [List.take_succ, hx2]; rfl
          rw [hsplit, List.mem_append] at he
          rcases he with he | he
          · exact hpre e he
          · have : e = x := by simpa using he
            rw [this]
            simpa using hc

/-! ## The counters after the purge loop -/

theorem purge_loop_sum_le (QCnow : Int) (fuel : Nat) :
    ∀ (i : Nat) (kv : KV_BtreeArray) (fm re : Nat),
      sum_length (KV_BtreeArray.purge_loop QCnow fuel i kv fm re).1.ptrArray
        ≤ sum_length kv.ptrArray := by
  induction fuel with
  | zero => intro i kv fm re; exact Nat.le_refl _
  | succ fuel ih =>
    intro i kv fm re
    simp only [KV_BtreeArray.purge_loop]
    cases hx : kv.ptrArray.get? i with
    | none => exact Nat.le_refl _
    | some x =>
      simp only
      split
      · have hsum : sum_length kv.ptrArray
            = x.length + sum_length (remove_index_fast kv.ptrArray i) := by
          rw [← sum_length_perm (remove_index_fast_perm hx)]
          simp [sum_length]
        have := ih i
          { kv with ptrArray := remove_index_fast kv.ptrArray i,
                    bt_map := bt_erase x.key kv.bt_map }
          ((fm + x.length) % U64) ((re + 1) % U64)
        simp only at this
        omega
      · exact ih _ _ _ _

/-- The counter updates at the end of `purge_some`, for a thread whose `__thr_num_deleted`
is zero (the macro is expanded with `__d = 1`, so it always leaves zero there). -/
theorem purge_account_eq (fm re : Nat) (st : Counters) (h0 : st.__thr_num_deleted = 0)
    (hre : re < U64) :
    (re = 0 → KV_BtreeArray.purge_account fm re st = st) ∧
    (re ≠ 0 →
      KV_BtreeArray.purge_account fm re st
        = { st with
            Glo_num_entries := (st.Glo_num_entries + (U64 - re)) % U64,
            Glo_total_freed_memory := (st.Glo_total_freed_memory + fm) % U64,
            Glo_size_values := (st.Glo_size_values + (U64 - fm % U64)) % U64,
            Glo_cntPurge := (st.Glo_cntPurge + re) % U64 }) := by
  have hmod : re % U64 = re := Nat.mod_eq_of_lt hre
  refine ⟨?_, ?_⟩
  · intro h
    subst h
    cases st
    simp only at h0
    subst h0
    simp [KV_BtreeArray.purge_account, THR_DECREASE_CNT]
  · intro h
    have h1 : 1 ≤ re := Nat.one_le_iff_ne_zero.2 h
    cases st
    simp only at h0
    subst h0
    simp only [KV_BtreeArray.purge_account, THR_DECREASE_CNT, Nat.zero_add, hmod, ge_iff_le, h1,
      if_true, Nat.mod_one, Nat.sub_zero, ne_eq, h, not_false_eq_true]

/-! ## The eviction scenario: the sets -/

theorem THR_UPDATE_CNT_100 {a b : Nat} (c : Nat) (hb : b % 100 = 0)
    (h : b + a + c < U64) :
    (THR_UPDATE_CNT a b c 100).2 + (THR_UPDATE_CNT a b c 100).1 = b + a + c ∧
    (THR_UPDATE_CNT a b c 100).2 % 100 = 0 ∧ (THR_UPDATE_CNT a b c 100).1 < 100 := by
  have h1 : (a + c) % U64 = a + c := by
    apply Nat.mod_eq_of_lt
    simp only [U64] at h ⊢
    omega
  simp only [THR_UPDATE_CNT, h1]
  split
  · have h2 : (b + (a + c - (a + c) % 100)) % U64 = b + (a + c - (a + c) % 100) := by
      apply Nat.mod_eq_of_lt
      simp only [U64] at h ⊢
      omega
    simp only [h2]
    omega
  · simp only
    omega

theorem replace_freed (key : Nat) (entry : QC_entry_t) (kv : KV_BtreeArray) (st : Counters) :
    (kv.replace key entry st).2.Glo_total_freed_memory = st.Glo_total_freed_memory := by
  simp only [KV_BtreeArray.replace]
  split <;> rfl

theorem replace_fresh_key {key : Nat} (entry : QC_entry_t) {kv : KV_BtreeArray} (st : Counters)
    (h : bt_find key kv.bt_map = none) :
    (kv.replace key entry st).1.ptrArray = kv.ptrArray ++ [{ entry with ref_count := 1 }] ∧
    (kv.replace key entry st).1.bt_map = bt_insert key entry.self kv.bt_map := by
  constructor <;> simp only [KV_BtreeArray.replace, h]

theorem shard_load_append (fps : List Nat) (hk : Nat) (i : Fin SHARED_QUERY_CACHE_HASH_TABLES) :
    shard_load (fps ++ [hk]) i = shard_load fps i + (if i = shard_of hk then 1 else 0) := by
  simp only [shard_load, List.countP_append, List.countP_cons, List.countP_nil, Nat.zero_add]
  by_cases h : shard_of hk = i
  · simp [h]
  · have h1 : ¬ i = shard_of hk := fun e => h e.symm
    simp [h, h1]

/-- One `set` of the eviction scenario on a fingerprint not used before. -/
theorem set_pressure (H : List Nat → Nat → Nat) (c : Standard_Query_Cache) (t0 : Int)
    (fps : List Nat) (kp : List Nat) (kl : Nat) (vp : List Nat) (entry : Nat)
    (hp : c.Pressure t0 fps) (hnew : fingerprint H kp ∉ fps) (hlen : fps.length < 1000000) :
    (c.set H kp kl vp 64 (-1) entry).1.Pressure t0 (fps ++ [fingerprint H kp]) := by
  have hfind : bt_find (fingerprint H kp) (c.KVs (shard_of (fingerprint H kp))).bt_map = none := by
    rw [bt_find_none_iff]
    intro b hb hk
    exact hnew (hk ▸ hp.keys _ b hb)
  obtain ⟨hptr, hmap⟩ := replace_fresh_key
    (make_entry c.QCnow (fingerprint H kp) kl vp 64 (-1) entry) c.stats hfind
  obtain ⟨s1, s2, s3, s4, s5⟩ := replace_stats (fingerprint H kp)
    (make_entry c.QCnow (fingerprint H kp) kl vp 64 (-1) entry)
    (c.KVs (shard_of (fingerprint H kp))) c.stats
  have s6 := replace_freed (fingerprint H kp)
    (make_entry c.QCnow (fingerprint H kp) kl vp 64 (-1) entry)
    (c.KVs (shard_of (fingerprint H kp))) c.stats
  have hK := set_KVs H c kp kl vp 64 (-1) entry
  have hst : (c.set H kp kl vp 64 (-1) entry).1.stats
      = ((c.KVs (shard_of (fingerprint H kp))).replace (fingerprint H kp)
          (make_entry c.QCnow (fingerprint H kp) kl vp 64 (-1) entry) c.stats).2 := rfl
  have hGn : c.stats.Glo_num_entries < U64 := by
    rw [hp.num_entries]
    simp only [U64]
    omega
  have hone := THR_UPDATE_CNT_one 1 hGn
  have hsz := THR_UPDATE_CNT_100 (a := c.stats.__thr_size_values) (b := c.stats.Glo_size_values)
    64 hp.size_values_batch
    (by have := hp.size_values; simp only [U64]; omega)
  have hlen1 : (make_entry c.QCnow (fingerprint H kp) kl vp 64 (-1) entry).length = 64 := rfl
  rw [hlen1] at s3 s4
  rw [hp.thr_num_entries, hone] at s1 s2
  refine
    { now := hp.now
      keys := ?_
      entries := ?_
      lens := ?_
      total := ?_
      num_entries := ?_
      thr_num_entries := ?_
      thr_num_deleted := ?_
      size_values := ?_
      size_values_batch := ?_
      thr_size_values := ?_
      freed := ?_ }
  · intro i b hb
    rw [hK i] at hb
    by_cases hi : i = shard_of (fingerprint H kp)
    · rw [if_pos hi, hmap] at hb
      rcases List.mem_cons.1 ((bt_insert_perm _ hfind).mem_iff.1 hb) with h1 | h1
      · rw [h1]; simp
      · exact List.mem_append_left _ (hp.keys _ b h1)
    · rw [if_neg hi] at hb
      exact List.mem_append_left _ (hp.keys i b hb)
  · intro i e he
    rw [hK i] at he
    by_cases hi : i = shard_of (fingerprint H kp)
    · rw [if_pos hi, hptr] at he
      rcases List.mem_append.1 he with h1 | h1
      · exact hp.entries _ e h1
      · have h2 : e = { make_entry c.QCnow (fingerprint H kp) kl vp 64 (-1) entry with
            ref_count := 1 } := by simpa using h1
        rw [h2]
        refine ⟨rfl, ?_, rfl⟩
        show (if (-1 : Int) > HASH_EXPIRE_MAX then (-1 : Int) else c.QCnow + (-1)) = t0 - 1
        rw [if_neg (by decide), hp.now]
        rfl
    · rw [if_neg hi] at he
      exact hp.entries i e he
  · intro i
    rw [hK i, shard_load_append]
    by_cases hi : i = shard_of (fingerprint H kp)
    · rw [if_pos hi, if_pos hi, hptr, List.length_append, ← hi, hp.lens i]
      rfl
    · rw [if_neg hi, if_neg hi, hp.lens i]
      rfl
  · have h1 := shard_sum_update (fun kv => kv.ptrArray.length) c
      (c.set H kp kl vp 64 (-1) entry).1 (shard_of (fingerprint H kp)) _ hK
    simp only [hptr, List.length_append, List.length_singleton] at h1
    have h2 := hp.total
    rw [List.length_append, List.length_singleton]
    omega
  · rw [hst, s1, hp.num_entries, List.length_append, List.length_singleton]
    apply Nat.mod_eq_of_lt
    simp only [U64]
    omega
  · rw [hst, s2]
  · rw [hst, s5]; exact hp.thr_num_deleted
  · rw [hst, s3, s4, hsz.1, List.length_append, List.length_singleton]
    have := hp.size_values
    omega
  · rw [hst, s3]; exact hsz.2.1
  · rw [hst, s4]; exact hsz.2.2
  · rw [hst, s6]; exact hp.freed

/-- The sets of the eviction scenario, on pairwise distinct fingerprints. -/
theorem pressure_sets_inv (H : List Nat → Nat → Nat) (t0 : Int)
    (sets : List (List Nat × Nat × List Nat × Nat)) :
    ∀ (c : Standard_Query_Cache) (fps : List Nat), c.Pressure t0 fps →
      (fps ++ sets.map (fun s => fingerprint H s.1)).Nodup →
      fps.length + sets.length < 1000000 →
      (c.pressure_sets H sets).Pressure t0 (fps ++ sets.map (fun s => fingerprint H s.1)) := by
  induction sets with
  | nil =>
    intro c fps hp _ _
    simpa [Standard_Query_Cache.pressure_sets] using hp
  | cons s sets ih =>
    intro c fps hp hnd hlen
    have hnd1 : (fps ++ [fingerprint H s.1] ++ sets.map (fun s => fingerprint H s.1)).Nodup := by
      simpa using hnd
    have hnew : fingerprint H s.1 ∉ fps := by
      intro hmem
      have h1 := (List.nodup_append.1 hnd).2.2
      exact h1 hmem (by simp)
    have hlen1 : (fps ++ [fingerprint H s.1]).length + sets.length < 1000000 := by
      simp only [List.length_append, List.length_cons, List.length_nil] at hlen ⊢
      omega
    have hstep := set_pressure H c t0 fps s.1 s.2.1 s.2.2.1 s.2.2.2 hp hnew
      (by simp only [List.length_cons] at hlen; omega)
    have := ih (c.set H s.1 s.2.1 s.2.2.1 64 (-1) s.2.2.2).1 (fps ++ [fingerprint H s.1])
      hstep hnd1 hlen1
    simpa [Standard_Query_Cache.pressure_sets] using this

theorem pressure_sets_cfg (H : List Nat → Nat → Nat)
    (sets : List (List Nat × Nat × List Nat × Nat)) :
    ∀ c : Standard_Query_Cache,
      (c.pressure_sets H sets).max_memory_size = c.max_memory_size ∧
      (c.pressure_sets H sets).purge_threshold_pct_min = c.purge_threshold_pct_min := by
  induction sets with
  | nil => intro c; exact ⟨rfl, rfl⟩
  | cons s sets ih =>
    intro c
    exact ih (c.set H s.1 s.2.1 s.2.2.1 64 (-1) s.2.2.2).1

theorem pressure_init (t0 : Int) (m : Nat) :
    ((Standard_Query_Cache.new t0).set_max_memory_size m).Pressure t0 [] := by
  refine
    { now := rfl
      keys := ?_
      entries := ?_
      lens := ?_
      total := ?_
      num_entries := rfl
      thr_num_entries := rfl
      thr_num_deleted := rfl
      size_values := rfl
      size_values_batch := rfl
      thr_size_values := Nat.zero_lt_succ 99
      freed := rfl }
  · intro i b hb
    exact absurd hb (List.not_mem_nil b)
  · intro i e he
    exact absurd he (List.not_mem_nil e)
  · intro i; rfl
  · have h := shard_sum_new t0 (fun kv => kv.ptrArray.length) rfl
    exact h

/-- The effect of one call of `purge_some` on the sequence and on the counters. -/
theorem purge_some_stats (QCnow : Int) (kv : KV_BtreeArray) (st : Counters)
    (h0 : st.__thr_num_deleted = 0) (hlen : kv.ptrArray.length < U64) :
    (kv.purge_some QCnow st).1.ptrArray.Subperm kv.ptrArray ∧
    (kv.purge_some QCnow st).1.ptrArray.length ≤ kv.ptrArray.length ∧
    sum_length (kv.purge_some QCnow st).1.ptrArray ≤ sum_length kv.ptrArray ∧
    (kv.ptrArray.length - (kv.purge_some QCnow st).1.ptrArray.length = 0 →
      (kv.purge_some QCnow st).2 = st) ∧
    (kv.ptrArray.length - (kv.purge_some QCnow st).1.ptrArray.length ≠ 0 →
      (kv.purge_some QCnow st).2
        = { st with
            Glo_num_entries :=
              (st.Glo_num_entries
                + (U64 - (kv.ptrArray.length - (kv.purge_some QCnow st).1.ptrArray.length)))
                % U64,
            Glo_size_values :=
              (st.Glo_size_values
                + (U64 - (sum_length kv.ptrArray
                    - sum_length (kv.purge_some QCnow st).1.ptrArray) % U64)) % U64,
            Glo_total_freed_memory :=
              (st.Glo_total_freed_memory
                + (sum_length kv.ptrArray
                    - sum_length (kv.purge_some QCnow st).1.ptrArray)) % U64,
            Glo_cntPurge :=
              (st.Glo_cntPurge
                + (kv.ptrArray.length - (kv.purge_some QCnow st).1.ptrArray.length))
                % U64 }) := by
  simp only [KV_BtreeArray.purge_some]
  split
  · obtain ⟨h1, h2, h3⟩ := purge_loop_account QCnow kv.ptrArray.length 0
      { kv with freeable_memory := (KV_BtreeArray.purge_scan QCnow kv.ptrArray).2 } 0 0
    have h4 := purge_loop_sum_le QCnow kv.ptrArray.length 0
      { kv with freeable_memory := (KV_BtreeArray.purge_scan QCnow kv.ptrArray).2 } 0 0
    have h5 := (purge_loop_keeps QCnow kv.ptrArray.length 0
      { kv with freeable_memory := (KV_BtreeArray.purge_scan QCnow kv.ptrArray).2 } 0 0).1
    simp only at h1 h2 h3 h4 h5
    obtain ⟨h6, h7⟩ := h2 (by simpa using hlen)
    generalize KV_BtreeArray.purge_loop QCnow kv.ptrArray.length 0
      { kv with freeable_memory := (KV_BtreeArray.purge_scan QCnow kv.ptrArray).2 } 0 0 = r
      at h1 h3 h4 h5 h6 h7 ⊢
    have hre : r.2.2 = kv.ptrArray.length - r.1.ptrArray.length := by omega
    have hrelt : r.2.2 < U64 := by
      simp only [U64] at hlen ⊢
      omega
    obtain ⟨a1, a2⟩ := purge_account_eq r.2.1 r.2.2 st h0 hrelt
    have hfm : r.2.1 % U64 = (sum_length kv.ptrArray - sum_length r.1.ptrArray) % U64 := by
      simp only [U64] at h3 ⊢
      omega
    have hfm2 : ∀ g : Nat, (g + r.2.1) % U64
        = (g + (sum_length kv.ptrArray - sum_length r.1.ptrArray)) % U64 := by
      intro g
      simp only [U64] at hfm ⊢
      omega
    refine ⟨h5, h1, h4, ?_, ?_⟩
    · intro hz
      exact a1 (hre.trans hz)
    · intro hnz
      show KV_BtreeArray.purge_account r.2.1 r.2.2 st = _
      rw [a2 (by rw [hre]; exact hnz), hfm, hfm2, hre]
  · refine ⟨List.Subperm.refl _, Nat.le_refl _, Nat.le_refl _, fun _ => rfl, ?_⟩
    intro hnz
    exact absurd (Nat.sub_self _) hnz

/-! ## The eviction scenario: the purge -/

theorem purge_scan_fold (QCnow : Int) (arr : List QC_entry_t)
    (hall : ∀ e ∈ arr, KV_BtreeArray.evictable QCnow e = true) :
    ∀ a b : Nat,
      arr.foldl
        (fun acc qce =>
          if KV_BtreeArray.evictable QCnow qce then
            ((acc.1 + 1) % U64, (acc.2 + qce.length) % U64)
          else acc)
        (a % U64, b % U64)
      = ((a + arr.length) % U64, (b + sum_length arr) % U64) := by
  induction arr with
  | nil => intro a b; rfl
  | cons x xs ih =>
    intro a b
    have hx : KV_BtreeArray.evictable QCnow x = true := hall x (List.mem_cons_self _ _)
    have h1 : (a % U64 + 1) % U64 = (a + 1) % U64 := by simp only [U64]; omega
    have h2 : (b % U64 + x.length) % U64 = (b + x.length) % U64 := by simp only [U64]; omega
    simp only [List.foldl_cons, hx, if_true, h1, h2]
    rw [ih (fun e he => hall e (List.mem_cons_of_mem _ he))]
    have h3 : sum_length (x :: xs) = x.length + sum_length xs := by simp [sum_length]
    rw [h3, List.length_cons]
    have e1 : a + 1 + xs.length = a + (xs.length + 1) := by omega
    have e2 : b + x.length + sum_length xs = b + (x.length + sum_length xs) := by omega
    rw [e1, e2]

theorem purge_scan_stale (QCnow : Int) (arr : List QC_entry_t)
    (hall : ∀ e ∈ arr, KV_BtreeArray.evictable QCnow e = true) :
    KV_BtreeArray.purge_scan QCnow arr = (arr.length % U64, sum_length arr % U64) := by
  have h := purge_scan_fold QCnow arr hall 0 0
  simp only [Nat.zero_add] at h
  exact h

theorem sum_length_const (arr : List QC_entry_t) (n : Nat) (h : ∀ e ∈ arr, e.length = n) :
    sum_length arr = n * arr.length := by
  induction arr with
  | nil => rfl
  | cons x xs ih =>
    have h3 : sum_length (x :: xs) = x.length + sum_length xs := by simp [sum_length]
    rw [h3, h x (List.mem_cons_self _ _), ih (fun e he => h e (List.mem_cons_of_mem _ he)),
      List.length_cons, Nat.mul_succ, Nat.add_comm]

/-- When the gate passes, nothing `purge_some` may remove is left in the sequence. -/
theorem purge_some_none_left (QCnow : Int) (kv : KV_BtreeArray) (st : Counters)
    (hgate : KV_BtreeArray.purge_gate (KV_BtreeArray.purge_scan QCnow kv.ptrArray).2
      (KV_BtreeArray.purge_scan QCnow kv.ptrArray).1 st = true) :
    ∀ e ∈ (kv.purge_some QCnow st).1.ptrArray,
      (KV_BtreeArray.evictable QCnow e && decide (e.ref_count ≤ 1)) = false := by
  have hres : (kv.purge_some QCnow st).1.ptrArray
      = (KV_BtreeArray.purge_loop QCnow kv.ptrArray.length 0
          { kv with freeable_memory := (KV_BtreeArray.purge_scan QCnow kv.ptrArray).2 }
          0 0).1.ptrArray := by
    simp only [KV_BtreeArray.purge_some, hgate, if_true]
  rw [hres]
  exact purge_loop_done QCnow kv.ptrArray.length 0
    { kv with freeable_memory := (KV_BtreeArray.purge_scan QCnow kv.ptrArray).2 } 0 0
    (Nat.sub_le _ _) (by intro e he; simp at he)

/-- The call `purge_some` on a shard of the eviction scenario that holds `n` of the `R`
entries left: it removes all `n` if `R < 100 * n` and nothing otherwise. -/
theorem purge_some_stale (QCnow : Int) (kv : KV_BtreeArray) (st : Counters) (R : Nat)
    (hall : ∀ e ∈ kv.ptrArray,
      e.length = 64 ∧ (KV_BtreeArray.evictable QCnow e && decide (e.ref_count ≤ 1)) = true)
    (h0 : st.__thr_num_deleted = 0) (hR : R ≤ 200) (hn : kv.ptrArray.length ≤ R)
    (hGn : st.Glo_num_entries = R) (hGs : st.Glo_size_values = 64 * R)
    (hGf : st.Glo_total_freed_memory + 64 * R = 12800) :
    (R < 100 * kv.ptrArray.length →
      (kv.purge_some QCnow st).1.ptrArray = [] ∧
      (kv.purge_some QCnow st).2.__thr_num_deleted = 0 ∧
      (kv.purge_some QCnow st).2.Glo_num_entries = R - kv.ptrArray.length ∧
      (kv.purge_some QCnow st).2.Glo_size_values = 64 * (R - kv.ptrArray.length) ∧
      (kv.purge_some QCnow st).2.Glo_total_freed_memory + 64 * (R - kv.ptrArray.length)
        = 12800) ∧
    (100 * kv.ptrArray.length ≤ R →
      (kv.purge_some QCnow st).1.ptrArray = kv.ptrArray ∧ (kv.purge_some QCnow st).2 = st) := by
  have hev : ∀ e ∈ kv.ptrArray, KV_BtreeArray.evictable QCnow e = true := by
    intro e he
    have := (hall e he).2
    simp only [Bool.and_eq_true] at this
    exact this.1
  have hsum : sum_length kv.ptrArray = 64 * kv.ptrArray.length :=
    sum_length_const _ 64 (fun e he => (hall e he).1)
  have hscan := purge_scan_stale QCnow kv.ptrArray hev
  have hl : kv.ptrArray.length % U64 = kv.ptrArray.length := by
    apply Nat.mod_eq_of_lt; simp only [U64]; omega
  have hs : sum_length kv.ptrArray % U64 = 64 * kv.ptrArray.length := by
    rw [hsum]; apply Nat.mod_eq_of_lt; simp only [U64]; omega
  rw [hl, hs] at hscan
  have hds : KV_BtreeArray.get_data_size st = 160 * R := by
    simp only [KV_BtreeArray.get_data_size, hGn, hGs]
    have : ENTRY_OVERHEAD = 96 := rfl
    rw [this]
    simp only [U64]
    omega
  have hgate : KV_BtreeArray.purge_gate (KV_BtreeArray.purge_scan QCnow kv.ptrArray).2
      (KV_BtreeArray.purge_scan QCnow kv.ptrArray).1 st
        = decide (R < 100 * kv.ptrArray.length) := by
    rw [hscan]
    simp only [KV_BtreeArray.purge_gate, hds]
    have : ENTRY_OVERHEAD = 96 := rfl
    rw [this]
    have h1 : (64 * kv.ptrArray.length + kv.ptrArray.length * 96) % U64
        = 160 * kv.ptrArray.length := by
      simp only [U64]; omega
    rw [h1]
    apply decide_eq_decide.2
    constructor <;> intro h <;> omega
  have hlen : kv.ptrArray.length < U64 := by simp only [U64]; omega
  obtain ⟨a1, a2, a3, a4, a5⟩ := purge_some_stats QCnow kv st h0 hlen
  refine ⟨?_, ?_⟩
  · intro hlt
    have hg : KV_BtreeArray.purge_gate (KV_BtreeArray.purge_scan QCnow kv.ptrArray).2
        (KV_BtreeArray.purge_scan QCnow kv.ptrArray).1 st = true := by
      rw [hgate]; exact decide_eq_true hlt
    have hnone := purge_some_none_left QCnow kv st hg
    have hnil : (kv.purge_some QCnow st).1.ptrArray = [] := by
      apply List.eq_nil_iff_forall_not_mem.2
      intro e he
      have h1 := hnone e he
      have h2 := (hall e (a1.subset he)).2
      rw [h2] at h1
      exact absurd h1 (by decide)
    have hpos : kv.ptrArray.length - (kv.purge_some QCnow st).1.ptrArray.length ≠ 0 := by
      rw [hnil]; simp only [List.length_nil]; omega
    have hst := a5 hpos
    rw [hnil] at hst
    simp only [List.length_nil, Nat.sub_zero, hsum, hGn, hGs] at hst
    have hfm : sum_length ([] : List QC_entry_t) = 0 := rfl
    rw [hfm] at hst
    simp only [Nat.sub_zero] at hst
    rw [hst]
    refine ⟨hnil, h0, ?_, ?_, ?_⟩
    · show (R + (U64 - kv.ptrArray.length)) % U64 = R - kv.ptrArray.length
      simp only [U64]; omega
    · show (64 * R + (U64 - 64 * kv.ptrArray.length % U64)) % U64
        = 64 * (R - kv.ptrArray.length)
      simp only [U64]; omega
    · show (st.Glo_total_freed_memory + 64 * kv.ptrArray.length) % U64
        + 64 * (R - kv.ptrArray.length) = 12800
      simp only [U64]; omega
  · intro hge
    have hg : KV_BtreeArray.purge_gate (KV_BtreeArray.purge_scan QCnow kv.ptrArray).2
        (KV_BtreeArray.purge_scan QCnow kv.ptrArray).1 st = false := by
      rw [hgate]; exact decide_eq_false (by omega)
    simp only [KV_BtreeArray.purge_some, hg]
    exact ⟨rfl, rfl⟩

theorem shard_sum_ge (f : KV_BtreeArray → Nat) (c : Standard_Query_Cache)
    (i : Fin SHARED_QUERY_CACHE_HASH_TABLES) (hf : f KV_BtreeArray.new = 0) :
    f (c.KVs i) ≤ c.shard_sum f := by
  have h := shard_sum_update f c (c.with_shard i KV_BtreeArray.new) i KV_BtreeArray.new
    (fun j => rfl)
  omega

theorem shard_sum_zero (f : KV_BtreeArray → Nat) (c : Standard_Query_Cache)
    (h : ∀ i, f (c.KVs i) = 0) : c.shard_sum f = 0 := by
  have := shard_sum_le f c 0 (fun i => Nat.le_of_eq (h i))
  omega

/-- One call of `purge_some` by the reclaimer in the eviction scenario: with `n` entries in
the shard and `R` entries left in the cache, the shard is emptied if `R < 100 * n`, and
nothing changes otherwise. -/
theorem purge_shard_draining (c : Standard_Query_Cache)
    (i : Fin SHARED_QUERY_CACHE_HASH_TABLES) (hd : c.Draining) :
    (c.purge_shard i).Draining ∧
    (c.shard_sum (fun kv => kv.ptrArray.length) < 100 * (c.KVs i).ptrArray.length →
      ((c.purge_shard i).KVs i).ptrArray = []) ∧
    (100 * (c.KVs i).ptrArray.length ≤ c.shard_sum (fun kv => kv.ptrArray.length) →
      (c.purge_shard i).stats = c.stats ∧
      ∀ j, ((c.purge_shard i).KVs j).ptrArray = (c.KVs j).ptrArray) := by
  have hn : (c.KVs i).ptrArray.length ≤ c.shard_sum (fun kv => kv.ptrArray.length) :=
    shard_sum_ge (fun kv => kv.ptrArray.length) c i rfl
  obtain ⟨hA, hB⟩ := purge_some_stale c.QCnow (c.KVs i) c.stats
    (c.shard_sum (fun kv => kv.ptrArray.length)) (hd.entries i) hd.thr_num_deleted hd.total hn
    hd.num_entries hd.size_values hd.freed
  have hK := purge_shard_KVs c i
  have hst : (c.purge_shard i).stats = ((c.KVs i).purge_some c.QCnow c.stats).2 := rfl
  have hq : (c.purge_shard i).QCnow = c.QCnow := rfl
  by_cases hlt : c.shard_sum (fun kv => kv.ptrArray.length) < 100 * (c.KVs i).ptrArray.length
  · obtain ⟨b1, b2, b3, b4, b5⟩ := hA hlt
    have hsum := shard_sum_update (fun kv => kv.ptrArray.length) c (c.purge_shard i) i _ hK
    simp only [b1, List.length_nil, Nat.add_zero] at hsum
    have hR : (c.purge_shard i).shard_sum (fun kv => kv.ptrArray.length)
        = c.shard_sum (fun kv => kv.ptrArray.length) - (c.KVs i).ptrArray.length := by omega
    have hnil : ((c.purge_shard i).KVs i).ptrArray = [] := by
      rw [hK i, if_pos rfl]; exact b1
    refine ⟨?_, fun _ => hnil, fun hge => absurd hlt (by omega)⟩
    refine
      { entries := ?_
        total := ?_
        num_entries := ?_
        size_values := ?_
        freed := ?_
        thr_num_deleted := ?_ }
    · intro j e he
      by_cases hj : j = i
      · rw [hj, hnil] at he
        exact absurd he (List.not_mem_nil e)
      · rw [hK j, if_neg hj] at he
        rw [hq]
        exact hd.entries j e he
    · have := hd.total
      omega
    · rw [hst, b3, hR]
    · rw [hst, b4, hR]
    · rw [hst, hR]; exact b5
    · rw [hst]; exact b2
  · obtain ⟨e1, e2⟩ := hB (by omega)
    have hptr : ∀ j, ((c.purge_shard i).KVs j).ptrArray = (c.KVs j).ptrArray := by
      intro j
      rw [hK j]
      by_cases hj : j = i
      · rw [if_pos hj, e1, hj]
      · rw [if_neg hj]
    have hR : (c.purge_shard i).shard_sum (fun kv => kv.ptrArray.length)
        = c.shard_sum (fun kv => kv.ptrArray.length) :=
      shard_sum_congr (fun kv => kv.ptrArray.length) c (c.purge_shard i)
        (fun j => congrArg List.length (hptr j))
    refine ⟨?_, fun h => absurd h hlt, fun _ => ⟨hst.trans e2, hptr⟩⟩
    refine
      { entries := ?_
        total := ?_
        num_entries := ?_
        size_values := ?_
        freed := ?_
        thr_num_deleted := ?_ }
    · intro j e he
      rw [hptr j] at he
      rw [hq]
      exact hd.entries j e he
    · rw [hR]; exact hd.total
    · rw [hst, e2, hR]; exact hd.num_entries
    · rw [hst, e2, hR]; exact hd.size_values
    · rw [hst, e2, hR]; exact hd.freed
    · rw [hst, e2]; exact hd.thr_num_deleted

/-- The reclaimer's loop over distinct shards that hold all the entries of the cache, when
every yield test passes: nothing is left. -/
theorem purge_fold_gates (l : List (Fin SHARED_QUERY_CACHE_HASH_TABLES)) :
    l.Nodup → ∀ c : Standard_Query_Cache, c.Draining →
      c.shard_sum (fun kv => kv.ptrArray.length)
        = (l.map (fun i => (c.KVs i).ptrArray.length)).sum →
      gates_pass (l.map (fun i => (c.KVs i).ptrArray.length)) = true →
      (l.foldl (fun acc i => acc.purge_shard i) c).Draining ∧
      (l.foldl (fun acc i => acc.purge_shard i) c).shard_sum (fun kv => kv.ptrArray.length)
        = 0 := by
  induction l with
  | nil =>
    intro _ c hd hsum _
    exact ⟨hd, hsum⟩
  | cons a l ih =>
    intro hnd c hd hsum hg
    have ha : a ∉ l := (List.nodup_cons.1 hnd).1
    simp only [List.map_cons, List.sum_cons] at hsum
    simp only [List.map_cons, gates_pass, Bool.and_eq_true, Bool.or_eq_true,
      decide_eq_true_eq] at hg
    obtain ⟨hg1, hg2⟩ := hg
    obtain ⟨d1, d2, d3⟩ := purge_shard_draining c a hd
    have hK := purge_shard_KVs c a
    have hmap : l.map (fun i => ((c.purge_shard a).KVs i).ptrArray.length)
        = l.map (fun i => (c.KVs i).ptrArray.length) := by
      apply List.map_congr_left
      intro i hi
      have hia : i ≠ a := fun h => ha (h ▸ hi)
      rw [hK i, if_neg hia]
    have hR : (c.purge_shard a).shard_sum (fun kv => kv.ptrArray.length)
        = (l.map (fun i => (c.KVs i).ptrArray.length)).sum := by
      by_cases hlt : c.shard_sum (fun kv => kv.ptrArray.length)
          < 100 * (c.KVs a).ptrArray.length
      · have hnil := d2 hlt
        have hup := shard_sum_update (fun kv => kv.ptrArray.length) c (c.purge_shard a) a _ hK
        have hnil1 : ((c.KVs a).purge_some c.QCnow c.stats).1.ptrArray = [] := by
          have := hK a
          rw [if_pos rfl] at this
          rw [← this]; exact hnil
        simp only [hnil1, List.length_nil, Nat.add_zero] at hup
        omega
      · obtain ⟨_, e2⟩ := d3 (by omega)
        have h1 : (c.purge_shard a).shard_sum (fun kv => kv.ptrArray.length)
            = c.shard_sum (fun kv => kv.ptrArray.length) :=
          shard_sum_congr (fun kv => kv.ptrArray.length) c (c.purge_shard a)
            (fun j => congrArg List.length (e2 j))
        rw [h1, hsum]
        rcases hg1 with h0 | h0
        · rw [h0, Nat.zero_add]
        · exact absurd (hsum ▸ h0) hlt
    exact ih (List.nodup_cons.1 hnd).2 (c.purge_shard a) d1 (by rw [hmap]; exact hR)
      (by rw [hmap]; exact hg2)

/-- The reclaimer's loop over shards that hold no entry changes no counter and no
sequence. -/
theorem purge_fold_empty (l : List (Fin SHARED_QUERY_CACHE_HASH_TABLES)) :
    ∀ c : Standard_Query_Cache, c.Draining → (∀ i ∈ l, (c.KVs i).ptrArray = []) →
      (l.foldl (fun acc i => acc.purge_shard i) c).stats = c.stats ∧
      ∀ j, ((l.foldl (fun acc i => acc.purge_shard i) c).KVs j).ptrArray
        = (c.KVs j).ptrArray := by
  induction l with
  | nil => intro c _ _; exact ⟨rfl, fun _ => rfl⟩
  | cons a l ih =>
    intro c hd hl
    obtain ⟨d1, _, d3⟩ := purge_shard_draining c a hd
    have h0 : (c.KVs a).ptrArray = [] := hl a (List.mem_cons_self _ _)
    obtain ⟨e1, e2⟩ := d3 (by rw [h0]; exact Nat.zero_le _)
    obtain ⟨f1, f2⟩ := ih (c.purge_shard a) d1
      (fun i hi => by rw [e2 i]; exact hl i (List.mem_cons_of_mem _ hi))
    exact ⟨f1.trans e1, fun j => (f2 j).trans (e2 j)⟩

set_option maxRecDepth 20000 in
/-- With 200 entries of 64 bytes counted and `max_memory_size = 1024` the cache reports
100 per cent of its memory in use. -/
theorem pressure_pct (c : Standard_Query_Cache) (hn : c.stats.Glo_num_entries = 200)
    (hs : c.stats.Glo_size_values = 12800) (hm : c.max_memory_size = 1024) :
    c.current_used_memory_pct = 100 := by
  have hds : KV_BtreeArray.get_data_size c.stats = 32000 := by
    simp only [KV_BtreeArray.get_data_size, hn, hs]
    decide
  simp only [Standard_Query_Cache.current_used_memory_pct,
    Standard_Query_Cache.get_data_size_total, hds, hm]
  decide

/-- The state the reclaimer finds after the 200 sets of the eviction scenario. -/
theorem pressure_draining (c : Standard_Query_Cache) (t0 t : Int) (fps : List Nat)
    (hp : c.Pressure t0 fps) (hlen : fps.length = 200) (ht : t0 ≤ t) :
    (c.set_now t).Draining ∧ (c.set_now t).stats.Glo_num_entries = 200 ∧
    (c.set_now t).stats.Glo_size_values = 12800 := by
  have h1 := hp.size_values
  have h2 := hp.size_values_batch
  have h3 := hp.thr_size_values
  have hGs : c.stats.Glo_size_values = 12800 := by omega
  have hsum : (c.set_now t).shard_sum (fun kv => kv.ptrArray.length) = 200 := by
    have := hp.total
    rw [hlen] at this
    exact this
  refine ⟨?_, by show c.stats.Glo_num_entries = 200; rw [hp.num_entries, hlen], hGs⟩
  refine
    { entries := ?_
      total := by rw [hsum]
      num_entries := ?_
      size_values := ?_
      freed := ?_
      thr_num_deleted := hp.thr_num_deleted }
  · intro i e he
    obtain ⟨e1, e2, e3⟩ := hp.entries i e he
    refine ⟨e1, ?_⟩
    have hlt : e.expire < t := by rw [e2]; omega
    show (KV_BtreeArray.evictable t e && decide (e.ref_count ≤ 1)) = true
    simp only [KV_BtreeArray.evictable, Bool.and_eq_true, Bool.or_eq_true, decide_eq_true_eq]
    exact ⟨Or.inr hlt, by omega⟩
  · rw [hsum]; show c.stats.Glo_num_entries = 200; rw [hp.num_entries, hlen]
  · rw [hsum]; exact hGs
  · rw [hsum]; show c.stats.Glo_total_freed_memory + 64 * 200 = 12800; rw [hp.freed]

theorem ex2_fresh : ex2.fresh 12288 := by
  refine ⟨by decide, by decide, ?_⟩
  decide

/-! ## A shard with `2^31` bindings -/

theorem sum_map_single {α : Type} [DecidableEq α] (l : List α) (hnd : l.Nodup) (i : α)
    (hi : i ∈ l) (g : α → Nat) (h : ∀ j, j ≠ i → g j = 0) : (l.map g).sum = g i := by
  induction l with
  | nil => simp at hi
  | cons a t ih =>
    obtain ⟨ha, ht⟩ := List.nodup_cons.1 hnd
    simp only [List.map_cons, List.sum_cons]
    by_cases hai : a = i
    · subst hai
      have : (t.map g).sum = 0 := by
        apply List.sum_eq_zero
        intro x hx
        obtain ⟨j, hj, hx1⟩ := List.mem_map.1 hx
        rw [← hx1]
        exact h j (fun e => ha (e ▸ hj))
      rw [this]; omega
    · have hit : i ∈ t := by
        rcases List.mem_cons.1 hi with h1 | h1
        · exact absurd h1.symm hai
        · exact h1
      have := ih ht hit
      rw [h a hai]; omega

theorem shard_sum_single (f : KV_BtreeArray → Nat) (c : Standard_Query_Cache)
    (i0 : Fin SHARED_QUERY_CACHE_HASH_TABLES) (h : ∀ i, i ≠ i0 → f (c.KVs i) = 0) :
    c.shard_sum f = f (c.KVs i0) := by
  have h1 := sum_map_single (List.finRange SHARED_QUERY_CACHE_HASH_TABLES)
    (List.nodup_finRange _) i0 (List.mem_finRange i0) (fun j => f (c.KVs j)) h
  simp only [Standard_Query_Cache.shard_sum]
  exact h1

theorem ex_many_key_fp (n : Nat) : fingerprint sample_hash (ex_many_key n) = ex_many_fp n := by
  have h6 : 32 - (n / 268435456 % 128 + n / 2097152 % 128 + n / 16384 % 128 + n / 128 % 128
          + n % 128 + 5) % 32 ≠ 0 := by omega
  have hs : strlen (ex_many_key n) = 6 := by
    simp [strlen, ex_many_key, List.takeWhile, h6]
  simp only [fingerprint, hs]
  simp only [ex_many_key, List.take, sample_hash, List.foldl, ex_many_fp, Nat.zero_mul,
    Nat.zero_add]
  apply Nat.mod_eq_of_lt
  simp only [U64]
  omega

theorem ex_many_fp_shard (n : Nat) : ex_many_fp n % 32 = 0 := by
  simp only [ex_many_fp]
  omega

theorem ex_many_digits_inj (n m : Nat)
    (h4 : n / 268435456 % 128 = m / 268435456 % 128)
    (h3 : n / 2097152 % 128 = m / 2097152 % 128)
    (h2 : n / 16384 % 128 = m / 16384 % 128)
    (h1 : n / 128 % 128 = m / 128 % 128)
    (h0 : n % 128 = m % 128)
    (hn : n < 2147483648) (hm : m < 2147483648) : n = m := by
  omega

theorem horner_step (X Y e f : Nat) (he : e < 257) (hf : f < 257)
    (h : X * 257 + e = Y * 257 + f) : X = Y ∧ e = f := by
  omega

theorem ex_many_fp_inj (n m : Nat) (hn : n < 2147483648) (hm : m < 2147483648)
    (h : ex_many_fp n = ex_many_fp m) : n = m := by
  simp only [ex_many_fp] at h
  obtain ⟨h, _⟩ := horner_step _ _ _ _ (by omega) (by omega) h
  obtain ⟨h, h0⟩ := horner_step _ _ _ _ (by omega) (by omega) h
  obtain ⟨h, h1⟩ := horner_step _ _ _ _ (by omega) (by omega) h
  obtain ⟨h, h2⟩ := horner_step _ _ _ _ (by omega) (by omega) h
  obtain ⟨h4, h3⟩ := horner_step _ _ _ _ (by omega) (by omega) h
  exact ex_many_digits_inj n m (by omega) (by omega) (by omega) (by omega) (by omega) hn hm

/-- The state after `n ≤ 2^31` sets of the large-shard example is reachable; its entries
live at the addresses `64, 128, .., 64 * n`; shard 0 binds the `n` fingerprints and the
other shards bind nothing. -/
theorem ex_many_inv (n : Nat) (hn : n ≤ 2147483648) :
    Reachable sample_hash (ex_many n) ∧
    (∀ i, ∀ e ∈ ((ex_many n).KVs i).ptrArray, e.self ≤ 64 * n) ∧
    (∀ i, ∀ b ∈ ((ex_many n).KVs i).bt_map, ∃ k, k < n ∧ b.1 = ex_many_fp k) ∧
    ((ex_many n).KVs ⟨0, by decide⟩).bt_map.length = n ∧
    (∀ i, i ≠ ⟨0, by decide⟩ → ((ex_many n).KVs i).bt_map = []) := by
  induction n with
  | zero =>
    refine ⟨Reachable.init 1000, ?_, ?_, rfl, fun _ _ => rfl⟩
    · intro i e he
      exact absurd he (List.not_mem_nil e)
    · intro i b hb
      exact absurd hb (List.not_mem_nil b)
  | succ n ih =>
    obtain ⟨hr, haddr, hkeys, hlen, hoth⟩ := ih (by omega)
    have hfp := ex_many_key_fp n
    have hsh : shard_of (fingerprint sample_hash (ex_many_key n)) = ⟨0, by decide⟩ := by
      apply Fin.ext
      show fingerprint sample_hash (ex_many_key n) % 32 = 0
      rw [hfp]; exact ex_many_fp_shard n
    have hfresh : (ex_many n).fresh (64 * (n + 1)) := by
      refine ⟨by omega, by simp only [U64]; omega, ?_⟩
      intro i e he
      have := haddr i e he
      omega
    have hfind : bt_find (ex_many_fp n) ((ex_many n).KVs ⟨0, by decide⟩).bt_map = none := by
      rw [bt_find_none_iff]
      intro b hb hk
      obtain ⟨k, hk1, hk2⟩ := hkeys _ b hb
      have := ex_many_fp_inj k n (by omega) (by omega) (hk2.symm.trans hk)
      omega
    obtain ⟨hptr, hmap⟩ := replace_fresh_key
      (make_entry (ex_many n).QCnow (ex_many_fp n) 6 [] 0 3600 (64 * (n + 1)))
      (ex_many n).stats hfind
    have hK : ∀ j, (ex_many (n + 1)).KVs j =
        if j = ⟨0, by decide⟩ then
          (((ex_many n).KVs ⟨0, by decide⟩).replace (ex_many_fp n)
            (make_entry (ex_many n).QCnow (ex_many_fp n) 6 [] 0 3600 (64 * (n + 1)))
            (ex_many n).stats).1
        else (ex_many n).KVs j := by
      intro j
      have := set_KVs sample_hash (ex_many n) (ex_many_key n) 6 [] 0 3600 (64 * (n + 1)) j
      rw [hsh, hfp] at this
      exact this
    refine ⟨Reachable.set _ 6 [] 0 3600 (64 * (n + 1)) hr hfresh, ?_, ?_, ?_, ?_⟩
    · intro i e he
      rw [hK i] at he
      by_cases hi : i = ⟨0, by decide⟩
      · rw [if_pos hi, hptr] at he
        rcases List.mem_append.1 he with h1 | h1
        · have := haddr _ e h1
          omega
        · have h2 : e = { make_entry (ex_many n).QCnow (ex_many_fp n) 6 [] 0 3600
              (64 * (n + 1)) with ref_count := 1 } := by simpa using h1
          rw [h2]
          exact Nat.le_refl _
      · rw [if_neg hi] at he
        have := haddr i e he
        omega
    · intro i b hb
      rw [hK i] at hb
      by_cases hi : i = ⟨0, by decide⟩
      · rw [if_pos hi, hmap] at hb
        rcases List.mem_cons.1 ((bt_insert_perm _ hfind).mem_iff.1 hb) with h1 | h1
        · exact ⟨n, by omega, by rw [h1]⟩
        · obtain ⟨k, hk1, hk2⟩ := hkeys _ b h1
          exact ⟨k, by omega, hk2⟩
      · rw [if_neg hi] at hb
        obtain ⟨k, hk1, hk2⟩ := hkeys i b hb
        exact ⟨k, by omega, hk2⟩
    · rw [hK ⟨0, by decide⟩, if_pos rfl, hmap, (bt_insert_perm _ hfind).length_eq,
        List.length_cons, hlen]
    · intro i hi
      rw [hK i, if_neg hi]
      exact hoth i hi

/-- For shards that each index fewer than `2^31` entries, `flush()` returns the number of
indexed entries. -/
theorem flush_count_small (c : Standard_Query_Cache)
    (hsmall : ∀ i, (c.KVs i).bt_map.length < 2147483648) :
    c.flush.2 = c.shard_sum (fun kv => kv.bt_map.length) := by
  rw [flush_snd_shard_sum]
  have h1 : c.shard_sum (fun kv => to_uint64 kv.cnt)
      = c.shard_sum (fun kv => kv.bt_map.length) := by
    simp only [Standard_Query_Cache.shard_sum]
    congr 1
    apply List.map_congr_left
    intro i _
    exact to_uint64_to_int (hsmall i)
  have h2 := shard_sum_le (fun kv => kv.bt_map.length) c 2147483648
    (fun i => Nat.le_of_lt (hsmall i))
  rw [h1]
  apply Nat.mod_eq_of_lt
  simp only [U64]
  omega

/-- In every state, after `flush()` every shard's map is empty, `cnt()` is 0 and `get`
finds nothing. -/
theorem flush_empties (H : List Nat → Nat → Nat) (c : Standard_Query_Cache) :
    (∀ i, (c.flush.1.KVs i).bt_map = [] ∧ (c.flush.1.KVs i).cnt = 0) ∧
    ∀ kp, (c.flush.1.get H kp).2 = none := by
  have hmap : ∀ i, (c.flush.1.KVs i).bt_map = [] := by
    intro i; rw [flush_KVs]; exact empty_bt_map _
  refine ⟨?_, ?_⟩
  · intro i
    refine ⟨hmap i, ?_⟩
    simp only [KV_BtreeArray.cnt, hmap i]
    decide
  · intro kp
    rw [get_snd, hmap]
    rfl

/-! ## Single precision in `current_used_memory_pct` -/

set_option maxRecDepth 20000 in
/-- The quotient `32307200 / 10769067 = 2.9999999..` rounds to `3.0f` in single precision:
the method reports 3 per cent where the exact quotient truncates to 2, and conversions of
sizes above `2^24` round (`float` keeps 24 significant bits, ties going to the even
significand). -/
theorem current_used_memory_pct_rounds :
    ex_rounding.get_data_size_total = 323072 ∧
    323072 * 100 / ex_rounding.max_memory_size = 2 ∧
    ex_rounding.current_used_memory_pct = 3 ∧
    float_round 16777217 1 0 = (8388608, 1) ∧
    float_round 16777219 1 0 = (8388610, 1) ∧
    float_round 32307200 10769067 0 = (12582912, -22) := by
  refine ⟨by decide, by decide, by decide, by decide, by decide, by decide⟩

/-! ## The purge of removable entries, on the counters alone -/

/-- The counters after `purge_some` on a shard all of whose entries are removable 64-byte
entries. -/
theorem purge_some_stale_triple (QCnow : Int) (kv : KV_BtreeArray) (st : Counters)
    (hall : ∀ e ∈ kv.ptrArray,
      e.length = 64 ∧ (KV_BtreeArray.evictable QCnow e && decide (e.ref_count ≤ 1)) = true)
    (h0 : st.__thr_num_deleted = 0) (hn : kv.ptrArray.length ≤ 1000000) :
    stale_triple (kv.purge_some QCnow st).2 = stale_step (stale_triple st) kv.ptrArray.length ∧
    (kv.purge_some QCnow st).2.__thr_num_deleted = 0 ∧
    (kv.purge_some QCnow st).1.ptrArray.Subperm kv.ptrArray := by
  have hev : ∀ e ∈ kv.ptrArray, KV_BtreeArray.evictable QCnow e = true := by
    intro e he
    have := (hall e he).2
    simp only [Bool.and_eq_true] at this
    exact this.1
  have hsum : sum_length kv.ptrArray = 64 * kv.ptrArray.length :=
    sum_length_const _ 64 (fun e he => (hall e he).1)
  have hscan := purge_scan_stale QCnow kv.ptrArray hev
  have hl : kv.ptrArray.length % U64 = kv.ptrArray.length := by
    apply Nat.mod_eq_of_lt; simp only [U64]; omega
  have hs : sum_length kv.ptrArray % U64 = 64 * kv.ptrArray.length := by
    rw [hsum]; apply Nat.mod_eq_of_lt; simp only [U64]; omega
  rw [hl, hs] at hscan
  have hgate : KV_BtreeArray.purge_gate (KV_BtreeArray.purge_scan QCnow kv.ptrArray).2
      (KV_BtreeArray.purge_scan QCnow kv.ptrArray).1 st
        = decide ((st.Glo_num_entries * ENTRY_OVERHEAD + st.Glo_size_values) % U64
            < 100 * ((64 * kv.ptrArray.length + kv.ptrArray.length * ENTRY_OVERHEAD) % U64)) := by
    rw [hscan]
    rfl
  have hlen : kv.ptrArray.length < U64 := by simp only [U64]; omega
  obtain ⟨a1, a2, a3, a4, a5⟩ := purge_some_stats QCnow kv st h0 hlen
  have hdel : (kv.purge_some QCnow st).2.__thr_num_deleted = 0 := by
    by_cases hz : kv.ptrArray.length - (kv.purge_some QCnow st).1.ptrArray.length = 0
    · rw [a4 hz]; exact h0
    · rw [a5 hz]; exact h0
  refine ⟨?_, hdel, a1⟩
  by_cases hlt : (st.Glo_num_entries * ENTRY_OVERHEAD + st.Glo_size_values) % U64
      < 100 * ((64 * kv.ptrArray.length + kv.ptrArray.length * ENTRY_OVERHEAD) % U64)
  · have hg : KV_BtreeArray.purge_gate (KV_BtreeArray.purge_scan QCnow kv.ptrArray).2
        (KV_BtreeArray.purge_scan QCnow kv.ptrArray).1 st = true := by
      rw [hgate]; exact decide_eq_true hlt
    have hnone := purge_some_none_left QCnow kv st hg
    have hnil : (kv.purge_some QCnow st).1.ptrArray = [] := by
      apply List.eq_nil_iff_forall_not_mem.2
      intro e he
      have h1 := hnone e he
      have h2 := (hall e (a1.subset he)).2
      rw [h2] at h1
      exact absurd h1 (by decide)
    have hpos0 : kv.ptrArray.length ≠ 0 := by
      intro h
      rw [h] at hlt
      simp only [Nat.mul_zero, Nat.zero_mul, Nat.add_zero, Nat.zero_mod] at hlt
      exact absurd hlt (Nat.not_lt_zero _)
    have hpos : kv.ptrArray.length - (kv.purge_some QCnow st).1.ptrArray.length ≠ 0 := by
      rw [hnil]; simp only [List.length_nil]; omega
    have hst := a5 hpos
    rw [hnil] at hst
    have hfm : sum_length ([] : List QC_entry_t) = 0 := rfl
    simp only [List.length_nil, Nat.sub_zero, hsum, hfm] at hst
    rw [hst]
    simp only [stale_triple, stale_step, hlt, if_true]
    have h64 : 64 * kv.ptrArray.length % U64 = 64 * kv.ptrArray.length := by
      apply Nat.mod_eq_of_lt; simp only [U64]; omega
    rw [h64]
  · have hg : KV_BtreeArray.purge_gate (KV_BtreeArray.purge_scan QCnow kv.ptrArray).2
        (KV_BtreeArray.purge_scan QCnow kv.ptrArray).1 st = false := by
      rw [hgate]; exact decide_eq_false hlt
    have hst : (kv.purge_some QCnow st).2 = st := by
      simp only [KV_BtreeArray.purge_some, hg]
      rfl
    rw [hst]
    simp only [stale_triple, stale_step, hlt, if_false]

/-- The counters after the reclaimer's loop over distinct shards, when every entry of the
cache is a removable 64-byte entry. -/
theorem purge_fold_stale (l : List (Fin SHARED_QUERY_CACHE_HASH_TABLES)) :
    l.Nodup → ∀ c : Standard_Query_Cache,
      (∀ i, ∀ e ∈ (c.KVs i).ptrArray,
        e.length = 64 ∧
          (KV_BtreeArray.evictable c.QCnow e && decide (e.ref_count ≤ 1)) = true) →
      c.stats.__thr_num_deleted = 0 →
      (∀ i, (c.KVs i).ptrArray.length ≤ 1000000) →
      stale_triple (l.foldl (fun acc i => acc.purge_shard i) c).stats
        = (l.map (fun i => (c.KVs i).ptrArray.length)).foldl stale_step
            (stale_triple c.stats) := by
  induction l with
  | nil => intro _ c _ _ _; rfl
  | cons a l ih =>
    intro hnd c hall h0 hn
    have ha : a ∉ l := (List.nodup_cons.1 hnd).1
    obtain ⟨t1, t2, t3⟩ := purge_some_stale_triple c.QCnow (c.KVs a) c.stats (hall a) h0 (hn a)
    have hK := purge_shard_KVs c a
    have hst : (c.purge_shard a).stats = ((c.KVs a).purge_some c.QCnow c.stats).2 := rfl
    have hq : (c.purge_shard a).QCnow = c.QCnow := rfl
    have hall1 : ∀ i, ∀ e ∈ ((c.purge_shard a).KVs i).ptrArray,
        e.length = 64 ∧
          (KV_BtreeArray.evictable (c.purge_shard a).QCnow e
            && decide (e.ref_count ≤ 1)) = true := by
      intro i e he
      rw [hq]
      rw [hK i] at he
      by_cases hi : i = a
      · rw [if_pos hi] at he
        exact hall a e (t3.subset he)
      · rw [if_neg hi] at he
        exact hall i e he
    have hn1 : ∀ i, ((c.purge_shard a).KVs i).ptrArray.length ≤ 1000000 := by
      intro i
      rw [hK i]
      by_cases hi : i = a
      · rw [if_pos hi]
        exact Nat.le_trans t3.length_le (hn a)
      · rw [if_neg hi]
        exact hn i
    have hmap : l.map (fun i => ((c.purge_shard a).KVs i).ptrArray.length)
        = l.map (fun i => (c.KVs i).ptrArray.length) := by
      apply List.map_congr_left
      intro i hi
      have hia : i ≠ a := fun h => ha (h ▸ hi)
      rw [hK i, if_neg hia]
    have h := ih (List.nodup_cons.1 hnd).2 (c.purge_shard a) hall1 (by rw [hst]; exact t2) hn1
    rw [hmap, hst, t1] at h
    simp only [List.foldl_cons, List.map_cons]
    exact h

/-! ## The sets of the eviction scenario, each from a thread of its own -/

theorem replace_fst_indep (key : Nat) (entry : QC_entry_t) (kv : KV_BtreeArray)
    (st st1 : Counters) : (kv.replace key entry st).1 = (kv.replace key entry st1).1 := by
  simp only [KV_BtreeArray.replace]
  split <;> rfl

/-- The shards do not depend on which thread issues the sets. -/
theorem pressure_sets_threads_KVs (H : List Nat → Nat → Nat)
    (sets : List (List Nat × Nat × List Nat × Nat)) :
    ∀ c c1 : Standard_Query_Cache, c.KVs = c1.KVs → c.QCnow = c1.QCnow →
      (c.pressure_sets_threads H sets).KVs = (c1.pressure_sets H sets).KVs ∧
      (c.pressure_sets_threads H sets).QCnow = (c1.pressure_sets H sets).QCnow := by
  induction sets with
  | nil => intro c c1 hK hQ; exact ⟨hK, hQ⟩
  | cons s sets ih =>
    intro c c1 hK hQ
    apply ih
    · funext j
      rw [set_KVs, set_KVs]
      have h1 : c.new_thread.KVs = c1.KVs := hK
      have h2 : c.new_thread.QCnow = c1.QCnow := hQ
      rw [h1, h2]
      rw [replace_fst_indep _ _ _ c.new_thread.stats c1.stats]
    · exact hQ

/-- The process-wide counters after sets of 64 bytes each issued by a thread of its own:
every set is counted in `num_entries`, none of the bytes has reached `size_values`. -/
theorem pressure_sets_threads_stats (H : List Nat → Nat → Nat)
    (sets : List (List Nat × Nat × List Nat × Nat)) :
    ∀ (c : Standard_Query_Cache) (k : Nat), stale_triple c.stats = (k, 0, 0) →
      k + sets.length < 1000000 →
      stale_triple (c.pressure_sets_threads H sets).stats = (k + sets.length, 0, 0) ∧
      (c.pressure_sets_threads H sets).max_memory_size = c.max_memory_size ∧
      (c.pressure_sets_threads H sets).purge_threshold_pct_min
        = c.purge_threshold_pct_min := by
  induction sets with
  | nil => intro c k h _; exact ⟨h, rfl, rfl⟩
  | cons s sets ih =>
    intro c k h hk
    simp only [List.length_cons] at hk
    obtain ⟨s1, _, s3, _, _⟩ := replace_stats (fingerprint H s.1)
      (make_entry c.new_thread.QCnow (fingerprint H s.1) s.2.1 s.2.2.1 64 (-1) s.2.2.2)
      (c.new_thread.KVs (shard_of (fingerprint H s.1))) c.new_thread.stats
    have s6 := replace_freed (fingerprint H s.1)
      (make_entry c.new_thread.QCnow (fingerprint H s.1) s.2.1 s.2.2.1 64 (-1) s.2.2.2)
      (c.new_thread.KVs (shard_of (fingerprint H s.1))) c.new_thread.stats
    simp only [stale_triple, Prod.mk.injEq] at h
    obtain ⟨g1, g2, g3⟩ := h
    have e1 : c.new_thread.stats.__thr_num_entries = 0 := rfl
    have e2 : c.new_thread.stats.__thr_size_values = 0 := rfl
    have e3 : c.new_thread.stats.Glo_num_entries = k := g1
    have e4 : c.new_thread.stats.Glo_size_values = 0 := g2
    have e5 : c.new_thread.stats.Glo_total_freed_memory = 0 := g3
    have e6 : (make_entry c.new_thread.QCnow (fingerprint H s.1) s.2.1 s.2.2.1 64 (-1)
        s.2.2.2).length = 64 := rfl
    rw [e1, e3, THR_UPDATE_CNT_one 1 (by simp only [U64]; omega)] at s1
    rw [e2, e4, e6] at s3
    have hu : (THR_UPDATE_CNT 0 0 64 100).2 = 0 := by decide
    rw [hu] at s3
    rw [e5] at s6
    have hmod : (k + 1) % U64 = k + 1 := by
      apply Nat.mod_eq_of_lt; simp only [U64]; omega
    rw [hmod] at s1
    have hstep : stale_triple
        (c.new_thread.set H s.1 s.2.1 s.2.2.1 64 (-1) s.2.2.2).1.stats = (k + 1, 0, 0) := by
      show ((_ : Counters).Glo_num_entries, (_ : Counters).Glo_size_values,
        (_ : Counters).Glo_total_freed_memory) = (k + 1, 0, 0)
      exact Prod.ext s1 (Prod.ext s3 s6)
    obtain ⟨r1, r2, r3⟩ := ih (c.new_thread.set H s.1 s.2.1 s.2.2.1 64 (-1) s.2.2.2).1 (k + 1)
      hstep (by omega)
    refine ⟨?_, r2, r3⟩
    have : k + 1 + sets.length = k + (s :: sets).length := by
      simp only [List.length_cons]; omega
    rw [← this]
    exact r1

set_option maxRecDepth 20000 in
/-- With 200 entries counted, none of their bytes counted yet, and `max_memory_size = 1024`
the cache reports 100 per cent of its memory in use. -/
theorem pressure_pct_threads (c : Standard_Query_Cache) (hn : c.stats.Glo_num_entries = 200)
    (hs : c.stats.Glo_size_values = 0) (hm : c.max_memory_size = 1024) :
    c.current_used_memory_pct = 100 := by
  have hds : KV_BtreeArray.get_data_size c.stats = 19200 := by
    simp only [KV_BtreeArray.get_data_size, hn, hs]
    decide
  simp only [Standard_Query_Cache.current_used_memory_pct,
    Standard_Query_Cache.get_data_size_total, hds, hm]
  decide

/-- One iteration of the reclaimer that does not skip the purge, on a cache all of whose
entries are removable 64-byte entries: the counters that result. -/
theorem tick_stale_triple (c : Standard_Query_Cache) (t : Int)
    (hpct : (c.set_now t).current_used_memory_pct = 100)
    (hthr : c.purge_threshold_pct_min = 3)
    (hall : ∀ i, ∀ e ∈ (c.KVs i).ptrArray,
      e.length = 64 ∧ (KV_BtreeArray.evictable t e && decide (e.ref_count ≤ 1)) = true)
    (h0 : c.stats.__thr_num_deleted = 0)
    (hn : ∀ i, (c.KVs i).ptrArray.length ≤ 1000000) :
    stale_triple (c.purgeHash_tick t).stats
      = ((List.finRange SHARED_QUERY_CACHE_HASH_TABLES).map
          (fun i => (c.KVs i).ptrArray.length)).foldl stale_step (stale_triple c.stats) := by
  have htick : c.purgeHash_tick t
      = (List.finRange SHARED_QUERY_CACHE_HASH_TABLES).foldl (fun acc i => acc.purge_shard i)
          (c.set_now t) := by
    simp only [Standard_Query_Cache.purgeHash_tick]
    rw [if_neg]
    rw [hpct]
    show ¬ 100 < c.purge_threshold_pct_min
    rw [hthr]
    decide
  rw [htick]
  exact purge_fold_stale (List.finRange SHARED_QUERY_CACHE_HASH_TABLES)
    (List.nodup_finRange _) (c.set_now t) hall h0 hn

/-- The fingerprint of a one-byte key under `sample_hash` is the byte. -/
theorem fingerprint_one_byte (b : Nat) (hb : b ≠ 0) (hlt : b < U64) :
    fingerprint sample_hash [b, 0] = b := by
  simp [fingerprint, strlen, sample_hash, List.takeWhile, hb]
  exact hlt

/-- The fingerprint of a two-byte key under `sample_hash`. -/
theorem fingerprint_two_bytes (a b : Nat) (ha : a ≠ 0) (hb : b ≠ 0)
    (hlt : a * 257 + b < U64) :
    fingerprint sample_hash [a, b, 0] = a * 257 + b := by
  simp [fingerprint, strlen, sample_hash, List.takeWhile, ha, hb]
  exact hlt

/-- The fingerprints of `ex_even_sets` are `1 .. 200`. -/
theorem ex_even_sets_fps :
    ex_even_sets.map (fun s => fingerprint sample_hash s.1)
      = (List.range 200).map (fun n => n + 1) := by
  simp only [ex_even_sets, List.map_map]
  apply List.map_congr_left
  intro n hn
  have := List.mem_range.1 hn
  exact fingerprint_one_byte (n + 1) (by omega) (by simp only [U64]; omega)

/-- The fingerprints of `ex_skew_sets`. -/
theorem ex_skew_sets_fps :
    ex_skew_sets.map (fun s => fingerprint sample_hash s.1)
      = 32 :: (List.range 199).map (fun n => (n + 1) * 257 + (32 - (n + 32) % 32)) := by
  simp only [ex_skew_sets, List.map_cons, List.map_map]
  refine congrArg₂ List.cons ?_ ?_
  · exact fingerprint_one_byte 32 (by decide) (by decide)
  · apply List.map_congr_left
    intro n hn
    have := List.mem_range.1 hn
    exact fingerprint_two_bytes (n + 1) (32 - (n + 32) % 32) (by omega) (by omega)
      (by simp only [U64]; omega)

/-- The even assignment has 200 sets. -/
theorem ex_even_sets_length : ex_even_sets.length = 200 := by
  simp only [ex_even_sets, List.length_map, List.length_range]

/-- The skewed assignment has 200 sets. -/
theorem ex_skew_sets_length : ex_skew_sets.length = 200 := by
  simp only [ex_skew_sets, List.length_cons, List.length_map, List.length_range]

/-- The fingerprints of `ex_even_sets` are pairwise distinct. -/
theorem ex_even_sets_nodup :
    (ex_even_sets.map (fun s => fingerprint sample_hash s.1)).Nodup := by
  rw [ex_even_sets_fps]
  exact List.Nodup.map (fun a b h => by omega) (List.nodup_range 200)

/-- The fingerprints of `ex_skew_sets` are pairwise distinct. -/
theorem ex_skew_sets_nodup :
    (ex_skew_sets.map (fun s => fingerprint sample_hash s.1)).Nodup := by
  rw [ex_skew_sets_fps]
  apply List.Nodup.cons
  · intro h
    obtain ⟨n, _, hn⟩ := List.mem_map.1 h
    omega
  · exact List.Nodup.map (fun a b h => by
      have h1 : (a + 1) * 257 + (32 - (a + 32) % 32) = (b + 1) * 257 + (32 - (b + 32) % 32) := h
      omega) (List.nodup_range 199)

/-- A list whose members all go to shard `j` loads shard `j` with its length and no other
shard. -/
theorem shard_load_all (fps : List Nat) (j i : Fin SHARED_QUERY_CACHE_HASH_TABLES)
    (h : ∀ hk ∈ fps, shard_of hk = j) :
    shard_load fps i = if j = i then fps.length else 0 := by
  induction fps with
  | nil => simp [shard_load]
  | cons a l ih =>
    have ha := h a (List.mem_cons_self _ _)
    have ih1 := ih (fun hk hm => h hk (List.mem_cons_of_mem _ hm))
    simp only [shard_load] at ih1 ⊢
    rw [List.countP_cons, ih1, ha]
    by_cases hji : j = i
    · simp [hji]
    · simp [hji]

set_option maxRecDepth 100000 in
/-- The even assignment routes seven fingerprints to shards 1 to 8 and six to the others. -/
theorem ex_even_sets_loads :
    (List.finRange SHARED_QUERY_CACHE_HASH_TABLES).map
        (shard_load (ex_even_sets.map (fun s => fingerprint sample_hash s.1)))
      = [6, 7, 7, 7, 7, 7, 7, 7, 7, 6, 6, 6, 6, 6, 6, 6, 6, 6, 6, 6, 6, 6, 6, 6, 6, 6, 6, 6,
         6, 6, 6, 6] := by
  rw [ex_even_sets_fps]
  decide

/-- The skewed assignment routes one fingerprint to shard 0 and 199 to shard 1. -/
theorem ex_skew_sets_loads :
    (List.finRange SHARED_QUERY_CACHE_HASH_TABLES).map
        (shard_load (ex_skew_sets.map (fun s => fingerprint sample_hash s.1)))
      = [1, 199, 0, 0, 0, 0, 0, 0, 0, 0, 0, 0, 0, 0, 0, 0, 0, 0, 0, 0, 0, 0, 0, 0, 0, 0, 0, 0,
         0, 0, 0, 0] := by
  rw [ex_skew_sets_fps]
  have h1 : ∀ hk ∈ (List.range 199).map (fun n => (n + 1) * 257 + (32 - (n + 32) % 32)),
      shard_of hk = ⟨1, by decide⟩ := by
    intro hk hm
    obtain ⟨n, _, rfl⟩ := List.mem_map.1 hm
    apply Fin.ext
    show ((n + 1) * 257 + (32 - (n + 32) % 32)) % 32 = 1
    omega
  have h2 : ∀ i : Fin SHARED_QUERY_CACHE_HASH_TABLES,
      shard_load (32 :: (List.range 199).map (fun n => (n + 1) * 257 + (32 - (n + 32) % 32))) i
        = (if i = ⟨0, by decide⟩ then 1 else 0) + (if i = ⟨1, by decide⟩ then 199 else 0) := by
    intro i
    have h3 := shard_load_all _ ⟨1, by decide⟩ i h1
    simp only [shard_load] at h3 ⊢
    rw [List.countP_cons, h3, List.length_map, List.length_range]
    have h4 : shard_of 32 = ⟨0, by decide⟩ := by decide
    rw [h4]
    by_cases hi0 : i = ⟨0, by decide⟩
    · subst hi0; decide
    · by_cases hi1 : i = ⟨1, by decide⟩
      · subst hi1; decide
      · have e0 : ¬ ((⟨0, by decide⟩ : Fin SHARED_QUERY_CACHE_HASH_TABLES) = i) :=
          fun h => hi0 h.symm
        have e1 : ¬ ((⟨1, by decide⟩ : Fin SHARED_QUERY_CACHE_HASH_TABLES) = i) :=
          fun h => hi1 h.symm
        simp only [decide_eq_true_eq]
        rw [if_neg e0, if_neg e1, if_neg hi0, if_neg hi1]
  rw [List.map_congr_left (fun i _ => h2 i)]
  decide

set_option maxRecDepth 100000 in
/-- The counters after one reclaimer iteration over shards holding 1, 199 and then no
removable 64-byte entries, from 200 entries and 12800 bytes counted. -/
theorem stale_fold_skew :
    List.foldl stale_step (200, 12800, 0)
        [1, 199, 0, 0, 0, 0, 0, 0, 0, 0, 0, 0, 0, 0, 0, 0, 0, 0, 0, 0, 0, 0, 0, 0, 0, 0, 0, 0,
         0, 0, 0, 0] = (1, 64, 12736) := by decide

set_option maxRecDepth 100000 in
/-- The counters after one reclaimer iteration over shards holding six or seven removable
64-byte entries each, from 200 entries and no byte counted. -/
theorem stale_fold_threads :
    List.foldl stale_step (200, 0, 0)
        [6, 7, 7, 7, 7, 7, 7, 7, 7, 6, 6, 6, 6, 6, 6, 6, 6, 6, 6, 6, 6, 6, 6, 6, 6, 6, 6, 6,
         6, 6, 6, 6] = (78, 18446744073709543808, 7808) := by decide

/-- One reclaimer iteration (a thread of its own) on the state one thread's 200 sets have
left: the counters `num_entries` and `total_freed_memory` are those `stale_step` computes
over the shard loads in purge order, from 200 entries and 12800 bytes counted. -/
theorem pressure_tick_counters (c1 : Standard_Query_Cache) (t0 t : Int) (fps : List Nat)
    (a b f : Nat)
    (hp : c1.Pressure t0 fps) (hlen : fps.length = 200) (ht : t0 ≤ t)
    (hm : c1.max_memory_size = 1024) (hthr : c1.purge_threshold_pct_min = 3)
    (hfold : ((List.finRange SHARED_QUERY_CACHE_HASH_TABLES).map (shard_load fps)).foldl
        stale_step (200, 12800, 0) = (a, b, f)) :
    (c1.new_thread.purgeHash_tick t).stats.Glo_num_entries = a ∧
    (c1.new_thread.purgeHash_tick t).stats.Glo_total_freed_memory = f := by
  obtain ⟨hd, hGn, hGs⟩ := pressure_draining c1 t0 t fps hp hlen ht
  have hbound : ∀ i, (c1.new_thread.KVs i).ptrArray.length ≤ 1000000 := by
    intro i
    have h1 := shard_sum_ge (fun kv => kv.ptrArray.length) (c1.set_now t) i rfl
    have h2 := hd.total
    exact Nat.le_trans h1 (Nat.le_trans h2 (by decide))
  have htk := tick_stale_triple c1.new_thread t
    (pressure_pct (c1.new_thread.set_now t) hGn hGs hm) hthr hd.entries rfl hbound
  have hlens : (List.finRange SHARED_QUERY_CACHE_HASH_TABLES).map
        (fun i => (c1.new_thread.KVs i).ptrArray.length)
      = (List.finRange SHARED_QUERY_CACHE_HASH_TABLES).map (shard_load fps) :=
    List.map_congr_left (fun i _ => hp.lens i)
  have htr : stale_triple c1.new_thread.stats = (200, 12800, 0) :=
    Prod.ext hGn (Prod.ext hGs hp.freed)
  rw [hlens, htr, hfold] at htk
  exact ⟨congrArg Prod.fst htk, congrArg (fun x => x.2.2) htk⟩

/-- One reclaimer iteration (a thread of its own) on the state 200 sets issued by 200
threads have left: the shards are those one thread's sets leave, the process-wide counters
report 200 entries and no byte, and `num_entries` and `total_freed_memory` after the
iteration are those `stale_step` computes over the shard loads in purge order. -/
theorem pressure_tick_counters_threads (c1 cT : Standard_Query_Cache) (t0 t : Int)
    (fps : List Nat) (a b f : Nat)
    (hp : c1.Pressure t0 fps) (hlen : fps.length = 200) (ht : t0 ≤ t)
    (hK : cT.KVs = c1.KVs) (hst : stale_triple cT.stats = (200, 0, 0))
    (hm : cT.max_memory_size = 1024) (hthr : cT.purge_threshold_pct_min = 3)
    (hfold : ((List.finRange SHARED_QUERY_CACHE_HASH_TABLES).map (shard_load fps)).foldl
        stale_step (200, 0, 0) = (a, b, f)) :
    cT.stats.Glo_num_entries = 200 ∧
    cT.stats.Glo_size_values = 0 ∧
    (cT.new_thread.purgeHash_tick t).stats.Glo_num_entries = a ∧
    (cT.new_thread.purgeHash_tick t).stats.Glo_total_freed_memory = f := by
  obtain ⟨hd, _, _⟩ := pressure_draining c1 t0 t fps hp hlen ht
  have hGn : cT.stats.Glo_num_entries = 200 := congrArg Prod.fst hst
  have hGs : cT.stats.Glo_size_values = 0 := congrArg (fun x => x.2.1) hst
  have hKi : ∀ i, cT.new_thread.KVs i = c1.KVs i := fun i => congrFun hK i
  have hall : ∀ i, ∀ e ∈ (cT.new_thread.KVs i).ptrArray,
      e.length = 64 ∧
        (KV_BtreeArray.evictable t e && decide (e.ref_count ≤ 1)) = true := by
    intro i e he
    rw [hKi i] at he
    exact hd.entries i e he
  have hbound : ∀ i, (cT.new_thread.KVs i).ptrArray.length ≤ 1000000 := by
    intro i
    rw [hKi i]
    have h1 := shard_sum_ge (fun kv => kv.ptrArray.length) (c1.set_now t) i rfl
    have h2 := hd.total
    exact Nat.le_trans h1 (Nat.le_trans h2 (by decide))
  have htk := tick_stale_triple cT.new_thread t
    (pressure_pct_threads (cT.new_thread.set_now t) hGn hGs hm) hthr hall rfl hbound
  have hlens : (List.finRange SHARED_QUERY_CACHE_HASH_TABLES).map
        (fun i => (cT.new_thread.KVs i).ptrArray.length)
      = (List.finRange SHARED_QUERY_CACHE_HASH_TABLES).map (shard_load fps) :=
    List.map_congr_left (fun i _ => (congrArg (fun kv => kv.ptrArray.length) (hKi i)).trans
      (hp.lens i))
  have htr : stale_triple cT.new_thread.stats = (200, 0, 0) := hst
  rw [hlens, htr, hfold] at htk
  exact ⟨hGn, hGs, congrArg Prod.fst htk, congrArg (fun x => x.2.2) htk⟩

/-! # The claims -/

set_option maxRecDepth 20000 in
/-- C1, failing input.  From the empty cache at time 1000 with the default configuration:
`set("k", a, 60)` and `set("k", b, 60)` with 2000-byte values, after which `get("k")`
returns `b`; then one iteration of the reclaimer loop at time 1001, which finds 3 percent
of the memory in use and purges.  Afterwards the entry `b` is still in the sequence with
its deadline 1060 ahead of the clock, and `get("k")` returns nothing: removing the
superseded entry `a` erased the binding of the key, which by then belonged to `b`. -/
theorem roundtrip_lost_after_purge :
    Reachable sample_hash ex5 ∧
    (ex4.get sample_hash ex_key).2 = some (ex_value_b, 2000) ∧
    ex4.current_used_memory_pct = 3 ∧
    (deref 8192 (ex5.KVs ex_shard).ptrArray).map (fun e => (e.length, e.expire, e.ref_count))
      = some (2000, 1060, 1) ∧
    ex5.QCnow = 1001 ∧
    (ex5.get sample_hash ex_key).2 = none := by
  refine ⟨reachable_tick 1001 ex4_reachable, ?_, ?_, ?_, ?_, ?_⟩
  · have h := set_get_hit sample_hash ex3 ex_key 1 ex_value_b 2000 60 8192 ex3_reachable
      ex3_fresh (by decide)
    have hv : (ex_value_b.take 2000).take 2000 = ex_value_b := by
      simp [ex_value_b, List.take_replicate]
    rw [hv] at h
    exact h
  · decide
  · decide
  · decide
  · decide

/-- C2.  In a reachable state, after `set(k, v, e)` has completed and after any further
calls that contain no `set` on the key's fingerprint, a `get(k)` issued while the clock is
at or past the deadline `set` stored returns nothing; a deadline equal to the clock is a
miss. -/
theorem get_expired_is_miss (H : List Nat → Nat → Nat) (c : Standard_Query_Cache)
    (kp : List Nat) (kl : Nat) (vp : List Nat) (vl : Nat) (expire : Int) (entry : Nat)
    (ops : List Op) (hr : Reachable H c) (hf : c.fresh entry)
    (hops : admissible_ops H (c.set H kp kl vp vl expire entry).1 ops)
    (hno : ∀ op ∈ ops, ¬ op.sets_fingerprint H (fingerprint H kp))
    (ht : (if expire > HASH_EXPIRE_MAX then expire else c.QCnow + expire)
      ≤ (run_ops H (c.set H kp kl vp vl expire entry).1 ops).QCnow) :
    ((run_ops H (c.set H kp kl vp vl expire entry).1 ops).get H kp).2 = none := by
  have hr1 : Reachable H (c.set H kp kl vp vl expire entry).1 :=
    Reachable.set kp kl vp vl expire entry hr hf
  have hJ1 := set_binding_deadline H c kp kl vp vl expire entry hr hf
  obtain ⟨_, hJ⟩ := run_ops_binding_deadline H (fingerprint H kp) _ ops _ hr1 hops hno hJ1
  generalize run_ops H (c.set H kp kl vp vl expire entry).1 ops = c2 at ht hJ ⊢
  rw [get_snd]
  cases hfind : bt_find (fingerprint H kp) (c2.KVs (shard_of (fingerprint H kp))).bt_map with
  | none => rfl
  | some p =>
    simp only
    cases hd : deref p (c2.KVs (shard_of (fingerprint H kp))).ptrArray with
    | none => rfl
    | some e =>
      simp only
      rw [if_neg]
      rw [hJ p e hfind hd]
      exact not_lt.2 ht

/-- C2, witness: a value stored for 60 seconds at time 1000, then a `get`, a reclaimer pass
over its shard and a clock update to 1060: the next `get` is a miss. -/
theorem get_expired_is_miss_witness :
    ((run_ops sample_hash (ex0.set sample_hash ex_key 1 [97] 1 60 4096).1
        [Op.get ex_key, Op.purge_some ex_shard, Op.clock 1060]).get sample_hash ex_key).2
      = none :=
  get_expired_is_miss sample_hash ex0 ex_key 1 [97] 1 60 4096
    [Op.get ex_key, Op.purge_some ex_shard, Op.clock 1060]
    (Reachable.init 1000) ex0_fresh ⟨trivial, trivial, trivial, trivial⟩
    (by
      intro op hop
      simp only [List.mem_cons, List.mem_singleton, List.not_mem_nil, or_false] at hop
      rcases hop with h | h | h <;> subst h <;> exact fun hh => hh)
    (by decide)

/-- C3.  In a reachable state, `set` with expire argument `x` stores an entry whose
deadline is `x` when `x > 315360000` and `QCnow + x` otherwise; in particular the
boundary value `315360000` is a relative duration. -/
theorem set_expire_encoding (H : List Nat → Nat → Nat) (c : Standard_Query_Cache)
    (kp : List Nat) (kl : Nat) (vp : List Nat) (vl : Nat) (x : Int) (entry : Nat)
    (hr : Reachable H c) (hf : c.fresh entry) :
    ∃ e, deref entry
        ((c.set H kp kl vp vl x entry).1.KVs (shard_of (fingerprint H kp))).ptrArray = some e ∧
      e.expire = (if x > 315360000 then x else c.QCnow + x) ∧
      (x = 315360000 → e.expire = c.QCnow + 315360000) := by
  obtain ⟨_, h2⟩ := replace_binds (fingerprint H kp)
    (make_entry c.QCnow (fingerprint H kp) kl vp vl x entry) c.stats
    (reachable_WF hr (shard_of (fingerprint H kp))) (fun e he => hf.2.2 _ e he)
  have hK : (c.set H kp kl vp vl x entry).1.KVs (shard_of (fingerprint H kp))
      = ((c.KVs (shard_of (fingerprint H kp))).replace (fingerprint H kp)
          (make_entry c.QCnow (fingerprint H kp) kl vp vl x entry) c.stats).1 := by
    rw [set_KVs]; simp
  rw [hK]
  refine ⟨_, h2, ?_, ?_⟩
  · show (if x > HASH_EXPIRE_MAX then x else c.QCnow + x) = _
    rw [HASH_EXPIRE_MAX_eq]
  · intro hx
    show (if x > HASH_EXPIRE_MAX then x else c.QCnow + x) = _
    rw [HASH_EXPIRE_MAX_eq, hx]
    simp

/-- C3, witness: at time 1000 the expire argument 315360000 is stored as the relative
deadline 315361000. -/
theorem set_expire_encoding_witness :
    ∃ e, deref 4096
        ((ex0.set sample_hash ex_key 1 [97] 1 315360000 4096).1.KVs
          (shard_of (fingerprint sample_hash ex_key))).ptrArray = some e ∧
      e.expire = (if (315360000 : Int) > 315360000 then 315360000 else ex0.QCnow + 315360000) ∧
      ((315360000 : Int) = 315360000 → e.expire = ex0.QCnow + 315360000) :=
  set_expire_encoding sample_hash ex0 ex_key 1 [97] 1 315360000 4096 (Reachable.init 1000)
    ex0_fresh

/-- C4.  In a reachable state, after `set(k, a, _)` followed by `set(k, b, _)` with an
unexpired deadline, `get(k)` returns `b`; the shard's map holds exactly one binding for
the key's fingerprint, and `cnt()` is the same after the second `set` as after the first. -/
theorem set_twice_replaces (H : List Nat → Nat → Nat) (c : Standard_Query_Cache)
    (kp : List Nat) (kl1 : Nat) (a : List Nat) (e1 : Int) (p1 : Nat)
    (kl2 : Nat) (b : List Nat) (e2 : Int) (p2 : Nat)
    (hr : Reachable H c) (hf1 : c.fresh p1)
    (hf2 : (c.set H kp kl1 a a.length e1 p1).1.fresh p2)
    (hexp : c.QCnow < (if e2 > HASH_EXPIRE_MAX then e2 else c.QCnow + e2)) :
    (((c.set H kp kl1 a a.length e1 p1).1.set H kp kl2 b b.length e2 p2).1.get H kp).2
      = some (b, b.length) ∧
    List.countP (fun x => decide (x.1 = fingerprint H kp))
      (((c.set H kp kl1 a a.length e1 p1).1.set H kp kl2 b b.length e2 p2).1.KVs
        (shard_of (fingerprint H kp))).bt_map = 1 ∧
    (((c.set H kp kl1 a a.length e1 p1).1.set H kp kl2 b b.length e2 p2).1.KVs
        (shard_of (fingerprint H kp))).cnt
      = ((c.set H kp kl1 a a.length e1 p1).1.KVs (shard_of (fingerprint H kp))).cnt := by
  have hr1 : Reachable H (c.set H kp kl1 a a.length e1 p1).1 :=
    Reachable.set kp kl1 a a.length e1 p1 hr hf1
  generalize hc1 : (c.set H kp kl1 a a.length e1 p1).1 = c1 at hr1 hf2 ⊢
  have hq : c1.QCnow = c.QCnow := by rw [← hc1]; rfl
  have hK1 : c1.KVs (shard_of (fingerprint H kp))
      = ((c.KVs (shard_of (fingerprint H kp))).replace (fingerprint H kp)
          (make_entry c.QCnow (fingerprint H kp) kl1 a a.length e1 p1) c.stats).1 := by
    rw [← hc1, set_KVs]; simp
  have hK2 : (c1.set H kp kl2 b b.length e2 p2).1.KVs (shard_of (fingerprint H kp))
      = ((c1.KVs (shard_of (fingerprint H kp))).replace (fingerprint H kp)
          (make_entry c1.QCnow (fingerprint H kp) kl2 b b.length e2 p2) c1.stats).1 := by
    rw [set_KVs]; simp
  obtain ⟨h1, h2⟩ := replace_binds (fingerprint H kp)
    (make_entry c1.QCnow (fingerprint H kp) kl2 b b.length e2 p2) c1.stats
    (reachable_WF hr1 (shard_of (fingerprint H kp))) (fun e he => hf2.2.2 _ e he)
  have hp1 := replace_bt_map_perm (fingerprint H kp)
    (make_entry c.QCnow (fingerprint H kp) kl1 a a.length e1 p1)
    (c.KVs (shard_of (fingerprint H kp))) c.stats
  have hp2 := replace_bt_map_perm (fingerprint H kp)
    (make_entry c1.QCnow (fingerprint H kp) kl2 b b.length e2 p2)
    (c1.KVs (shard_of (fingerprint H kp))) c1.stats
  have hnone : ∀ m : BtMap,
      List.countP (fun x => decide (x.1 = fingerprint H kp)) (bt_erase (fingerprint H kp) m) = 0 := by
    intro m
    rw [List.countP_eq_zero]
    intro x hx
    simpa using (mem_bt_erase.1 hx).2
  refine ⟨?_, ?_, ?_⟩
  · rw [get_snd, hK2, h1]
    simp only
    rw [h2]
    simp only
    have hq2 : (c1.set H kp kl2 b b.length e2 p2).1.QCnow = c.QCnow := hq
    have hexp2 : (make_entry c1.QCnow (fingerprint H kp) kl2 b b.length e2 p2).expire
        = (if e2 > HASH_EXPIRE_MAX then e2 else c.QCnow + e2) := by
      rw [hq]; rfl
    rw [hq2, hexp2, if_pos hexp]
    simp [make_entry]
  · rw [hK2, hp2.countP_eq]
    simp [hnone]
  · rw [hK2]
    simp only [KV_BtreeArray.cnt]
    rw [hp2.length_eq, hK1]
    have h3 : (bt_erase (fingerprint H kp)
        ((c.KVs (shard_of (fingerprint H kp))).replace (fingerprint H kp)
          (make_entry c.QCnow (fingerprint H kp) kl1 a a.length e1 p1) c.stats).1.bt_map).length
        = (bt_erase (fingerprint H kp) (c.KVs (shard_of (fingerprint H kp))).bt_map).length := by
      have h4 := (hp1.filter (fun b => decide (b.1 ≠ fingerprint H kp))).length_eq
      have h5 : bt_erase (fingerprint H kp)
          (bt_erase (fingerprint H kp) (c.KVs (shard_of (fingerprint H kp))).bt_map)
          = bt_erase (fingerprint H kp) (c.KVs (shard_of (fingerprint H kp))).bt_map :=
        bt_erase_of_find_none (bt_find_erase_self _ _)
      simp only [bt_erase] at h4 h5 ⊢
      rw [h4]
      simp only [make_entry, ne_eq, not_true_eq_false, decide_False, Bool.false_eq_true,
        not_false_eq_true, List.filter_cons_of_neg]
      rw [h5]
    rw [List.length_cons, h3, hp1.length_eq, List.length_cons]

/-- C4, witness: `set("k","a",60)`, `set("k","bb",60)`, `get("k")` from the empty cache. -/
theorem set_twice_replaces_witness :
    (((ex0.set sample_hash ex_key 1 [97] 1 60 4096).1.set sample_hash ex_key 1 [98, 98] 2 60
        8192).1.get sample_hash ex_key).2 = some ([98, 98], 2) ∧
    List.countP (fun x => decide (x.1 = fingerprint sample_hash ex_key))
      (((ex0.set sample_hash ex_key 1 [97] 1 60 4096).1.set sample_hash ex_key 1 [98, 98] 2 60
        8192).1.KVs (shard_of (fingerprint sample_hash ex_key))).bt_map = 1 ∧
    (((ex0.set sample_hash ex_key 1 [97] 1 60 4096).1.set sample_hash ex_key 1 [98, 98] 2 60
        8192).1.KVs (shard_of (fingerprint sample_hash ex_key))).cnt
      = ((ex0.set sample_hash ex_key 1 [97] 1 60 4096).1.KVs
          (shard_of (fingerprint sample_hash ex_key))).cnt :=
  set_twice_replaces sample_hash ex0 ex_key 1 [97] 60 4096 1 [98, 98] 60 8192
    (Reachable.init 1000) ex0_fresh ex1_fresh (by decide)

/-- C5.  The count `flush()` returns: after `2^31` sets on distinct keys that all go to
shard 0 (a reachable state), shard 0 indexes `2^31` entries and the other shards none, so
the number of indexed entries is `2^31`.  `cnt()` returns the map's size as an `int`,
which is `-2^31` here, and `flush()` adds it to its `uint64_t` total: it returns
`2^64 - 2^31`. -/
theorem flush_count_sign_extends :
    Reachable sample_hash (ex_many 2147483648) ∧
    (ex_many 2147483648).shard_sum (fun kv => kv.bt_map.length) = 2147483648 ∧
    ((ex_many 2147483648).KVs ⟨0, by decide⟩).cnt = -2147483648 ∧
    (ex_many 2147483648).flush.2 = 18446744071562067968 ∧
    (ex_many 2147483648).flush.2
      ≠ (ex_many 2147483648).shard_sum (fun kv => kv.bt_map.length) := by
  obtain ⟨hr, _, _, hlen, hoth⟩ := ex_many_inv 2147483648 (Nat.le_refl _)
  have h1 : (ex_many 2147483648).shard_sum (fun kv => kv.bt_map.length) = 2147483648 :=
    (shard_sum_single (fun kv => kv.bt_map.length) _ ⟨0, by decide⟩
      (fun i hi => congrArg List.length (hoth i hi))).trans hlen
  have e3 : ((ex_many 2147483648).KVs ⟨0, by decide⟩).cnt = to_int 2147483648 :=
    congrArg to_int hlen
  have e1 : (ex_many 2147483648).flush.2
      = (ex_many 2147483648).shard_sum (fun kv => to_uint64 kv.cnt) % U64 :=
    flush_snd_shard_sum _
  have e2 : (ex_many 2147483648).shard_sum (fun kv => to_uint64 kv.cnt)
      = to_uint64 ((ex_many 2147483648).KVs ⟨0, by decide⟩).cnt :=
    shard_sum_single (fun kv => to_uint64 kv.cnt) _ ⟨0, by decide⟩
      (fun i hi => by
        show to_uint64 (to_int ((ex_many 2147483648).KVs i).bt_map.length) = 0
        rw [hoth i hi]
        decide)
  have e4 : to_int 2147483648 = -2147483648 := by decide
  have e5 : to_uint64 (-2147483648) % U64 = 18446744071562067968 := by decide
  have h2 : (ex_many 2147483648).flush.2 = 18446744071562067968 := by
    rw [e1, e2, e3, e4]
    exact e5
  refine ⟨hr, h1, e3.trans e4, h2, ?_⟩
  rw [h1, h2]
  decide

/-- C6.  For every shard state and every `now`, the sequence `purge_some` leaves behind
consists of unchanged entries of the old sequence; every entry it removed (and freed) was
evictable (`expire == DROPIT` or `expire < now`) with `ref_count <= 1`; and every entry
with `ref_count > 1`, as well as every entry with `expire >= now` and `expire != DROPIT`,
stays in the sequence, unchanged and as often as before. -/
theorem purge_some_spares_borrowed (QCnow : Int) (kv : KV_BtreeArray) (st : Counters) :
    (kv.purge_some QCnow st).1.ptrArray.Subperm kv.ptrArray ∧
    (∀ e, (kv.purge_some QCnow st).1.ptrArray.count e < kv.ptrArray.count e →
      (e.expire = EXPIRE_DROPIT ∨ e.expire < QCnow) ∧ e.ref_count ≤ 1) ∧
    (∀ e, 1 < e.ref_count ∨ (QCnow ≤ e.expire ∧ e.expire ≠ EXPIRE_DROPIT) →
      (kv.purge_some QCnow st).1.ptrArray.count e = kv.ptrArray.count e) := by
  have key : (kv.purge_some QCnow st).1.ptrArray.Subperm kv.ptrArray ∧
      ∀ e, (KV_BtreeArray.evictable QCnow e && decide (e.ref_count ≤ 1)) = false →
        (kv.purge_some QCnow st).1.ptrArray.count e = kv.ptrArray.count e := by
    simp only [KV_BtreeArray.purge_some]
    split
    · exact purge_loop_keeps QCnow _ 0
        { kv with freeable_memory := (KV_BtreeArray.purge_scan QCnow kv.ptrArray).2 } 0 0
    · exact ⟨List.Subperm.refl _, fun _ _ => rfl⟩
  refine ⟨key.1, ?_, ?_⟩
  · intro e hlt
    by_cases hc : (KV_BtreeArray.evictable QCnow e && decide (e.ref_count ≤ 1)) = false
    · rw [key.2 e hc] at hlt
      exact absurd hlt (Nat.lt_irrefl _)
    · simp only [Bool.not_eq_false, Bool.and_eq_true, decide_eq_true_eq,
        KV_BtreeArray.evictable, Bool.or_eq_true] at hc
      exact hc
  · intro e he
    apply key.2
    rcases he with he | he
    · have : ¬ e.ref_count ≤ 1 := by omega
      simp [this]
    · have h1 : ¬ e.expire = EXPIRE_DROPIT := he.2
      have h2 : ¬ e.expire < QCnow := not_lt.2 he.1
      simp [KV_BtreeArray.evictable, h1, h2]

/-- C7, counterexample.  After `set("k","a",60)` and `set("k","bb",60)` the superseded
entry at address 4096 is still in the shard's sequence, and no binding of the shard's map
points to it. -/
theorem superseded_entry_not_in_map :
    Reachable sample_hash ex2 ∧
    (∃ e ∈ (ex2.KVs ex_shard).ptrArray, e.self = 4096) ∧
    ¬ (∃ b ∈ (ex2.KVs ex_shard).bt_map, b.2 = 4096) :=
  ⟨ex2_reachable, by decide, by decide⟩

/-- C7, amended.  In every reachable state, every entry reachable from a shard's map is
reachable from that shard's sequence. -/
theorem map_entries_in_sequence (H : List Nat → Nat → Nat) (c : Standard_Query_Cache)
    (i : Fin SHARED_QUERY_CACHE_HASH_TABLES) (b : Nat × Nat)
    (hr : Reachable H c) (hb : b ∈ (c.KVs i).bt_map) :
    ∃ e ∈ (c.KVs i).ptrArray, e.self = b.2 := by
  obtain ⟨e, he, h1, _, _⟩ := (reachable_WF hr i).bound b hb
  exact ⟨e, he, h1⟩

/-- C7, witness: the binding of `"k"` after the two `set`s points into the sequence. -/
theorem map_entries_in_sequence_witness :
    ∃ e ∈ (ex2.KVs ex_shard).ptrArray, e.self = (fingerprint sample_hash ex_key, 8192).2 :=
  map_entries_in_sequence sample_hash ex2 ex_shard (fingerprint sample_hash ex_key, 8192)
    ex2_reachable (by decide)

/-- C8.  In every reachable state, every pointer bound in a shard's map is the address of
an entry of the shard's sequence whose `ref_count` is at least 1. -/
theorem indexed_ref_count_floor (H : List Nat → Nat → Nat) (c : Standard_Query_Cache)
    (i : Fin SHARED_QUERY_CACHE_HASH_TABLES) (k p : Nat)
    (hr : Reachable H c) (hb : bt_find k (c.KVs i).bt_map = some p) :
    ∃ e, deref p (c.KVs i).ptrArray = some e ∧ 1 ≤ e.ref_count := by
  have hwf := reachable_WF hr i
  obtain ⟨e, he, h1, _, h3⟩ := hwf.bound (k, p) (bt_find_some_mem hb)
  exact ⟨e, deref_of_mem hwf.addr_nodup he h1, by rw [h3]⟩

/-- C8, witness: the entry bound under `"k"` after the two `set`s. -/
theorem indexed_ref_count_floor_witness :
    ∃ e, deref 8192 (ex2.KVs ex_shard).ptrArray = some e ∧ 1 ≤ e.ref_count :=
  indexed_ref_count_floor sample_hash ex2 ex_shard (fingerprint sample_hash ex_key) 8192
    ex2_reachable (by decide)

/-- C9, counterexample.  After `set("k","a",60)` and `set("k","bb",60)` the global
`num_entries` is 2 while one entry is indexed: the superseded entry is still counted. -/
theorem num_entries_counts_superseded :
    Reachable sample_hash ex2 ∧
    ex2.stats.Glo_num_entries = 2 ∧
    ex2.shard_sum (fun kv => kv.bt_map.length) = 1 ∧
    ex2.stats.Glo_num_entries ≠ ex2.shard_sum (fun kv => kv.bt_map.length) :=
  ⟨ex2_reachable, by decide, by decide, by decide⟩

/-- C9, amended.  In every reachable state the global `num_entries` equals, modulo `2^64`,
the sum over the 32 shards of the number of entries indexed in the shard's map plus the
number of entries of the shard's sequence that are not indexed (superseded, flushed or
unbound entries that `purge_some` has not reclaimed yet). -/
theorem num_entries_accounting (H : List Nat → Nat → Nat) (c : Standard_Query_Cache)
    (hr : Reachable H c) :
    c.stats.Glo_num_entries
      = c.shard_sum (fun kv =>
          kv.bt_map.length + kv.ptrArray.countP (fun e => !kv.indexed e)) % U64 := by
  have h : c.shard_sum (fun kv => kv.ptrArray.length)
      = c.shard_sum (fun kv =>
          kv.bt_map.length + kv.ptrArray.countP (fun e => !kv.indexed e)) := by
    apply shard_sum_congr_fun
    intro i
    have h1 : (c.KVs i).ptrArray.countP (fun e => !(c.KVs i).indexed e)
        = (c.KVs i).ptrArray.countP (fun e => decide ¬ ((c.KVs i).indexed e = true)) := by
      apply List.countP_congr
      intro e _
      simp
    show (c.KVs i).ptrArray.length = (c.KVs i).bt_map.length
      + (c.KVs i).ptrArray.countP (fun e => !(c.KVs i).indexed e)
    rw [h1, ← WF_indexed_count (reachable_WF hr i)]
    exact List.length_eq_countP_add_countP _ _
  rw [(reachable_counters hr).num_entries, h]

/-- C9, witness: after the two `set`s, `num_entries` is one indexed entry plus one entry
awaiting reclaim. -/
theorem num_entries_accounting_witness :
    ex2.stats.Glo_num_entries
      = ex2.shard_sum (fun kv =>
          kv.bt_map.length + kv.ptrArray.countP (fun e => !kv.indexed e)) % U64 :=
  num_entries_accounting sample_hash ex2 ex2_reachable

/-- C10, counterexample.  After two `set`s of 2000-byte values under the same key the
global `size_values` is 4000 while the indexed entries hold 2000 bytes: the counter differs
from the indexed bytes by 2000, not by less than 100. -/
theorem size_values_counts_superseded :
    Reachable sample_hash ex4 ∧
    ex4.stats.Glo_size_values = 4000 ∧
    ex4.shard_sum (fun kv => sum_length (kv.ptrArray.filter kv.indexed)) = 2000 ∧
    ¬ (ex4.stats.Glo_size_values
          < ex4.shard_sum (fun kv => sum_length (kv.ptrArray.filter kv.indexed)) + 100 ∧
       ex4.shard_sum (fun kv => sum_length (kv.ptrArray.filter kv.indexed))
          < ex4.stats.Glo_size_values + 100) :=
  ⟨ex4_reachable, by decide, by decide, by decide⟩

/-- C10, amended.  In every reachable state the global `size_values` plus the calling
thread's unflushed residue, which is less than the batching boundary 100, equals modulo
`2^64` the sum of `length` over the entries held in the shards' sequences (the indexed
entries and those awaiting reclaim). -/
theorem size_values_accounting (H : List Nat → Nat → Nat) (c : Standard_Query_Cache)
    (hr : Reachable H c) :
    c.stats.__thr_size_values < 100 ∧
    (c.stats.Glo_size_values + c.stats.__thr_size_values) % U64
      = c.shard_sum (fun kv => sum_length kv.ptrArray) % U64 :=
  ⟨(reachable_counters hr).thr_size_values, (reachable_counters hr).size_values⟩

/-- C10, witness: after the two 2000-byte `set`s, `size_values` is 4000 with no residue,
and the two entries in the sequence hold 4000 bytes. -/
theorem size_values_accounting_witness :
    ex4.stats.__thr_size_values < 100 ∧
    (ex4.stats.Glo_size_values + ex4.stats.__thr_size_values) % U64
      = ex4.shard_sum (fun kv => sum_length kv.ptrArray) % U64 :=
  size_values_accounting sample_hash ex4 ex4_reachable

/-- C12.  For every boundary `d >= 1`, accumulator `a` (below `d` or not), global counter
`b` and increment `c` without 64-bit overflow, `THR_UPDATE_CNT(a, b, c, d)` leaves
`a' = (a + c) mod d` when `a + c >= d` and `a' = a + c` otherwise; it adds to `b` the
largest multiple of `d` not exceeding `a + c` in the first case and nothing in the second;
so `a' < d` and `b' + a' = b + a + c`. -/
theorem THR_UPDATE_CNT_batching (a b c d : Nat) (hd : 1 ≤ d)
    (h1 : a + c < U64) (h2 : b + a + c < U64) :
    (THR_UPDATE_CNT a b c d).1 = (if a + c ≥ d then (a + c) % d else a + c) ∧
    (THR_UPDATE_CNT a b c d).2 = (if a + c ≥ d then b + d * ((a + c) / d) else b) ∧
    d * ((a + c) / d) ≤ a + c ∧
    (∀ m, d * m ≤ a + c → d * m ≤ d * ((a + c) / d)) ∧
    (THR_UPDATE_CNT a b c d).1 < d ∧
    (THR_UPDATE_CNT a b c d).2 + (THR_UPDATE_CNT a b c d).1 = b + a + c := by
  have hmod : (a + c) % U64 = a + c := Nat.mod_eq_of_lt h1
  have hdm : d * ((a + c) / d) + (a + c) % d = a + c := Nat.div_add_mod (a + c) d
  have hlt : (a + c) % d < d := Nat.mod_lt _ hd
  have hle : d * ((a + c) / d) ≤ a + c := Nat.mul_div_le (a + c) d
  have hsub : a + c - (a + c) % d = d * ((a + c) / d) := by omega
  have hmax : ∀ m, d * m ≤ a + c → d * m ≤ d * ((a + c) / d) := by
    intro m hm
    apply Nat.mul_le_mul_left
    rw [Nat.le_div_iff_mul_le hd, Nat.mul_comm]
    exact hm
  simp only [THR_UPDATE_CNT, hmod]
  by_cases hge : a + c ≥ d
  · simp only [hge, if_true, hsub]
    have hb : (b + d * ((a + c) / d)) % U64 = b + d * ((a + c) / d) := by
      apply Nat.mod_eq_of_lt
      omega
    rw [hb]
    exact ⟨by trivial, by trivial, hle, hmax, hlt, by omega⟩
  · simp only [hge, if_false]
    exact ⟨by trivial, by trivial, hle, hmax, by omega, by omega⟩

/-- C12, witness: with boundary 100, accumulator 28 and increment 164 the accumulator
becomes 92 and the global counter grows by 100. -/
theorem THR_UPDATE_CNT_batching_witness :
    (THR_UPDATE_CNT 28 500 164 100).1 = (if 28 + 164 ≥ 100 then (28 + 164) % 100 else 28 + 164) ∧
    (THR_UPDATE_CNT 28 500 164 100).2
      = (if 28 + 164 ≥ 100 then 500 + 100 * ((28 + 164) / 100) else 500) ∧
    100 * ((28 + 164) / 100) ≤ 28 + 164 ∧
    (∀ m, 100 * m ≤ 28 + 164 → 100 * m ≤ 100 * ((28 + 164) / 100)) ∧
    (THR_UPDATE_CNT 28 500 164 100).1 < 100 ∧
    (THR_UPDATE_CNT 28 500 164 100).2 + (THR_UPDATE_CNT 28 500 164 100).1 = 500 + 28 + 164 :=
  THR_UPDATE_CNT_batching 28 500 164 100 (by decide) (by decide) (by decide)

/-- C18.  In every reachable state, every pointer a shard's map binds under a key `k` is
the address of an entry of the shard's sequence, of exactly one entry, and that entry's
`key` field is `k`; and after `purge_some` on any shard every bound pointer is still the
address of an entry of the sequence, so no entry the map points to has been freed. -/
theorem no_dangling_index (H : List Nat → Nat → Nat) (c : Standard_Query_Cache)
    (i : Fin SHARED_QUERY_CACHE_HASH_TABLES) (k p : Nat)
    (hr : Reachable H c) (hb : bt_find k (c.KVs i).bt_map = some p) :
    (∃ e ∈ (c.KVs i).ptrArray, e.self = p ∧ e.key = k) ∧
    (c.KVs i).ptrArray.countP (fun e => decide (e.self = p)) = 1 ∧
    ∀ (j : Fin SHARED_QUERY_CACHE_HASH_TABLES) (k1 p1 : Nat),
      bt_find k1 ((c.purge_shard j).KVs i).bt_map = some p1 →
      ∃ e ∈ ((c.purge_shard j).KVs i).ptrArray, e.self = p1 ∧ e.key = k1 := by
  have hwf := reachable_WF hr i
  obtain ⟨e, he, h1, h2, _⟩ := hwf.bound (k, p) (bt_find_some_mem hb)
  refine ⟨⟨e, he, h1, h2⟩, ?_, ?_⟩
  · have hnd : (c.KVs i).ptrArray.Nodup := List.Nodup.of_map _ hwf.addr_nodup
    have hcongr : (c.KVs i).ptrArray.countP (fun x => decide (x.self = p))
        = (c.KVs i).ptrArray.countP (fun x => x == e) := by
      apply List.countP_congr
      intro x hx
      simp only [decide_eq_true_eq, beq_iff_eq]
      constructor
      · intro hxp
        exact eq_of_self_eq hwf.addr_nodup hx he (by rw [hxp, h1])
      · intro hxe
        rw [hxe]; exact h1
    rw [hcongr]
    exact List.count_eq_one_of_mem hnd he
  · intro j k1 p1 hb1
    obtain ⟨e1, he1, h3, h4, _⟩ :=
      (reachable_WF (Reachable.purge_some j hr) i).bound (k1, p1) (bt_find_some_mem hb1)
    exact ⟨e1, he1, h3, h4⟩

/-- C18, witness: the binding of `"k"` after the two `set`s. -/
theorem no_dangling_index_witness :
    (∃ e ∈ (ex2.KVs ex_shard).ptrArray, e.self = 8192 ∧ e.key = fingerprint sample_hash ex_key) ∧
    (ex2.KVs ex_shard).ptrArray.countP (fun e => decide (e.self = 8192)) = 1 ∧
    ∀ (j : Fin SHARED_QUERY_CACHE_HASH_TABLES) (k1 p1 : Nat),
      bt_find k1 ((ex2.purge_shard j).KVs ex_shard).bt_map = some p1 →
      ∃ e ∈ ((ex2.purge_shard j).KVs ex_shard).ptrArray, e.self = p1 ∧ e.key = k1 :=
  no_dangling_index sample_hash ex2 ex_shard (fingerprint sample_hash ex_key) 8192
    ex2_reachable (by decide)

/-- C19.  In every reachable state the global `num_entries` equals, modulo `2^64`, the sum
over the 32 shards of the length of the shard's sequence. -/
theorem num_entries_counts_sequences (H : List Nat → Nat → Nat) (c : Standard_Query_Cache)
    (hr : Reachable H c) :
    c.stats.Glo_num_entries = c.shard_sum (fun kv => kv.ptrArray.length) % U64 :=
  (reachable_counters hr).num_entries

/-- C19, witness: after the two `set`s on `"k"` and the reclaimer iteration that removed
the superseded entry. -/
theorem num_entries_counts_sequences_witness :
    ex5.stats.Glo_num_entries = ex5.shard_sum (fun kv => kv.ptrArray.length) % U64 :=
  num_entries_counts_sequences sample_hash ex5 (reachable_tick 1001 ex4_reachable)

/-- C16.  For every cache state (with `uint32_t` reference counts) and every key, after
`get` returns every shard's map is as before, and every shard's sequence holds the same
entries in the same order with the same `key`, `value`, `self`, `klen`, `length`, `expire`
and `ref_count`; on a miss no shard changes at all; on a hit the only change is that the
entry at the looked-up address has `access = max(access, now)`. -/
theorem get_read_only_up_to_access (H : List Nat → Nat → Nat) (c : Standard_Query_Cache)
    (kp : List Nat) (hty : ∀ i, ∀ e ∈ (c.KVs i).ptrArray, e.ref_count < U32) :
    (∀ j, ((c.get H kp).1.KVs j).bt_map = (c.KVs j).bt_map ∧
      ((c.get H kp).1.KVs j).ptrArray.map
          (fun e => (e.key, e.value, e.self, e.klen, e.length, e.expire, e.ref_count))
        = (c.KVs j).ptrArray.map
          (fun e => (e.key, e.value, e.self, e.klen, e.length, e.expire, e.ref_count))) ∧
    ((c.get H kp).2 = none → ∀ j, (c.get H kp).1.KVs j = c.KVs j) ∧
    (∀ r, (c.get H kp).2 = some r →
      ∃ p, bt_find (fingerprint H kp) (c.KVs (shard_of (fingerprint H kp))).bt_map = some p ∧
        ∀ j, (c.get H kp).1.KVs j =
          if j = shard_of (fingerprint H kp) then
            { c.KVs j with
              ptrArray := store p (fun e => { e with access := max e.access c.QCnow })
                (c.KVs j).ptrArray }
          else c.KVs j) := by
  obtain ⟨hmiss, hhit⟩ := get_frame H c kp hty
  refine ⟨?_, hmiss, hhit⟩
  intro j
  cases hres : (c.get H kp).2 with
  | none => rw [hmiss hres j]; exact ⟨rfl, rfl⟩
  | some r =>
    obtain ⟨p, _, hK⟩ := hhit r hres
    rw [hK j]
    by_cases hj : j = shard_of (fingerprint H kp)
    · rw [if_pos hj]
      refine ⟨rfl, ?_⟩
      exact store_map_proj (f := fun e => { e with access := max e.access c.QCnow })
        (fun e => (e.key, e.value, e.self, e.klen, e.length, e.expire, e.ref_count))
        (fun _ => rfl) _
    · rw [if_neg hj]
      exact ⟨rfl, rfl⟩

/-- C16, witness: a `get("k")` on the cache that holds `"bb"` under `"k"`. -/
theorem get_read_only_up_to_access_witness :
    (∀ j, ((ex2.get sample_hash ex_key).1.KVs j).bt_map = (ex2.KVs j).bt_map ∧
      ((ex2.get sample_hash ex_key).1.KVs j).ptrArray.map
          (fun e => (e.key, e.value, e.self, e.klen, e.length, e.expire, e.ref_count))
        = (ex2.KVs j).ptrArray.map
          (fun e => (e.key, e.value, e.self, e.klen, e.length, e.expire, e.ref_count))) ∧
    ((ex2.get sample_hash ex_key).2 = none →
      ∀ j, (ex2.get sample_hash ex_key).1.KVs j = ex2.KVs j) ∧
    (∀ r, (ex2.get sample_hash ex_key).2 = some r →
      ∃ p, bt_find (fingerprint sample_hash ex_key)
          (ex2.KVs (shard_of (fingerprint sample_hash ex_key))).bt_map = some p ∧
        ∀ j, (ex2.get sample_hash ex_key).1.KVs j =
          if j = shard_of (fingerprint sample_hash ex_key) then
            { ex2.KVs j with
              ptrArray := store p (fun e => { e with access := max e.access ex2.QCnow })
                (ex2.KVs j).ptrArray }
          else ex2.KVs j) :=
  get_read_only_up_to_access sample_hash ex2 ex_key (by decide)

/-- C17.  In a reachable state, for every key with fingerprint `f`, with `i = f mod 32`
(an index below 32): `set` puts its entry into shard `i` (the shard's sequence grows by
one, the entry stored at the new address carries the key `f` and the bytes passed, and the
shard's map binds `f` to it) and leaves the other 31 shards as they were; `get` answers
from shard `i` alone (a hit exactly when the shard's map binds `f` to an entry of the
shard's sequence whose deadline is ahead, with that entry's bytes) and leaves the other 31
shards as they were; a `get` right after the `set`, on the same key, finds the entry when
its deadline is ahead; and for every key whose fingerprint differs from `f`, `get` returns
the same result right after the `set` as right before it. -/
theorem shard_routing_independence (H : List Nat → Nat → Nat) (c : Standard_Query_Cache)
    (kp : List Nat) (kl : Nat) (vp : List Nat) (vl : Nat) (x : Int) (entry : Nat)
    (hr : Reachable H c) (hf : c.fresh entry) :
    (shard_of (fingerprint H kp)).val = fingerprint H kp % 32 ∧
    (shard_of (fingerprint H kp)).val < 32 ∧
    (∀ i : Fin SHARED_QUERY_CACHE_HASH_TABLES, i.val = fingerprint H kp % 32 →
      ((c.set H kp kl vp vl x entry).1.KVs i).ptrArray.length
        = (c.KVs i).ptrArray.length + 1 ∧
      bt_find (fingerprint H kp) ((c.set H kp kl vp vl x entry).1.KVs i).bt_map
        = some entry ∧
      deref entry ((c.set H kp kl vp vl x entry).1.KVs i).ptrArray
        = some { key := fingerprint H kp, value := vp.take vl, self := entry, klen := kl,
                 length := vl,
                 expire := if x > HASH_EXPIRE_MAX then x else c.QCnow + x,
                 access := c.QCnow, ref_count := 1 } ∧
      (c.get H kp).2 =
        (match bt_find (fingerprint H kp) (c.KVs i).bt_map with
         | none => none
         | some p =>
           match deref p (c.KVs i).ptrArray with
           | none => none
           | some e =>
             if e.expire > c.QCnow then some (e.value.take e.length, e.length) else none) ∧
      (c.QCnow < (if x > HASH_EXPIRE_MAX then x else c.QCnow + x) →
        ((c.set H kp kl vp vl x entry).1.get H kp).2 = some ((vp.take vl).take vl, vl))) ∧
    (∀ j : Fin SHARED_QUERY_CACHE_HASH_TABLES, j.val ≠ fingerprint H kp % 32 →
      (c.set H kp kl vp vl x entry).1.KVs j = c.KVs j ∧ (c.get H kp).1.KVs j = c.KVs j) ∧
    (∀ kq, fingerprint H kq ≠ fingerprint H kp →
      ((c.set H kp kl vp vl x entry).1.get H kq).2 = (c.get H kq).2) := by
  have hidx : ∀ i : Fin SHARED_QUERY_CACHE_HASH_TABLES,
      i.val = fingerprint H kp % 32 ↔ i = shard_of (fingerprint H kp) := by
    intro i
    constructor
    · intro h; exact Fin.ext h
    · intro h; rw [h]; rfl
  refine ⟨rfl, (shard_of (fingerprint H kp)).isLt, ?_, ?_, ?_⟩
  · intro i hi
    have hi1 := (hidx i).1 hi
    subst hi1
    have hK : (c.set H kp kl vp vl x entry).1.KVs (shard_of (fingerprint H kp))
        = ((c.KVs (shard_of (fingerprint H kp))).replace (fingerprint H kp)
            (make_entry c.QCnow (fingerprint H kp) kl vp vl x entry) c.stats).1 := by
      rw [set_KVs]; simp
    obtain ⟨h1, h2⟩ := replace_binds (fingerprint H kp)
      (make_entry c.QCnow (fingerprint H kp) kl vp vl x entry) c.stats
      (reachable_WF hr (shard_of (fingerprint H kp)))
      (fun e he => hf.2.2 _ e he)
    refine ⟨?_, ?_, ?_, get_snd H c kp, ?_⟩
    · rw [hK]; exact replace_length _ _ _ _
    · rw [hK]; exact h1
    · rw [hK]; exact h2
    · intro hexp
      exact set_get_hit H c kp kl vp vl x entry hr hf hexp
  · intro j hj
    have hj1 : j ≠ shard_of (fingerprint H kp) := fun h => hj ((hidx j).2 h)
    obtain ⟨p, F, _, hK⟩ := get_KVs H c kp
    rw [set_KVs, hK j]
    simp only [hj1, if_false, and_self]
  · intro kq hne
    have hq : (c.set H kp kl vp vl x entry).1.QCnow = c.QCnow := rfl
    rw [get_snd, get_snd, hq, set_KVs]
    by_cases hj : shard_of (fingerprint H kq) = shard_of (fingerprint H kp)
    · simp only [hj, if_true]
      obtain ⟨h1, h2⟩ := replace_other_key_eq (fingerprint H kp) (fingerprint H kq)
        (make_entry c.QCnow (fingerprint H kp) kl vp vl x entry) c.stats
        (reachable_WF hr (shard_of (fingerprint H kp)))
        (fun e he => hf.2.2 _ e he) (fun hh => hne hh.symm)
      rw [h1]
      cases hfind : bt_find (fingerprint H kq)
          (c.KVs (shard_of (fingerprint H kp))).bt_map with
      | none => rfl
      | some q =>
        simp only
        rw [h2 q hfind]
    · simp only [hj, if_false]

/-- C17, witness: in the cache that holds `"bb"` under `"k"` (fingerprint 107, shard 11),
a `set` of `"c"` under the one-byte key 139 (fingerprint 139, shard 11 as well) at address
12288.  The entry is bound in shard 11, a `get` on the new key finds `"c"`, and a `get` on
`"k"` finds `"bb"` before the `set` and after it. -/
theorem shard_routing_independence_witness :
    fingerprint sample_hash [139, 0] % 32 = 11 ∧
    fingerprint sample_hash ex_key % 32 = 11 ∧
    bt_find 139 ((ex2.set sample_hash [139, 0] 1 [99] 1 60 12288).1.KVs ⟨11, by decide⟩).bt_map
      = some 12288 ∧
    ((ex2.set sample_hash [139, 0] 1 [99] 1 60 12288).1.get sample_hash [139, 0]).2
      = some ([99], 1) ∧
    (ex2.get sample_hash ex_key).2 = some ([98, 98], 2) ∧
    ((ex2.set sample_hash [139, 0] 1 [99] 1 60 12288).1.get sample_hash ex_key).2
      = some ([98, 98], 2) :=
  have h := shard_routing_independence sample_hash ex2 [139, 0] 1 [99] 1 60 12288
    ex2_reachable ex2_fresh
  have hg : (ex2.get sample_hash ex_key).2 = some ([98, 98], 2) := by decide
  ⟨by decide, by decide,
   (h.2.2.1 ⟨11, by decide⟩ (by decide)).2.1,
   (h.2.2.1 ⟨11, by decide⟩ (by decide)).2.2.2.2 (by decide),
   hg,
   (h.2.2.2.2 ex_key (by decide)).trans hg⟩

/-- C20.  Two key buffers that agree on all bytes up to and including their first zero
byte (a common zero-free prefix `pre`, the zero byte, then anything) have the same
fingerprint and the same shard, whatever key lengths are declared; `get` behaves the same
on both; and in a reachable state, after a `set` under the first and a `set` under the
second (with any declared lengths), the key is bound once, to the second entry, and `get`
on either buffer returns the value set last. -/
theorem key_identity_ignores_length (H : List Nat → Nat → Nat) (pre rest1 rest2 : List Nat)
    (hpre : ∀ b ∈ pre, b ≠ 0) :
    fingerprint H (pre ++ 0 :: rest1) = fingerprint H (pre ++ 0 :: rest2) ∧
    shard_of (fingerprint H (pre ++ 0 :: rest1)) = shard_of (fingerprint H (pre ++ 0 :: rest2)) ∧
    (∀ c : Standard_Query_Cache, c.get H (pre ++ 0 :: rest1) = c.get H (pre ++ 0 :: rest2)) ∧
    (∀ (c : Standard_Query_Cache) (kl1 kl2 : Nat) (a b : List Nat) (x1 x2 : Int) (p1 p2 : Nat),
      Reachable H c → c.fresh p1 →
      (c.set H (pre ++ 0 :: rest1) kl1 a a.length x1 p1).1.fresh p2 →
      c.QCnow < (if x2 > HASH_EXPIRE_MAX then x2 else c.QCnow + x2) →
      (((c.set H (pre ++ 0 :: rest1) kl1 a a.length x1 p1).1.set H (pre ++ 0 :: rest2) kl2
          b b.length x2 p2).1.get H (pre ++ 0 :: rest1)).2 = some (b, b.length) ∧
      (((c.set H (pre ++ 0 :: rest1) kl1 a a.length x1 p1).1.set H (pre ++ 0 :: rest2) kl2
          b b.length x2 p2).1.get H (pre ++ 0 :: rest2)).2 = some (b, b.length) ∧
      bt_find (fingerprint H (pre ++ 0 :: rest1))
        (((c.set H (pre ++ 0 :: rest1) kl1 a a.length x1 p1).1.set H (pre ++ 0 :: rest2) kl2
          b b.length x2 p2).1.KVs (shard_of (fingerprint H (pre ++ 0 :: rest1)))).bt_map
        = some p2 ∧
      List.countP (fun x => decide (x.1 = fingerprint H (pre ++ 0 :: rest1)))
        (((c.set H (pre ++ 0 :: rest1) kl1 a a.length x1 p1).1.set H (pre ++ 0 :: rest2) kl2
          b b.length x2 p2).1.KVs (shard_of (fingerprint H (pre ++ 0 :: rest1)))).bt_map
        = 1) := by
  have hfp : fingerprint H (pre ++ 0 :: rest1) = fingerprint H (pre ++ 0 :: rest2) := by
    rw [fingerprint_prefix_zero H pre rest1 hpre, fingerprint_prefix_zero H pre rest2 hpre]
  have hget : ∀ c : Standard_Query_Cache,
      c.get H (pre ++ 0 :: rest1) = c.get H (pre ++ 0 :: rest2) := by
    intro c
    simp only [Standard_Query_Cache.get, hfp]
  refine ⟨hfp, by rw [hfp], hget, ?_⟩
  intro c kl1 kl2 a b x1 x2 p1 p2 hr hf1 hf2 hexp
  have hr1 : Reachable H (c.set H (pre ++ 0 :: rest1) kl1 a a.length x1 p1).1 :=
    Reachable.set _ kl1 a a.length x1 p1 hr hf1
  have hq : (c.set H (pre ++ 0 :: rest1) kl1 a a.length x1 p1).1.QCnow = c.QCnow := rfl
  generalize (c.set H (pre ++ 0 :: rest1) kl1 a a.length x1 p1).1 = c1 at hr1 hf2 hq ⊢
  have hhit := set_get_hit H c1 (pre ++ 0 :: rest2) kl2 b b.length x2 p2 hr1 hf2
    (by rw [hq]; exact hexp)
  have hv : (b.take b.length).take b.length = b := by simp
  rw [hv] at hhit
  obtain ⟨h1, _⟩ := replace_binds (fingerprint H (pre ++ 0 :: rest2))
    (make_entry c1.QCnow (fingerprint H (pre ++ 0 :: rest2)) kl2 b b.length x2 p2) c1.stats
    (reachable_WF hr1 (shard_of (fingerprint H (pre ++ 0 :: rest2))))
    (fun e he => hf2.2.2 _ e he)
  have hK : (c1.set H (pre ++ 0 :: rest2) kl2 b b.length x2 p2).1.KVs
        (shard_of (fingerprint H (pre ++ 0 :: rest2)))
      = ((c1.KVs (shard_of (fingerprint H (pre ++ 0 :: rest2)))).replace
          (fingerprint H (pre ++ 0 :: rest2))
          (make_entry c1.QCnow (fingerprint H (pre ++ 0 :: rest2)) kl2 b b.length x2 p2)
          c1.stats).1 := by
    rw [set_KVs]; simp
  refine ⟨by rw [hget]; exact hhit, hhit, ?_, ?_⟩
  · rw [hfp, hK]
    exact h1
  · rw [hfp, hK]
    exact replace_one_binding _ _ _ _

/-- C20, witness: the buffers `"k\0"` and `"k\0xy"` (declared lengths 1 and 4). -/
theorem key_identity_ignores_length_witness :
    fingerprint sample_hash ([107] ++ 0 :: []) = fingerprint sample_hash ([107] ++ 0 :: [120, 121]) ∧
    shard_of (fingerprint sample_hash ([107] ++ 0 :: []))
      = shard_of (fingerprint sample_hash ([107] ++ 0 :: [120, 121])) ∧
    (∀ c : Standard_Query_Cache,
      c.get sample_hash ([107] ++ 0 :: []) = c.get sample_hash ([107] ++ 0 :: [120, 121])) ∧
    (((ex0.set sample_hash ([107] ++ 0 :: []) 1 [97] [97].length 60 4096).1.set sample_hash
          ([107] ++ 0 :: [120, 121]) 4 [98, 98] [98, 98].length 60 8192).1.get sample_hash
          ([107] ++ 0 :: [])).2 = some ([98, 98], [98, 98].length) :=
  ⟨(key_identity_ignores_length sample_hash [107] [] [120, 121] (by decide)).1,
   (key_identity_ignores_length sample_hash [107] [] [120, 121] (by decide)).2.1,
   (key_identity_ignores_length sample_hash [107] [] [120, 121] (by decide)).2.2.1,
   ((key_identity_ignores_length sample_hash [107] [] [120, 121] (by decide)).2.2.2
      ex0 1 4 [97] [98, 98] 60 60 4096 8192 (Reachable.init 1000) ex0_fresh ex1_fresh
      (by decide)).1⟩

/-- C14.  Purge completeness: when the yield gate of `purge_some` passes, no entry left in
the sequence has both (`expire == DROPIT` or `expire < now`) and `ref_count <= 1`; the
surviving sequence is a permutation of the entries of the initial sequence that did not
satisfy that condition; and the removal loop reaches its exit with the iterations the
length of the sequence allows (running it with more changes nothing). -/
theorem purge_some_complete (QCnow : Int) (kv : KV_BtreeArray) (st : Counters)
    (hgate : KV_BtreeArray.purge_gate (KV_BtreeArray.purge_scan QCnow kv.ptrArray).2
      (KV_BtreeArray.purge_scan QCnow kv.ptrArray).1 st = true) :
    (∀ e ∈ (kv.purge_some QCnow st).1.ptrArray,
      ¬ ((e.expire = EXPIRE_DROPIT ∨ e.expire < QCnow) ∧ e.ref_count ≤ 1)) ∧
    (kv.purge_some QCnow st).1.ptrArray.Perm
      (kv.ptrArray.filter (fun e =>
        !((decide (e.expire = EXPIRE_DROPIT) || decide (e.expire < QCnow))
            && decide (e.ref_count ≤ 1)))) ∧
    (∀ k : Nat,
      (KV_BtreeArray.purge_loop QCnow (kv.ptrArray.length + k) 0
          { kv with freeable_memory := (KV_BtreeArray.purge_scan QCnow kv.ptrArray).2 } 0 0)
        = (KV_BtreeArray.purge_loop QCnow kv.ptrArray.length 0
          { kv with freeable_memory := (KV_BtreeArray.purge_scan QCnow kv.ptrArray).2 } 0 0)) ∧
    (kv.purge_some QCnow st).1.ptrArray
      = (KV_BtreeArray.purge_loop QCnow kv.ptrArray.length 0
          { kv with freeable_memory := (KV_BtreeArray.purge_scan QCnow kv.ptrArray).2 }
          0 0).1.ptrArray := by
  have hres : (kv.purge_some QCnow st).1.ptrArray
      = (KV_BtreeArray.purge_loop QCnow kv.ptrArray.length 0
          { kv with freeable_memory := (KV_BtreeArray.purge_scan QCnow kv.ptrArray).2 }
          0 0).1.ptrArray := by
    simp only [KV_BtreeArray.purge_some, hgate, if_true]
  have hdone := purge_loop_done QCnow kv.ptrArray.length 0
    { kv with freeable_memory := (KV_BtreeArray.purge_scan QCnow kv.ptrArray).2 } 0 0
    (Nat.sub_le _ _) (by intro e he; simp at he)
  obtain ⟨_, hkeep⟩ := purge_loop_keeps QCnow kv.ptrArray.length 0
    { kv with freeable_memory := (KV_BtreeArray.purge_scan QCnow kv.ptrArray).2 } 0 0
  refine ⟨?_, ?_, ?_, hres⟩
  · intro e he hc
    rw [hres] at he
    have := hdone e he
    simp only [KV_BtreeArray.evictable, Bool.and_eq_false_imp, Bool.or_eq_true,
      decide_eq_true_eq, decide_eq_false_iff_not] at this
    exact this hc.1 hc.2
  · rw [hres, List.perm_iff_count]
    intro e
    by_cases hc : (KV_BtreeArray.evictable QCnow e && decide (e.ref_count ≤ 1)) = true
    · have h0 : List.count e (KV_BtreeArray.purge_loop QCnow kv.ptrArray.length 0
          { kv with freeable_memory := (KV_BtreeArray.purge_scan QCnow kv.ptrArray).2 }
          0 0).1.ptrArray = 0 := by
        rw [List.count_eq_zero]
        intro he
        have := hdone e he
        rw [hc] at this
        exact absurd this (by decide)
      rw [h0]
      symm
      rw [List.count_eq_zero]
      intro he
      have h1 := (List.mem_filter.1 he).2
      simp only [KV_BtreeArray.evictable] at hc
      rw [hc] at h1
      exact absurd h1 (by decide)
    · have hc1 : (KV_BtreeArray.evictable QCnow e && decide (e.ref_count ≤ 1)) = false := by
        simpa using hc
      rw [hkeep e hc1]
      symm
      apply List.count_filter
      simp only [KV_BtreeArray.evictable] at hc1
      rw [hc1]
      rfl
  · intro k
    exact purge_loop_fuel QCnow kv.ptrArray.length k 0 _ 0 0 (Nat.sub_le _ _)

/-- C14, witness: a shard with a stale entry, a borrowed stale entry and a live entry; the
gate passes at time 1001. -/
theorem purge_some_complete_witness :
    (∀ e ∈ (ex_stale_shard.purge_some 1001 ex_stale_stats).1.ptrArray,
      ¬ ((e.expire = EXPIRE_DROPIT ∨ e.expire < 1001) ∧ e.ref_count ≤ 1)) ∧
    (ex_stale_shard.purge_some 1001 ex_stale_stats).1.ptrArray.length = 2 :=
  ⟨(purge_some_complete 1001 ex_stale_shard ex_stale_stats (by decide)).1, by decide⟩

/-- C15.  Purge accounting: for a call of `purge_some` on a shard whose sequence holds
fewer than `2^64` entries, by a thread whose `__thr_num_deleted` is zero (as the macro
leaves it), the surviving sequence is a sub-multiset of the old one; with `removed` the
number of entries removed and `freed_bytes` the sum of their `length` fields, the counters
become `num_entries - removed`, `size_values - freed_bytes`,
`total_freed_memory + freed_bytes` and `cntPurge + removed` modulo `2^64`, every other
counter is unchanged, and when nothing is removed no counter changes at all. -/
theorem purge_some_accounting (QCnow : Int) (kv : KV_BtreeArray) (st : Counters)
    (h0 : st.__thr_num_deleted = 0) (hlen : kv.ptrArray.length < U64) :
    (kv.purge_some QCnow st).1.ptrArray.Subperm kv.ptrArray ∧
    (kv.purge_some QCnow st).1.ptrArray.length ≤ kv.ptrArray.length ∧
    sum_length (kv.purge_some QCnow st).1.ptrArray ≤ sum_length kv.ptrArray ∧
    (kv.ptrArray.length - (kv.purge_some QCnow st).1.ptrArray.length = 0 →
      (kv.purge_some QCnow st).2 = st) ∧
    (kv.ptrArray.length - (kv.purge_some QCnow st).1.ptrArray.length ≠ 0 →
      (kv.purge_some QCnow st).2
        = { st with
            Glo_num_entries :=
              (st.Glo_num_entries
                + (U64 - (kv.ptrArray.length - (kv.purge_some QCnow st).1.ptrArray.length)))
                % U64,
            Glo_size_values :=
              (st.Glo_size_values
                + (U64 - (sum_length kv.ptrArray
                    - sum_length (kv.purge_some QCnow st).1.ptrArray) % U64)) % U64,
            Glo_total_freed_memory :=
              (st.Glo_total_freed_memory
                + (sum_length kv.ptrArray
                    - sum_length (kv.purge_some QCnow st).1.ptrArray)) % U64,
            Glo_cntPurge :=
              (st.Glo_cntPurge
                + (kv.ptrArray.length - (kv.purge_some QCnow st).1.ptrArray.length))
                % U64 }) :=
  purge_some_stats QCnow kv st h0 hlen

/-- C15, witness: one of the three entries of `ex_stale_shard` is removed at time 1001,
freeing two bytes. -/
theorem purge_some_accounting_witness :
    ex_stale_stats.__thr_num_deleted = 0 ∧ ex_stale_shard.ptrArray.length < U64 ∧
    (ex_stale_shard.purge_some 1001 ex_stale_stats).1.ptrArray.Subperm ex_stale_shard.ptrArray ∧
    sum_length (ex_stale_shard.purge_some 1001 ex_stale_stats).1.ptrArray
      ≤ sum_length ex_stale_shard.ptrArray ∧
    (ex_stale_shard.purge_some 1001 ex_stale_stats).2
      = { ex_stale_stats with
          Glo_num_entries := 2, Glo_size_values := 2, Glo_total_freed_memory := 2,
          Glo_cntPurge := 1 } :=
  ⟨rfl, by decide,
   (purge_some_accounting 1001 ex_stale_shard ex_stale_stats rfl (by decide)).1,
   (purge_some_accounting 1001 ex_stale_shard ex_stale_stats rfl (by decide)).2.2.1,
   by decide⟩

set_option maxRecDepth 20000 in
/-- C13.  Memory percentage: with 18 entries and 134216000 bytes of values every shard
reports `get_data_size() = 2^27`, so the sum over the 32 shards is `2^32`, far above the
default `max_memory_size` of 4 MiB, and the stated percentage is 100.  The accumulator of
`get_data_size_total` is an `int`: it wraps to 0, `current_used_memory_pct` returns 0, and
the reclaimer's iteration, which compares it with `purge_threshold_pct_min = 3`, purges
nothing. -/
theorem used_memory_pct_wraps :
    0 < ex_wrap.max_memory_size ∧
    KV_BtreeArray.get_data_size ex_wrap.stats = 134217728 ∧
    ((List.finRange SHARED_QUERY_CACHE_HASH_TABLES).map
        (fun _ => KV_BtreeArray.get_data_size ex_wrap.stats)).sum = 4294967296 ∧
    spec_used_memory_pct ex_wrap = 100 ∧
    ex_wrap.get_data_size_total = 0 ∧
    ex_wrap.current_used_memory_pct = 0 ∧
    ex_wrap.current_used_memory_pct ≠ spec_used_memory_pct ex_wrap ∧
    (ex_wrap.purgeHash_tick 1001).stats = ex_wrap.stats := by
  refine ⟨by decide, by decide, by decide, by decide, by decide, by decide, by decide, by decide⟩

set_option maxRecDepth 100000 in
/-- C11, counterexample.  Eviction under pressure, `max_memory_size = 1024`, counters
zero, 200 sets of 64-byte values with `expire = -1` at time 1000 on keys with 200 distinct
fingerprints, then one iteration of the reclaimer (a thread of its own) at time 1000.

First input, a skewed assignment, all sets issued by one thread: one fingerprint is routed
to shard 0 and 199 to shard 1.  `purge_some` on shard 0 finds one removable entry,
`64 + 96 = 160` bytes, which is not more than one per cent of the 32000 bytes in use, so
it returns without removing it; one entry is left and 12736 bytes have been freed.

Second input, an even assignment (six or seven fingerprints per shard), every set issued
by a thread of its own: each thread keeps its 64 bytes in its own `__thr_size_values`, the
process-wide `Glo_size_values` is still 0 when the reclaimer runs, the subtractions of
`purge_some` wrap it around, and from shard 19 on the yield test fails; 78 entries are
left and 7808 bytes have been freed. -/
theorem eviction_leaves_entries :
    (ex_skew_sets.length = 200 ∧
     (ex_skew_sets.map (fun s => fingerprint sample_hash s.1)).Nodup ∧
     ((((Standard_Query_Cache.new 1000).set_max_memory_size 1024).pressure_sets sample_hash
        ex_skew_sets).new_thread.purgeHash_tick 1000).stats.Glo_num_entries = 1 ∧
     ((((Standard_Query_Cache.new 1000).set_max_memory_size 1024).pressure_sets sample_hash
        ex_skew_sets).new_thread.purgeHash_tick 1000).stats.Glo_total_freed_memory = 12736) ∧
    (ex_even_sets.length = 200 ∧
     (ex_even_sets.map (fun s => fingerprint sample_hash s.1)).Nodup ∧
     gates_pass ((List.finRange SHARED_QUERY_CACHE_HASH_TABLES).map
        (shard_load (ex_even_sets.map (fun s => fingerprint sample_hash s.1)))) = true ∧
     (((Standard_Query_Cache.new 1000).set_max_memory_size 1024).pressure_sets_threads
        sample_hash ex_even_sets).stats.Glo_num_entries = 200 ∧
     (((Standard_Query_Cache.new 1000).set_max_memory_size 1024).pressure_sets_threads
        sample_hash ex_even_sets).stats.Glo_size_values = 0 ∧
     ((((Standard_Query_Cache.new 1000).set_max_memory_size 1024).pressure_sets_threads
        sample_hash ex_even_sets).new_thread.purgeHash_tick 1000).stats.Glo_num_entries
        = 78 ∧
     ((((Standard_Query_Cache.new 1000).set_max_memory_size 1024).pressure_sets_threads
        sample_hash ex_even_sets).new_thread.purgeHash_tick 1000).stats.Glo_total_freed_memory
        = 7808) := by
  have hgB : gates_pass ((List.finRange SHARED_QUERY_CACHE_HASH_TABLES).map
        (shard_load (ex_even_sets.map (fun s => fingerprint sample_hash s.1)))) = true := by
    rw [ex_even_sets_loads]; decide
  -- the state one thread leaves, for either list of sets
  have hrun : ∀ sets : List (List Nat × Nat × List Nat × Nat), sets.length = 200 →
      (sets.map (fun s => fingerprint sample_hash s.1)).Nodup →
      (((Standard_Query_Cache.new 1000).set_max_memory_size 1024).pressure_sets sample_hash
          sets).Pressure 1000 (sets.map (fun s => fingerprint sample_hash s.1)) := by
    intro sets hlen hnd
    have hp := pressure_sets_inv sample_hash 1000 sets
      ((Standard_Query_Cache.new 1000).set_max_memory_size 1024) [] (pressure_init 1000 1024)
      (by simpa using hnd) (by rw [hlen]; decide)
    rw [List.nil_append] at hp
    exact hp
  refine ⟨⟨ex_skew_sets_length, ex_skew_sets_nodup, ?_⟩,
    ⟨ex_even_sets_length, ex_even_sets_nodup, hgB, ?_⟩⟩
  · -- one thread, skewed assignment
    have hcfg := pressure_sets_cfg sample_hash ex_skew_sets
      ((Standard_Query_Cache.new 1000).set_max_memory_size 1024)
    exact pressure_tick_counters _ 1000 1000 _ 1 64 12736
      (hrun ex_skew_sets ex_skew_sets_length ex_skew_sets_nodup)
      (by rw [List.length_map]; exact ex_skew_sets_length) (Int.le_refl _)
      hcfg.1 hcfg.2 (by rw [ex_skew_sets_loads]; exact stale_fold_skew)
  · -- the even assignment, every set from a thread of its own
    have hK := pressure_sets_threads_KVs sample_hash ex_even_sets
      ((Standard_Query_Cache.new 1000).set_max_memory_size 1024)
      ((Standard_Query_Cache.new 1000).set_max_memory_size 1024) rfl rfl
    have hst := pressure_sets_threads_stats sample_hash ex_even_sets
      ((Standard_Query_Cache.new 1000).set_max_memory_size 1024) 0 rfl
      (by rw [ex_even_sets_length]; decide)
    rw [ex_even_sets_length] at hst
    exact pressure_tick_counters_threads _ _ 1000 1000 _ 78 18446744073709543808 7808
      (hrun ex_even_sets ex_even_sets_length ex_even_sets_nodup)
      (by rw [List.length_map]; exact ex_even_sets_length) (Int.le_refl _)
      hK.1 hst.1 hst.2.1 hst.2.2 (by rw [ex_even_sets_loads]; exact stale_fold_threads)

/-- C11 (amended).  Eviction under pressure: start from the empty cache with zeroed
counters and `max_memory_size = 1024`; let one thread issue 200 sets of 64-byte values
with `expire = -1` on keys with pairwise distinct fingerprints, assigned to the shards so
that every shard that receives a fingerprint receives more than one per cent of the
fingerprints assigned to itself and to the shards after it; then let the reclaimer (a
thread of its own) run one iteration at a time not before the sets.  Then `num_entries`
is 0, `total_freed_memory` is 12800 and every shard's sequence is empty. -/
theorem eviction_under_pressure (H : List Nat → Nat → Nat) (t0 t : Int)
    (sets : List (List Nat × Nat × List Nat × Nat))
    (hlen : sets.length = 200)
    (hdist : (sets.map (fun s => fingerprint H s.1)).Nodup)
    (hgates : gates_pass ((List.finRange SHARED_QUERY_CACHE_HASH_TABLES).map
      (shard_load (sets.map (fun s => fingerprint H s.1)))) = true)
    (ht : t0 ≤ t) :
    ((((Standard_Query_Cache.new t0).set_max_memory_size 1024).pressure_sets H
        sets).new_thread.purgeHash_tick t).stats.Glo_num_entries = 0 ∧
    ((((Standard_Query_Cache.new t0).set_max_memory_size 1024).pressure_sets H
        sets).new_thread.purgeHash_tick t).stats.Glo_total_freed_memory = 12800 ∧
    ∀ i, (((((Standard_Query_Cache.new t0).set_max_memory_size 1024).pressure_sets H
        sets).new_thread.purgeHash_tick t).KVs i).ptrArray = [] := by
  have hp := pressure_sets_inv H t0 sets
    ((Standard_Query_Cache.new t0).set_max_memory_size 1024) [] (pressure_init t0 1024)
    (by simpa using hdist) (by rw [hlen]; decide)
  rw [List.nil_append] at hp
  obtain ⟨hm, hthr⟩ := pressure_sets_cfg H sets
    ((Standard_Query_Cache.new t0).set_max_memory_size 1024)
  generalize ((Standard_Query_Cache.new t0).set_max_memory_size 1024).pressure_sets
    H sets = c1 at hp hm hthr ⊢
  obtain ⟨hd1, hGn, hGs⟩ := pressure_draining c1 t0 t _ hp
    (by rw [List.length_map]; exact hlen) ht
  have hd : (c1.new_thread.set_now t).Draining :=
    { entries := hd1.entries
      total := hd1.total
      num_entries := hd1.num_entries
      size_values := hd1.size_values
      freed := hd1.freed
      thr_num_deleted := rfl }
  have hpct := pressure_pct (c1.new_thread.set_now t) hGn hGs hm
  have htick : c1.new_thread.purgeHash_tick t
      = (List.finRange SHARED_QUERY_CACHE_HASH_TABLES).foldl (fun acc i => acc.purge_shard i)
          (c1.new_thread.set_now t) := by
    simp only [Standard_Query_Cache.purgeHash_tick]
    rw [if_neg]
    rw [hpct]
    show ¬ 100 < c1.purge_threshold_pct_min
    rw [hthr]
    show ¬ 100 < DEFAULT_purge_threshold_pct_min
    decide
  have hlens : (List.finRange SHARED_QUERY_CACHE_HASH_TABLES).map
        (fun i => ((c1.new_thread.set_now t).KVs i).ptrArray.length)
      = (List.finRange SHARED_QUERY_CACHE_HASH_TABLES).map
        (shard_load (sets.map (fun s => fingerprint H s.1))) :=
    List.map_congr_left (fun i _ => hp.lens i)
  obtain ⟨f1, f2⟩ := purge_fold_gates (List.finRange SHARED_QUERY_CACHE_HASH_TABLES)
    (List.nodup_finRange _) (c1.new_thread.set_now t) hd rfl (by rw [hlens]; exact hgates)
  rw [htick]
  have k1 := f1.num_entries
  have k2 := f1.freed
  rw [f2] at k1 k2
  refine ⟨k1, by omega, ?_⟩
  intro i
  apply List.length_eq_zero.1
  have := shard_sum_ge (fun kv => kv.ptrArray.length)
    ((List.finRange SHARED_QUERY_CACHE_HASH_TABLES).foldl (fun acc i => acc.purge_shard i)
      (c1.new_thread.set_now t)) i rfl
  rw [f2] at this
  exact Nat.le_zero.1 this

set_option maxRecDepth 100000 in
/-- C11 (amended), witness: the 200 one-byte keys `1 .. 200`, whose fingerprints under
`sample_hash` are `1 .. 200`, so that every shard receives six or seven of them. -/
theorem eviction_under_pressure_witness :
    ex_even_sets.length = 200 ∧
    (ex_even_sets.map (fun s => fingerprint sample_hash s.1)).Nodup ∧
    (List.finRange SHARED_QUERY_CACHE_HASH_TABLES).map
        (shard_load (ex_even_sets.map (fun s => fingerprint sample_hash s.1)))
      = [6, 7, 7, 7, 7, 7, 7, 7, 7, 6, 6, 6, 6, 6, 6, 6, 6, 6, 6, 6, 6, 6, 6, 6, 6, 6, 6, 6,
         6, 6, 6, 6] ∧
    ((((Standard_Query_Cache.new 1000).set_max_memory_size 1024).pressure_sets sample_hash
        ex_even_sets).new_thread.purgeHash_tick 1000).stats.Glo_num_entries = 0 ∧
    ((((Standard_Query_Cache.new 1000).set_max_memory_size 1024).pressure_sets sample_hash
        ex_even_sets).new_thread.purgeHash_tick 1000).stats.Glo_total_freed_memory = 12800 :=
  have hlen := ex_even_sets_length
  have hnd := ex_even_sets_nodup
  have hl := ex_even_sets_loads
  have h := eviction_under_pressure sample_hash 1000 1000 ex_even_sets hlen hnd
    (by rw [hl]; decide) (by decide)
  ⟨hlen, hnd, hl, h.1, h.2.1⟩

end QueryCache
